import Mathlib

/-!
# HyreLog Go SDK: retrying transport, batching queue, query builder, mock store

A shallow embedding of `packages/go-sdk/client.go` (`BaseClient.Request`),
`packages/go-sdk/workspace.go` (`LogBatch`, `QueueEvent`, `FlushBatch`,
`buildQueryString`) and `packages/go-sdk/testing/mock.go` (`Add`, `Query`,
`Clear`, `Count`).

Modelling conventions.

* Go `int` and `time.Duration` values are Lean `Int`s.  In `client.go` and
  `workspace.go` the integer arithmetic of the embedded code (counters, lengths,
  indices) does not leave the `int64` range for inputs of realistic size, so no
  wrap-around is modelled there.  `Query` multiplies and adds the page and limit
  its caller supplies; there every operation wraps around like a 64-bit Go
  `int` (`wrapInt`).
* `RetryConfig.Multiplier` is a `float64` in the source.  Every finite
  `float64` is a rational number, so the field is a `Rat`; a NaN or infinite
  multiplier is outside the model.  The update
  `time.Duration(float64(delay) * Multiplier)` is computed as the source
  computes it (`scaleDelay`): the delay is rounded to the nearest `float64`,
  the product is rounded to the nearest `float64`, ties to even, and the result
  is truncated toward zero.  Go leaves the conversion of a `float64` outside
  the `int64` range to the implementation; the model takes the value amd64
  gives (`outOfRangeInt64`), and no theorem below rests on that choice.
* The HTTP transport `c.httpClient.Do` is an oracle: a function from the number
  of calls made so far to the outcome of the next call.
* `time.ParseDuration` (standard library) is a parameter `parseDuration`.
* Effects (HTTP calls, sleeps) are recorded in a chronological trace.
-/

namespace Hyrelog

/-! ## client.go -/

/-- RetryConfig configures retry behavior. -/
structure RetryConfig where
  MaxRetries : Int
  InitialDelay : Int
  MaxDelay : Int
  Multiplier : Rat
  RetryableStatusCodes : List Int

/-- DefaultRetryConfig, durations in nanoseconds. -/
def DefaultRetryConfig : RetryConfig where
  MaxRetries := 3
  InitialDelay := 1000000000
  MaxDelay := 10000000000
  Multiplier := 2
  RetryableStatusCodes := [429, 500, 502, 503, 504]

/-- What one call of `c.httpClient.Do(req)` produces: a network-level error, or
a response with its status code, the value of `resp.Header.Get("Retry-After")`
(the empty string when the header is absent) and its body text. -/
inductive Outcome where
  | netErr (err : String)
  | response (status : Int) (retryAfter : String) (body : String)
  deriving DecidableEq, Repr

/-- The errors `Request` can return. -/
inductive RequestError where
  /-- Source: `fmt.Errorf("failed to marshal request body: %w", err)` -/
  | marshalFailed (cause : String)
  /-- Source: `fmt.Errorf("failed to create request: %w", err)` -/
  | createFailed (cause : String)
  /-- Source: `fmt.Errorf("request failed: %w", err)` -/
  | requestFailed (cause : String)
  /-- Source: `fmt.Errorf("API error: %d %s", resp.StatusCode, string(bodyBytes))` -/
  | apiError (status : Int) (body : String)
  /-- Source: `return nil, lastErr` after the loop -/
  | lastErr (cause : String)
  /-- Source: `fmt.Errorf("request failed after %d retries", MaxRetries)` -/
  | afterRetries (maxRetries : Int)
  deriving DecidableEq, Repr

/-- The pair `(*http.Response, error)` returned by `Request`. -/
inductive RequestResult where
  | ok (status : Int) (retryAfter : String) (body : String)
  | error (e : RequestError)
  deriving DecidableEq, Repr

/-- One observable effect of `Request`. -/
inductive Step where
  /-- One call of `c.httpClient.Do(req)` -/
  | call
  /-- Source: `time.Sleep(delay)` of the exponential backoff -/
  | backoff (d : Int)
  /-- Source: `time.Sleep(retryAfterSec)` of the rate-limit branch -/
  | rateLimit (d : Int)
  deriving DecidableEq, Repr

/-- A finished `Request`: what it returned and what it did, in order. -/
structure RequestRun where
  result : RequestResult
  trace : List Step
  deriving DecidableEq, Repr

/-- Number of HTTP attempts of a run. -/
def RequestRun.attempts (r : RequestRun) : Nat := r.trace.count Step.call

/-- The backoff sleeps of a run, in order. -/
def backoffSleeps : List Step → List Int
  | [] => []
  | Step.backoff d :: t => d :: backoffSleeps t
  | _ :: t => backoffSleeps t

/-- All sleeps of a run (backoff and rate-limit), in order. -/
def allSleeps : List Step → List Int
  | [] => []
  | Step.backoff d :: t => d :: allSleeps t
  | Step.rateLimit d :: t => d :: allSleeps t
  | Step.call :: t => allSleeps t

/-! ### The float64 arithmetic of the delay (client.go lines 115 and 153)

`time.Duration(float64(delay) * Multiplier)` converts the delay to a `float64`,
multiplies two `float64` values and converts the product to an `int64`.  A
finite non-zero `float64` has the magnitude `m * 2^e` with
`2^52 <= m < 2^53`; the conversion of an integer and the product both round
their exact result to the nearest such value, ties to the even `m`.  A rounded
magnitude is kept below as the pair `(m, e)`. -/

/-- The number of halvings that bring `n` below 2, at most `fuel` of them. -/
def log2Fuel : Nat → Nat → Nat
  | 0, _ => 0
  | fuel + 1, n => if n < 2 then 0 else log2Fuel fuel (n / 2) + 1

/-- The position of the leading bit of `n`: the largest `t` with `2^t <= n`
(0 for `n = 0`). -/
def floorLog2 (n : Nat) : Nat := log2Fuel n n

/-- The binary exponent of the positive ratio `N / D`: the `t` with
`2^t <= N / D < 2^(t+1)`.  Below 1 the difference of the leading bit positions
is the exponent or one above it, which a comparison settles. -/
def floorLog2Ratio (N D : Nat) : Int :=
  if D ≤ N then (floorLog2 (N / D) : Int)
  else if D ≤ N * 2 ^ (floorLog2 D - floorLog2 N) then
    -((floorLog2 D - floorLog2 N : Nat) : Int)
  else -((floorLog2 D - floorLog2 N : Nat) : Int) - 1

/-- The integer nearest to `num / den`, a tie going to the even one. -/
def roundHalfEven (num den : Nat) : Nat :=
  if 2 * (num % den) < den then num / den
  else if den < 2 * (num % den) then num / den + 1
  else if (num / den) % 2 = 0 then num / den
  else num / den + 1

/-- The `float64` nearest to the ratio `N / D`, as a pair `(m, e)` of value
`m * 2^e`: the ratio is scaled to 53 significant bits and rounded there.  The
exponent range of `float64` is not represented: a magnitude above it is far
outside the `int64` range and one below it is far below 1, and the conversion
to `int64` sends both where the unbounded exponent sends them. -/
def roundMag (N D : Nat) : Nat × Int :=
  if N = 0 then (0, 0)
  else
    let e := floorLog2Ratio N D - 52
    if e ≥ 0 then (roundHalfEven N (D * 2 ^ e.toNat), e)
    else (roundHalfEven (N * 2 ^ (-e).toNat) D, e)

/-- The integer part of the magnitude `m * 2^e`. -/
def truncMag (x : Nat × Int) : Nat :=
  if x.2 ≥ 0 then x.1 * 2 ^ x.2.toNat else x.1 / 2 ^ (-x.2).toNat

/-- The conversion `float64(delay)` of an integer: the nearest `float64`, which
is an integer again. -/
def float64OfInt (x : Int) : Int :=
  Int.sign x * (truncMag (roundMag x.natAbs 1) : Int)

/-- What the conversion of a `float64` outside the `int64` range yields.  Go
leaves this value to the implementation; on amd64 it is the least `int64`. -/
def outOfRangeInt64 : Int := -9223372036854775808

/-- The conversion of a `float64` to `int64` (`time.Duration(...)`) applied to
the integer part `v` of the `float64`: the fraction is discarded, and a value
outside the `int64` range has no portable result. -/
def int64OfFloat64 (v : Int) : Int :=
  if -9223372036854775808 ≤ v ∧ v < 9223372036854775808 then v else outOfRangeInt64

/-- The conversion `time.Duration(float64(delay) * Multiplier)`: the delay is
rounded to a `float64`, the exact product of two `float64` values is rounded to
a `float64`, and that is truncated toward zero to an `int64`. -/
def scaleDelay (delay : Int) (multiplier : Rat) : Int :=
  int64OfFloat64
    (Int.sign (float64OfInt delay * multiplier.num) *
      (truncMag (roundMag (float64OfInt delay * multiplier.num).natAbs multiplier.den) : Int))

/-- The delay after one consumed retry (client.go lines 115-118 and 153-156):
`delay = time.Duration(float64(delay) * Multiplier)`, then
`if delay > MaxDelay { delay = MaxDelay }`. -/
def nextDelay (cfg : RetryConfig) (delay : Int) : Int :=
  let d := scaleDelay delay cfg.Multiplier
  if d > cfg.MaxDelay then cfg.MaxDelay else d

/-- The rate-limit test of client.go lines 129-138: the wait when the status is
429, the `Retry-After` header is non-empty and `retryAfter + "s"` parses. -/
def rateLimitWait (parseDuration : String → Option Int) (status : Int)
    (retryAfter : String) : Option Int :=
  if status = 429 then
    if retryAfter ≠ "" then parseDuration (retryAfter ++ "s") else none
  else none

/-- The scan of client.go lines 142-148: some configured code equals the status
and `attempt < MaxRetries`. -/
def isRetryable (cfg : RetryConfig) (status : Int) (attempt : Int) : Bool :=
  cfg.RetryableStatusCodes.any (fun code => status = code ∧ attempt < cfg.MaxRetries)

/-- The statements after the attempt loop (client.go lines 173-179). -/
def afterLoop (cfg : RetryConfig) (lastErr : Option String) : RequestRun :=
  match lastErr with
  | some e => { result := .error (.lastErr e), trace := [] }
  | none => { result := .error (.afterRetries cfg.MaxRetries), trace := [] }

/-- Prefix a run's trace. -/
def RequestRun.after (pre : List Step) (r : RequestRun) : RequestRun :=
  { r with trace := pre ++ r.trace }

/-- The attempt loop of `Request` (client.go lines 109-171), from the loop test
at a given `attempt`, `delay` and `lastErr`.  `fuel` bounds the number of
iterations; `Request` supplies `MaxRetries + 1`, which the loop test reaches
first (`attemptLoop_fuel_succ`). -/
def attemptLoop (cfg : RetryConfig) (parseDuration : String → Option Int)
    (transport : Nat → Outcome) :
    Nat → Nat → Int → Option String → RequestRun
  | 0, _, _, lastErr => afterLoop cfg lastErr
  | fuel + 1, attempt, delay, lastErr =>
    if (attempt : Int) ≤ cfg.MaxRetries then
      match transport attempt with
      | .netErr err =>
        if (attempt : Int) < cfg.MaxRetries then
          (attemptLoop cfg parseDuration transport fuel (attempt + 1)
            (nextDelay cfg delay) (some err)).after [.call, .backoff delay]
        else
          { result := .error (.requestFailed err), trace := [.call] }
      | .response status retryAfter body =>
        match rateLimitWait parseDuration status retryAfter with
        | some wait =>
          (attemptLoop cfg parseDuration transport fuel (attempt + 1)
            delay lastErr).after [.call, .rateLimit wait]
        | none =>
          if status ≥ 400 then
            if isRetryable cfg status attempt then
              (attemptLoop cfg parseDuration transport fuel (attempt + 1)
                (nextDelay cfg delay) lastErr).after [.call, .backoff delay]
            else
              { result := .error (.apiError status body), trace := [.call] }
          else
            { result := .ok status retryAfter body, trace := [.call] }
    else afterLoop cfg lastErr

/-- How the preparation of the request ended (client.go lines 80-92):
`json.Marshal(body)` failed, `http.NewRequestWithContext` failed, or the request
was built. -/
inductive Prepared where
  | marshalError (cause : String)
  | createError (cause : String)
  | ready
  deriving DecidableEq, Repr

/-- Request makes an HTTP request with retry logic. -/
def Request (cfg : RetryConfig) (parseDuration : String → Option Int)
    (prepared : Prepared) (transport : Nat → Outcome) : RequestRun :=
  match prepared with
  | .marshalError e => { result := .error (.marshalFailed e), trace := [] }
  | .createError e => { result := .error (.createFailed e), trace := [] }
  | .ready =>
    attemptLoop cfg parseDuration transport (cfg.MaxRetries + 1).toNat 0
      cfg.InitialDelay none

/-- A stand-in for `time.ParseDuration` on the inputs used in examples: it reads
`2s` as two seconds (in nanoseconds) and rejects everything else. -/
def parseTwoSeconds (s : String) : Option Int :=
  if s = "2s" then some 2000000000 else none

/-! ## types.go -/

/-- Actor represents actor information for events. -/
structure Actor where
  ID : String
  Email : String
  Name : String
  deriving DecidableEq, Repr

/-- Target represents target information for events (`Type` is `Kind` here). -/
structure Target where
  ID : String
  Kind : String
  deriving DecidableEq, Repr

/-- Change represents a field change; the untyped old and new values are kept
as their JSON text. -/
structure Change where
  Field : String
  Old : String
  New : String
  deriving DecidableEq, Repr

/-- EventInput represents an event to be logged; the untyped maps `Payload` and
`Metadata` are association lists of key and JSON text. -/
structure EventInput where
  Action : String
  Category : String
  Actor : Option Actor
  Target : Option Target
  Payload : List (String × String)
  Metadata : List (String × String)
  Changes : List Change
  ProjectID : String
  deriving DecidableEq, Repr

/-- Event represents a logged event. -/
structure Event where
  ID : String
  CompanyID : String
  WorkspaceID : String
  ProjectID : String
  Action : String
  Category : String
  Actor : Option Actor
  Target : Option Target
  Payload : List (String × String)
  Metadata : List (String × String)
  Changes : List Change
  Hash : String
  PrevHash : String
  TraceID : String
  CreatedAt : String
  Archived : Bool
  DataRegion : String
  deriving DecidableEq, Repr

/-- BatchConfig configures batch behavior. -/
structure BatchConfig where
  MaxSize : Int
  MaxWait : Int
  AutoFlush : Bool
  deriving DecidableEq, Repr

/-! ## workspace.go -/

/-- What one chunk call of `LogBatch` produces: `c.Request` returned an error,
the response body did not decode, or the response listed these events. -/
inductive ChunkReply where
  | requestError (e : RequestError)
  | decodeError (cause : String)
  | events (es : List Event)
  deriving DecidableEq, Repr

/-- The errors `LogBatch` can return: the error of `c.Request` unchanged, or
`fmt.Errorf("failed to decode response: %w", err)`. -/
inductive BatchError where
  | request (e : RequestError)
  | decode (cause : String)
  deriving DecidableEq, Repr

/-- A finished `LogBatch`: the pair `([]Event, error)` it returned (a nil slice
is the empty list) and the chunks it posted, in call order. -/
structure BatchRun where
  events : List Event
  err : Option BatchError
  calls : List (List EventInput)
  deriving DecidableEq, Repr

/-- WorkspaceClient, reduced to the state the batching queue uses. -/
structure WorkspaceClient where
  batchQueue : List EventInput
  batchConfig : Option BatchConfig
  deriving DecidableEq, Repr

/-- The chunk size of `LogBatch` (workspace.go lines 88-91) and the flush
threshold of `QueueEvent` (lines 132-135), which the source computes alike:
`MaxSize` when a batch configuration is present and `MaxSize > 0`, else 100. -/
def maxBatchSize (batchConfig : Option BatchConfig) : Int :=
  match batchConfig with
  | some cfg => if cfg.MaxSize > 0 then cfg.MaxSize else 100
  | none => 100

/-- The Go slice expression `events[i:j]`. -/
def slice (events : List EventInput) (i j : Nat) : List EventInput :=
  (events.drop i).take (j - i)

/-- Record a posted chunk in front of the rest of a run. -/
def BatchRun.withCall (chunk : List EventInput) (r : BatchRun) : BatchRun :=
  { r with calls := chunk :: r.calls }

/-- The chunk loop of `LogBatch` (workspace.go lines 93-122) from the loop test
at index `i`, for the chunk call number `k` and the events collected so far.
`send k chunk` is the outcome of the call number `k` (from 0) of this
invocation.  `fuel` bounds the iterations; `LogBatch` supplies `len(events)`, which the loop
test reaches first because the chunk size is positive (`chunkLoop_fuel_succ`). -/
def chunkLoop (send : Nat → List EventInput → ChunkReply) (events : List EventInput)
    (maxBatchSize : Nat) : Nat → Nat → Nat → List Event → BatchRun
  | 0, _, _, allEvents => { events := allEvents, err := none, calls := [] }
  | fuel + 1, i, k, allEvents =>
    if i < events.length then
      let stop := if i + maxBatchSize > events.length then events.length
        else i + maxBatchSize
      let chunk := slice events i stop
      match send k chunk with
      | .requestError e => { events := [], err := some (.request e), calls := [chunk] }
      | .decodeError cause => { events := [], err := some (.decode cause), calls := [chunk] }
      | .events es =>
        (chunkLoop send events maxBatchSize fuel (i + maxBatchSize) (k + 1)
          (allEvents ++ es)).withCall chunk
    else { events := allEvents, err := none, calls := [] }

/-- LogBatch logs multiple events in a batch. -/
def LogBatch (batchConfig : Option BatchConfig)
    (send : Nat → List EventInput → ChunkReply) (events : List EventInput) : BatchRun :=
  if events.length = 0 then { events := [], err := none, calls := [] }
  else chunkLoop send events (maxBatchSize batchConfig).toNat events.length 0 0 []

/-- A finished `FlushBatch` or `QueueEvent`: the client afterwards, what was
returned (`QueueEvent` returns the error alone), the event lists handed to
`LogBatch` and the chunks posted. -/
structure FlushRun where
  client : WorkspaceClient
  events : List Event
  err : Option BatchError
  submitted : List (List EventInput)
  calls : List (List EventInput)
  deriving DecidableEq, Repr

/-- The body of `flushBatchLocked` (workspace.go lines 152-162). -/
def flushBatchLocked (send : Nat → List EventInput → ChunkReply)
    (c : WorkspaceClient) : FlushRun :=
  if c.batchQueue.length = 0 then
    { client := c, events := [], err := none, submitted := [], calls := [] }
  else
    let events := c.batchQueue
    let c1 : WorkspaceClient := { c with batchQueue := [] }
    let r := LogBatch c1.batchConfig send events
    { client := c1, events := r.events, err := r.err, submitted := [events],
      calls := r.calls }

/-- FlushBatch flushes queued events. -/
def FlushBatch (send : Nat → List EventInput → ChunkReply)
    (c : WorkspaceClient) : FlushRun :=
  flushBatchLocked send c

/-- QueueEvent queues an event for batch ingestion.  The source returns the
result of `flushBatchLocked` from a function whose result type is `error`; the
model keeps the error and drops the events. -/
def QueueEvent (send : Nat → List EventInput → ChunkReply)
    (c : WorkspaceClient) (event : EventInput) : FlushRun :=
  let c1 : WorkspaceClient := { c with batchQueue := c.batchQueue ++ [event] }
  if (c1.batchQueue.length : Int) ≥ maxBatchSize c1.batchConfig then
    { flushBatchLocked send c1 with events := [] }
  else
    { client := c1, events := [], err := none, submitted := [], calls := [] }

/-- NewWorkspaceClient, reduced to the batching state: an empty queue. -/
def NewWorkspaceClient (batchConfig : Option BatchConfig) : WorkspaceClient :=
  { batchQueue := [], batchConfig := batchConfig }

/-- A call on the batching queue. -/
inductive Op where
  | queue (event : EventInput)
  | flush
  deriving DecidableEq, Repr

/-- The history of a client: its state, the event lists handed to `LogBatch` so
far and the chunks posted so far, both in call order. -/
structure History where
  client : WorkspaceClient
  submitted : List (List EventInput)
  calls : List (List EventInput)
  deriving DecidableEq, Repr

/-- One call on the queue.  The transport `send` numbers chunk calls over the
whole history, so the call sees the outcomes from `calls.length` on. -/
def stepOp (send : Nat → List EventInput → ChunkReply) (h : History) (op : Op) : History :=
  let r := match op with
    | .queue event => QueueEvent (fun j => send (h.calls.length + j)) h.client event
    | .flush => FlushBatch (fun j => send (h.calls.length + j)) h.client
  { client := r.client, submitted := h.submitted ++ r.submitted,
    calls := h.calls ++ r.calls }

/-- A sequence of calls on one client, starting from a new client. -/
def runOps (send : Nat → List EventInput → ChunkReply)
    (batchConfig : Option BatchConfig) (ops : List Op) : History :=
  ops.foldl (stepOp send)
    { client := NewWorkspaceClient batchConfig, submitted := [], calls := [] }

/-- The product `delay * multiplier` in exact arithmetic, truncated to a whole
duration unit. -/
def exactScale (delay : Int) (multiplier : Rat) : Int :=
  Int.tdiv (delay * multiplier.num) multiplier.den

/-- The delay sequence in the words of the specification: `d 0 = initialDelay`,
`d (k+1) = min (d k * multiplier) maxDelay`, the product truncated to a whole
duration unit. -/
def specDelay (cfg : RetryConfig) : Nat → Int
  | 0 => cfg.InitialDelay
  | k + 1 => min (exactScale (specDelay cfg k) cfg.Multiplier) cfg.MaxDelay

/-- The delay sequence with the product of the source: `d 0 = initialDelay`,
`d (k+1) = min (F (d k)) maxDelay`, where `F` multiplies in `float64` and
converts the product back to a duration. -/
def floatDelay (cfg : RetryConfig) : Nat → Int
  | 0 => cfg.InitialDelay
  | k + 1 => min (scaleDelay (floatDelay cfg k) cfg.Multiplier) cfg.MaxDelay

/-- The ratio `N / D` is a `float64` value, the exponent range left aside: it
is `M * 2^(k - j)` for a significand `M` of at most 53 bits. -/
def representable (N D : Nat) : Prop :=
  ∃ M j k : Nat, M < 2 ^ 53 ∧ N * 2 ^ j = D * M * 2 ^ k

/-- The float64 product of a delay and a multiplier loses nothing: the delay
and the exact product are both `float64` values, and the product fits a
duration. -/
def productIsExact (delay : Int) (multiplier : Rat) : Prop :=
  representable delay.natAbs 1 ∧
  representable (delay * multiplier.num).natAbs multiplier.den ∧
  (delay * multiplier.num).natAbs / multiplier.den < 2 ^ 63

/-- The trace of `k` consecutive consumed retries starting with delay `d`: each
is one call followed by a backoff sleep, and the delay advances in between. -/
def backoffTrace (cfg : RetryConfig) : Nat → Int → List Step
  | 0, _ => []
  | k + 1, d => .call :: .backoff d :: backoffTrace cfg k (nextDelay cfg d)

/-- The trace of `k` consecutive rate-limit waits from attempt `a` on, where
`waits i` is the parsed `Retry-After` of the response to attempt `i`. -/
def rateLimitTrace (waits : Nat → Int) : Nat → Nat → List Step
  | _, 0 => []
  | a, k + 1 => .call :: .rateLimit (waits a) :: rateLimitTrace waits (a + 1) k

/-- An outcome that consumes a retry when attempts remain: a network error, or
a status `>= 400` of the retryable set that takes no rate-limit wait. -/
def consumesRetry (cfg : RetryConfig) (parseDuration : String → Option Int) :
    Outcome → Bool
  | .netErr _ => true
  | .response status retryAfter _ =>
    (rateLimitWait parseDuration status retryAfter).isNone && decide (status ≥ 400)
      && decide (status ∈ cfg.RetryableStatusCodes)

/-- The first `m` delays of the loop from delay `d` on. -/
def delaysFrom (cfg : RetryConfig) : Nat → Int → List Int
  | 0, _ => []
  | m + 1, d => d :: delaysFrom cfg m (nextDelay cfg d)

/-- An outcome that sends the loop to its next attempt when attempts remain: it
consumes a retry or takes a rate-limit wait. -/
def keepsGoing (cfg : RetryConfig) (parseDuration : String → Option Int) :
    Outcome → Bool
  | .netErr _ => true
  | .response status retryAfter body =>
    (rateLimitWait parseDuration status retryAfter).isSome ||
      consumesRetry cfg parseDuration (.response status retryAfter body)

/-- The value of `lastErr` after an outcome that did not end the loop. -/
def lastErrAfter (lastErr : Option String) : Outcome → Option String
  | .netErr e => some e
  | .response _ _ _ => lastErr

/-- A server that answers 429 with `Retry-After: 2` four times and then 200. -/
def fourRateLimitsThenOk : Nat → Outcome :=
  fun i => if i < 4 then .response 429 "2" "" else .response 200 "" "ok"

/-- A server that answers 429 with `Retry-After: 2`, then 503, then 200. -/
def rateLimitThen503ThenOk : Nat → Outcome :=
  fun i => if i = 0 then .response 429 "2" "" else
    if i = 1 then .response 503 "" "busy" else .response 200 "" "ok"

/-- The default policy with a single retry. -/
def oneRetryConfig : RetryConfig := { DefaultRetryConfig with MaxRetries := 1 }

/-- The policy of the specification's backoff example, with seven retries. -/
def exampleBackoffConfig : RetryConfig where
  MaxRetries := 7
  InitialDelay := 1
  MaxDelay := 10
  Multiplier := 2
  RetryableStatusCodes := [429, 500, 502, 503, 504]

/-- A policy whose initial delay `2^53 + 1` is no `float64` value, with the
multiplier 1. -/
def oddDelayConfig : RetryConfig where
  MaxRetries := 2
  InitialDelay := 9007199254740993
  MaxDelay := 4611686018427387904
  Multiplier := 1
  RetryableStatusCodes := [503]

/-- The `float64` nearest to the decimal 1.7: `7656119366529843 / 2^52`. -/
def float64OnePointSeven : Rat :=
  Rat.mk' 7656119366529843 4503599627370496 (by decide) (by decide)

/-- The default policy with the multiplier 1.7. -/
def decimalMultiplierConfig : RetryConfig where
  MaxRetries := 3
  InitialDelay := 1000000000
  MaxDelay := 10000000000
  Multiplier := float64OnePointSeven
  RetryableStatusCodes := [429, 500, 502, 503, 504]

/-- The chunks of an event sequence in the words of the specification: cut off
`m` events at a time, in order, until none is left (at most `fuel` chunks). -/
def chunksOf (m : Nat) : Nat → List EventInput → List (List EventInput)
  | 0, _ => []
  | fuel + 1, l => if l = [] then [] else l.take m :: chunksOf m fuel (l.drop m)

/-- The sizes of the specification's chunks of `n` events. -/
def chunkSizes (m : Nat) : Nat → Nat → List Nat
  | 0, _ => []
  | fuel + 1, n => if n = 0 then [] else min m n :: chunkSizes m fuel (n - m)

/-- The events a chunk response lists (none for a failed call). -/
def replyEvents : ChunkReply → List Event
  | .events es => es
  | _ => []

/-- The error `LogBatch` returns for a failed chunk call (none for a success). -/
def replyError : ChunkReply → Option BatchError
  | .requestError e => some (.request e)
  | .decodeError cause => some (.decode cause)
  | .events _ => none

/-- The concatenation, in chunk order, of the event lists of the responses to
the given chunks, the first of which is call number `k`. -/
def repliesFrom (send : Nat → List EventInput → ChunkReply) :
    Nat → List (List EventInput) → List Event
  | _, [] => []
  | k, chunk :: rest => replyEvents (send k chunk) ++ repliesFrom send (k + 1) rest

/-- The chunk with 0-based number `j` of an event sequence cut into chunks of
`m`: the events from position `j * m` up to `(j + 1) * m`. -/
def chunkAt (events : List EventInput) (m j : Nat) : List EventInput :=
  (events.drop (j * m)).take m

/-- An event input that carries only an action. -/
def actionEvent (action : String) : EventInput :=
  { Action := action, Category := "", Actor := none, Target := none, Payload := [],
    Metadata := [], Changes := [], ProjectID := "" }

/-- The confirmation a test server returns for an input: same action, the action
as identity. -/
def confirmEvent (e : EventInput) : Event :=
  { ID := e.Action, CompanyID := "", WorkspaceID := "", ProjectID := e.ProjectID,
    Action := e.Action, Category := e.Category, Actor := e.Actor, Target := e.Target,
    Payload := e.Payload, Metadata := e.Metadata, Changes := e.Changes, Hash := "",
    PrevHash := "", TraceID := "", CreatedAt := "", Archived := false, DataRegion := "" }

/-- A server that confirms every event of every chunk. -/
def confirmAll : Nat → List EventInput → ChunkReply :=
  fun _ chunk => .events (chunk.map confirmEvent)

/-- A server whose second chunk call (number 1) fails to decode. -/
def failSecond : Nat → List EventInput → ChunkReply :=
  fun k chunk => if k = 1 then .decodeError "bad json" else .events (chunk.map confirmEvent)

/-- A batch configuration with `MaxSize = 2`. -/
def batchOfTwo : Option BatchConfig :=
  some { MaxSize := 2, MaxWait := 0, AutoFlush := false }

/-- Five events `a`, `b`, `c`, `d`, `e`. -/
def fiveEvents : List EventInput :=
  [actionEvent "a", actionEvent "b", actionEvent "c", actionEvent "d", actionEvent "e"]

/-- A policy without retries. -/
def noRetryConfig : RetryConfig := { DefaultRetryConfig with MaxRetries := 0 }

/-- A server that always answers 429 with `Retry-After: 2` and a body. -/
def alwaysRateLimited : Nat → Outcome :=
  fun _ => .response 429 "2" "slow down"

/-- A connection reset on the first attempt, then 429 with `Retry-After: 2`. -/
def resetThenRateLimited : Nat → Outcome :=
  fun i => if i = 0 then .netErr "connection reset" else .response 429 "2" "slow down"

/-- The default policy with an initial delay of 20 s, above its maximum delay
of 10 s. -/
def longInitialDelayConfig : RetryConfig :=
  { DefaultRetryConfig with InitialDelay := 20000000000 }

/-- The events enqueued by a sequence of calls, in enqueue order. -/
def enqueuedEvents : List Op → List EventInput
  | [] => []
  | .queue event :: rest => event :: enqueuedEvents rest
  | .flush :: rest => enqueuedEvents rest

/-! ## types.go: queries -/

/-- Pagination represents pagination information. -/
structure Pagination where
  Page : Int
  Limit : Int
  Total : Int
  TotalPages : Int
  deriving DecidableEq, Repr

/-- QueryResponse represents a query response. -/
structure QueryResponse where
  Data : List Event
  Pagination : Pagination
  RetentionApplied : Bool
  RetentionWindowStart : String
  deriving DecidableEq, Repr

/-- QueryOptions represents query options. -/
structure QueryOptions where
  Page : Int
  Limit : Int
  From : String
  To : String
  Action : String
  Category : String
  ActorID : String
  ActorEmail : String
  WorkspaceID : String
  ProjectID : String
  deriving DecidableEq, Repr

/-! ## workspace.go: buildQueryString

`url.Values`, `url.QueryEscape` and `strconv.Itoa` belong to the Go standard
library.  A Go map has no order of its own and `Values.Encode` visits the keys in
sorted order; the model keeps the map as an association list sorted by key, so
that `Encode` visits the list in order. -/

/-- The order of `slices.Sort` on keys: lexicographic on the characters (for
valid UTF-8 the order on bytes and the order on code points agree). -/
def lessChars : List Char → List Char → Bool
  | _, [] => false
  | [], _ :: _ => true
  | a :: as, b :: bs =>
    if a.toNat < b.toNat then true
    else if a.toNat = b.toNat then lessChars as bs
    else false

/-- The order of `slices.Sort` on strings. -/
def stringLess (a b : String) : Bool := lessChars a.data b.data

/-- The Go type `url.Values` (`map[string][]string`), sorted by key. -/
abbrev Values := List (String × List String)

/-- The method `Values.Set`: `v[key] = []string{value}`. -/
def Values.Set : Values → String → String → Values
  | [], key, value => [(key, [value])]
  | (k, vs) :: rest, key, value =>
    if stringLess key k then (key, [value]) :: (k, vs) :: rest
    else if key = k then (key, [value]) :: rest
    else (k, vs) :: Values.Set rest key value

/-- The method `Values.Encode`: for each key in sorted order and each of its
values, an ampersand when the buffer is not empty, then the escaped key, `=` and
the escaped value. -/
def Values.Encode (escape : String → String) (v : Values) : String :=
  if v.length = 0 then ""
  else
    v.foldl (fun buf kv =>
      kv.2.foldl (fun buf value =>
        (if buf.length > 0 then buf ++ "&" else buf) ++ escape kv.1 ++ "=" ++ escape value)
        buf) ""

/-- The function `strconv.Itoa`: the decimal text of an integer. -/
def Itoa : Int → String
  | .ofNat n => Nat.repr n
  | .negSucc n => "-" ++ Nat.repr (n + 1)

/-- The characters `url.QueryEscape` leaves alone: ASCII letters, digits and
`-`, `_`, `.`, `~`. -/
def unreserved (c : Char) : Bool :=
  (97 ≤ c.toNat && c.toNat ≤ 122) || (65 ≤ c.toNat && c.toNat ≤ 90) ||
    (48 ≤ c.toNat && c.toNat ≤ 57) || c.toNat = 45 || c.toNat = 95 || c.toNat = 46 ||
    c.toNat = 126

/-- The upper-case hexadecimal digit of a number below 16. -/
def hexDigit (n : Nat) : Char :=
  if n < 10 then Char.ofNat (48 + n) else Char.ofNat (55 + n)

/-- The UTF-8 bytes of a character. -/
def utf8Bytes (c : Char) : List Nat :=
  let n := c.toNat
  if n < 128 then [n]
  else if n < 2048 then [192 + n / 64, 128 + n % 64]
  else if n < 65536 then [224 + n / 4096, 128 + (n / 64) % 64, 128 + n % 64]
  else [240 + n / 262144, 128 + (n / 4096) % 64, 128 + (n / 64) % 64, 128 + n % 64]

/-- The function `url.QueryEscape`: unreserved characters stay, a space becomes
`+`, every other byte becomes `%XX`. -/
def QueryEscape (s : String) : String :=
  String.mk (s.data.flatMap (fun c =>
    if unreserved c then [c]
    else if c.toNat = 32 then ['+']
    else (utf8Bytes c).flatMap (fun b => ['%', hexDigit (b / 16), hexDigit (b % 16)])))

/-- The function `buildQueryString` (workspace.go lines 200-235), with the
escaping function of `Values.Encode` as a parameter. -/
def buildQueryString (escape : String → String) (options : QueryOptions) : String :=
  let values : Values := []
  let values := if options.Page > 0 then Values.Set values "page" (Itoa options.Page)
    else values
  let values := if options.Limit > 0 then Values.Set values "limit" (Itoa options.Limit)
    else values
  let values := if options.From ≠ "" then Values.Set values "from" options.From
    else values
  let values := if options.To ≠ "" then Values.Set values "to" options.To else values
  let values := if options.Action ≠ "" then Values.Set values "action" options.Action
    else values
  let values := if options.Category ≠ "" then Values.Set values "category" options.Category
    else values
  let values := if options.ActorID ≠ "" then Values.Set values "actorId" options.ActorID
    else values
  let values := if options.ActorEmail ≠ "" then
    Values.Set values "actorEmail" options.ActorEmail else values
  let values := if options.ProjectID ≠ "" then
    Values.Set values "projectId" options.ProjectID else values
  let query := Values.Encode escape values
  if query ≠ "" then "?" ++ query else ""

/-- The keys of the reference in ascending order, each with whether it is kept
(a non-empty string, an integer above 0) and the text of its value. -/
def referenceFields (options : QueryOptions) : List (String × Bool × String) :=
  [("action", decide (options.Action ≠ ""), options.Action),
   ("actorEmail", decide (options.ActorEmail ≠ ""), options.ActorEmail),
   ("actorId", decide (options.ActorID ≠ ""), options.ActorID),
   ("category", decide (options.Category ≠ ""), options.Category),
   ("from", decide (options.From ≠ ""), options.From),
   ("limit", decide (options.Limit > 0), Itoa options.Limit),
   ("page", decide (options.Page > 0), Itoa options.Page),
   ("projectId", decide (options.ProjectID ≠ ""), options.ProjectID),
   ("to", decide (options.To ≠ ""), options.To)]

/-- The reference query string in the words of the specification: the empty
string when no key is kept, else `?` and the kept `key=escaped value` pairs
joined by `&`. -/
def referenceQueryString (escape : String → String) (options : QueryOptions) : String :=
  if (referenceFields options).filter (fun f => f.2.1) = [] then ""
  else "?" ++ String.intercalate "&"
    (((referenceFields options).filter (fun f => f.2.1)).map
      (fun f => f.1 ++ "=" ++ escape f.2.2))

/-- The zero value of QueryOptions. -/
def emptyQuery : QueryOptions :=
  { Page := 0, Limit := 0, From := "", To := "", Action := "", Category := "",
    ActorID := "", ActorEmail := "", WorkspaceID := "", ProjectID := "" }

/-- The query of the specification's example. -/
def loginQuery : QueryOptions := { emptyQuery with Page := 2, Limit := 50, Action := "login" }

/-- A conditional `values.Set(key, value)`. -/
def condSet (keep : Bool) (values : Values) (key value : String) : Values :=
  if keep then Values.Set values key value else values

/-- The map entry of a key that is set when `keep` holds. -/
def keptEntry (keep : Bool) (key value : String) : Values :=
  if keep then [(key, [value])] else []

/-- The texts `escaped key=escaped value` of a map, in the order of `Encode`. -/
def encodedPairs (escape : String → String) (v : Values) : List String :=
  v.flatMap (fun kv => kv.2.map (fun value => escape kv.1 ++ "=" ++ escape value))

/-- One write of `Encode` into its buffer: an ampersand when the buffer is not
empty, then the pair. -/
def writePair (buf pair : String) : String :=
  (if buf.length > 0 then buf ++ "&" else buf) ++ pair

/-- The nine keys `buildQueryString` can emit. -/
def queryKeys : List String :=
  ["action", "actorEmail", "actorId", "category", "from", "limit", "page", "projectId", "to"]

/-! ## testing/mock.go

Go `int` is taken as 64 bits wide here: the results of `+`, `-`, `*` and `/`
wrap around into the range from `-2^63` to `2^63 - 1`. -/

/-- MockEventStore is an in-memory event store for testing. -/
structure MockEventStore where
  events : List Event
  nextID : Int
  deriving DecidableEq, Repr

/-- The largest Go `int`. -/
def maxInt : Int := 9223372036854775807

/-- The value a Go `int` holds after an operation with the exact result `x`. -/
def wrapInt (x : Int) : Int :=
  (x + 9223372036854775808) % 18446744073709551616 - 9223372036854775808

/-- The test `event.Actor == nil || event.Actor.ID != options.ActorID`. -/
def actorDiffers (actor : Option Actor) (actorID : String) : Bool :=
  match actor with
  | none => true
  | some a => decide (a.ID ≠ actorID)

/-- The filter of `Query` (mock.go lines 57-68): an event is kept unless one of
the three `continue` statements is taken. -/
def queryKeeps (options : QueryOptions) (event : Event) : Bool :=
  if options.Action ≠ "" ∧ event.Action ≠ options.Action then false
  else if options.Category ≠ "" ∧ event.Category ≠ options.Category then false
  else if options.ActorID ≠ "" ∧ actorDiffers event.Actor options.ActorID = true then false
  else true

/-- Query queries events from the store.  The result is `none` when the slice
expression `filtered[offset:end]` panics, which it does unless
`0 <= offset <= end <= cap(filtered)`. -/
def MockEventStore.Query (s : MockEventStore) (options : QueryOptions) :
    Option QueryResponse :=
  let filtered := s.events.filter (queryKeeps options)
  let page := if options.Page = 0 then 1 else options.Page
  let limit := if options.Limit = 0 then 20 else options.Limit
  let offset := wrapInt (wrapInt (page - 1) * limit)
  let stop := wrapInt (offset + limit)
  let stop := if stop > (filtered.length : Int) then (filtered.length : Int) else stop
  let pagination : Pagination :=
    { Page := page, Limit := limit, Total := filtered.length,
      TotalPages :=
        wrapInt (Int.tdiv (wrapInt (wrapInt ((filtered.length : Int) + limit) - 1)) limit) }
  if offset ≥ (filtered.length : Int) then
    some { Data := [], Pagination := pagination, RetentionApplied := false,
           RetentionWindowStart := "" }
  else if 0 ≤ offset ∧ offset ≤ stop then
    some { Data := (filtered.drop offset.toNat).take (stop - offset).toNat,
           Pagination := pagination, RetentionApplied := false,
           RetentionWindowStart := "" }
  else none

/-- The page of the specification: `Page`, or 1 when `Page` is 0. -/
def queryPage (options : QueryOptions) : Int :=
  if options.Page = 0 then 1 else options.Page

/-- The limit of the specification: `Limit`, or 20 when `Limit` is 0. -/
def queryLimit (options : QueryOptions) : Int :=
  if options.Limit = 0 then 20 else options.Limit

/-- The stored events that match the Action, Category and ActorID filters, in
insertion order. -/
def matchingEvents (s : MockEventStore) (options : QueryOptions) : List Event :=
  s.events.filter (fun event =>
    decide (options.Action = "" ∨ event.Action = options.Action) &&
    decide (options.Category = "" ∨ event.Category = options.Category) &&
    decide (options.ActorID = "" ∨
      ∃ actor, event.Actor = some actor ∧ actor.ID = options.ActorID))

/-- The page of the specification: the matching events from position
`(p - 1) * l` up to `min (p * l) |F|`. -/
def referencePage (s : MockEventStore) (options : QueryOptions) : List Event :=
  ((matchingEvents s options).drop ((queryPage options - 1) * queryLimit options).toNat).take
    (min (queryPage options * queryLimit options).toNat (matchingEvents s options).length -
      ((queryPage options - 1) * queryLimit options).toNat)

/-- A mock event with the given identity, action and actor identity. -/
def mockEvent (id action actorID : String) : Event :=
  { ID := id, CompanyID := "mock-company", WorkspaceID := "mock-workspace", ProjectID := "",
    Action := action, Category := "", Actor := some { ID := actorID, Email := "", Name := "" },
    Target := none, Payload := [], Metadata := [], Changes := [], Hash := "", PrevHash := "",
    TraceID := "", CreatedAt := "", Archived := false, DataRegion := "AU" }

/-- A store with three events, two of them logins. -/
def threeEventStore : MockEventStore :=
  { events := [mockEvent "mock-1" "login" "u1", mockEvent "mock-2" "logout" "u1",
      mockEvent "mock-3" "login" "u2"],
    nextID := 4 }

/-- A query for page `2^62` with limit 4: `(page - 1) * limit` is `2^64 - 4`. -/
def overflowQuery : QueryOptions :=
  { emptyQuery with Page := 4611686018427387904, Limit := 4 }

/-- The body of `Query` after the filter loop and the defaults, as a function of
the filtered events, the page and the limit. -/
def queryCore (filtered : List Event) (page limit : Int) : Option QueryResponse :=
  let offset := wrapInt (wrapInt (page - 1) * limit)
  let stop := wrapInt (offset + limit)
  let stop := if stop > (filtered.length : Int) then (filtered.length : Int) else stop
  let pagination : Pagination :=
    { Page := page, Limit := limit, Total := filtered.length,
      TotalPages :=
        wrapInt (Int.tdiv (wrapInt (wrapInt ((filtered.length : Int) + limit) - 1)) limit) }
  if offset ≥ (filtered.length : Int) then
    some { Data := [], Pagination := pagination, RetentionApplied := false,
           RetentionWindowStart := "" }
  else if 0 ≤ offset ∧ offset ≤ stop then
    some { Data := (filtered.drop offset.toNat).take (stop - offset).toNat,
           Pagination := pagination, RetentionApplied := false,
           RetentionWindowStart := "" }
  else none

/-! ## testing/mock.go: Add, Clear, Count

`nextID` is one more than the number of stored events, which a Go slice keeps far
below `2^63`, so `s.nextID++` is modelled without wrap-around. -/

/-- NewMockEventStore creates a new mock event store. -/
def NewMockEventStore : MockEventStore :=
  { events := [], nextID := 1 }

/-- Add adds an event to the store.  `now` is the text
`time.Now().Format(time.RFC3339)`; the result is the store afterwards and the
event returned. -/
def MockEventStore.Add (s : MockEventStore) (event : EventInput) (now : String) :
    MockEventStore × Event :=
  let created : Event :=
    { ID := "mock-" ++ Itoa s.nextID,
      CompanyID := "mock-company",
      WorkspaceID := "mock-workspace",
      ProjectID := event.ProjectID,
      Action := event.Action,
      Category := event.Category,
      Actor := event.Actor,
      Target := event.Target,
      Payload := event.Payload,
      Metadata := event.Metadata,
      Changes := event.Changes,
      Hash := "hash-" ++ Itoa s.nextID,
      PrevHash := "",
      TraceID := "",
      CreatedAt := now,
      Archived := false,
      DataRegion := "AU" }
  let created : Event :=
    match s.events.getLast? with
    | some last => { created with PrevHash := last.Hash }
    | none => created
  ({ events := s.events ++ [created], nextID := s.nextID + 1 }, created)

/-- Clear clears all events. -/
def MockEventStore.Clear (_s : MockEventStore) : MockEventStore :=
  { events := [], nextID := 1 }

/-- Count returns the number of events. -/
def MockEventStore.Count (s : MockEventStore) : Int :=
  s.events.length

/-- A call on the store that changes it. -/
inductive StoreOp where
  | add (event : EventInput) (now : String)
  | clear
  deriving DecidableEq, Repr

/-- One call on the store. -/
def stepStore (s : MockEventStore) : StoreOp → MockEventStore
  | .add event now => (s.Add event now).1
  | .clear => s.Clear

/-- A sequence of Add and Clear calls on a store created by NewMockEventStore. -/
def runStore (ops : List StoreOp) : MockEventStore :=
  ops.foldl stepStore NewMockEventStore

/-- The number of Add calls since the last Clear. -/
def addsSinceClear (ops : List StoreOp) : Nat :=
  ops.foldl (fun n op =>
    match op with
    | .add _ _ => n + 1
    | .clear => 0) 0

/-- The hash chain with sequential identities of the specification: the event at
position `i` has ID `mock-<i+1>` and Hash `hash-<i+1>`, the first event has an
empty PrevHash, and every later event's PrevHash is the Hash of the event just
before it. -/
def hashChain (events : List Event) : Prop :=
  (∀ (i : Nat) (e : Event), events[i]? = some e →
    e.ID = "mock-" ++ Itoa ((i : Int) + 1) ∧ e.Hash = "hash-" ++ Itoa ((i : Int) + 1)) ∧
  (∀ e : Event, events[0]? = some e → e.PrevHash = "") ∧
  (∀ (i : Nat) (e next : Event), events[i]? = some e → events[i + 1]? = some next →
    next.PrevHash = e.Hash)

/-- Two logins, a Clear and one more login. -/
def addAddClearAdd : List StoreOp :=
  [.add (actionEvent "login") "2024-01-01T00:00:00Z",
   .add (actionEvent "logout") "2024-01-01T00:00:01Z",
   .clear,
   .add (actionEvent "login") "2024-01-01T00:00:02Z",
   .add (actionEvent "update") "2024-01-01T00:00:03Z"]

/-! ## Lemmas on the attempt loop -/

theorem after_after (p q : List Step) (r : RequestRun) :
    (r.after q).after p = r.after (p ++ q) := by
  simp [RequestRun.after, List.append_assoc]

theorem after_nil (r : RequestRun) : r.after [] = r := by
  simp [RequestRun.after]

theorem isRetryable_iff (cfg : RetryConfig) (status attempt : Int) :
    isRetryable cfg status attempt = true ↔
      status ∈ cfg.RetryableStatusCodes ∧ attempt < cfg.MaxRetries := by
  unfold isRetryable
  rw [List.any_eq_true]
  constructor
  · rintro ⟨code, hmem, h⟩
    have h2 : status = code ∧ attempt < cfg.MaxRetries := by simpa using h
    exact ⟨h2.1 ▸ hmem, h2.2⟩
  · rintro ⟨hmem, hlt⟩
    exact ⟨status, hmem, by simp [hlt]⟩

/-- One unfolding of the attempt loop. -/
theorem attemptLoop_succ (cfg : RetryConfig) (parse : String → Option Int)
    (tr : Nat → Outcome) (fuel a : Nat) (d : Int) (le : Option String) :
    attemptLoop cfg parse tr (fuel + 1) a d le =
      if (a : Int) ≤ cfg.MaxRetries then
        match tr a with
        | .netErr err =>
          if (a : Int) < cfg.MaxRetries then
            (attemptLoop cfg parse tr fuel (a + 1)
              (nextDelay cfg d) (some err)).after [.call, .backoff d]
          else
            { result := .error (.requestFailed err), trace := [.call] }
        | .response status retryAfter body =>
          match rateLimitWait parse status retryAfter with
          | some wait =>
            (attemptLoop cfg parse tr fuel (a + 1) d le).after [.call, .rateLimit wait]
          | none =>
            if status ≥ 400 then
              if isRetryable cfg status a then
                (attemptLoop cfg parse tr fuel (a + 1)
                  (nextDelay cfg d) le).after [.call, .backoff d]
              else
                { result := .error (.apiError status body), trace := [.call] }
            else
              { result := .ok status retryAfter body, trace := [.call] }
      else afterLoop cfg le := rfl

/-- The loop test fails before the fuel runs out: more fuel changes nothing. -/
theorem attemptLoop_fuel_succ (cfg : RetryConfig) (parse : String → Option Int)
    (tr : Nat → Outcome) :
    ∀ (fuel a : Nat) (d : Int) (le : Option String),
      (cfg.MaxRetries + 1 - a).toNat ≤ fuel →
      attemptLoop cfg parse tr (fuel + 1) a d le = attemptLoop cfg parse tr fuel a d le := by
  intro fuel
  induction fuel with
  | zero =>
    intro a d le h
    have hgt : ¬ ((a : Int) ≤ cfg.MaxRetries) := by omega
    simp [attemptLoop, hgt]
  | succ f ih =>
    intro a d le h
    have h1 : (cfg.MaxRetries + 1 - ((a + 1 : Nat) : Int)).toNat ≤ f := by omega
    rw [attemptLoop_succ cfg parse tr (f + 1) a d le, attemptLoop_succ cfg parse tr f a d le]
    simp only [ih (a + 1) _ _ h1]

/-- One iteration on an outcome that consumes a retry while attempts remain. -/
theorem attemptLoop_consume (cfg : RetryConfig) (parse : String → Option Int)
    (tr : Nat → Outcome) (fuel a : Nat) (d : Int) (le : Option String)
    (ha : (a : Int) < cfg.MaxRetries) (hc : consumesRetry cfg parse (tr a) = true) :
    attemptLoop cfg parse tr (fuel + 1) a d le =
      (attemptLoop cfg parse tr fuel (a + 1) (nextDelay cfg d)
        (lastErrAfter le (tr a))).after [.call, .backoff d] := by
  have hle : (a : Int) ≤ cfg.MaxRetries := le_of_lt ha
  rw [attemptLoop_succ]
  cases hta : tr a with
  | netErr e => simp [hle, ha, lastErrAfter]
  | response s ra b =>
    rw [hta] at hc
    simp only [consumesRetry, Bool.and_eq_true, Option.isNone_iff_eq_none,
      decide_eq_true_eq] at hc
    obtain ⟨⟨hrl, h400⟩, hmem⟩ := hc
    have hr : isRetryable cfg s a = true := (isRetryable_iff cfg s a).2 ⟨hmem, ha⟩
    simp [hle, hrl, h400, hr, lastErrAfter]

/-- One iteration on a 429 whose `Retry-After` parses: the loop sleeps that long
and goes on with the next attempt and an unchanged delay. -/
theorem attemptLoop_rateLimit (cfg : RetryConfig) (parse : String → Option Int)
    (tr : Nat → Outcome) (fuel a : Nat) (d : Int) (le : Option String)
    (ha : (a : Int) ≤ cfg.MaxRetries) (s : Int) (ra body : String) (w : Int)
    (hta : tr a = .response s ra body) (hw : rateLimitWait parse s ra = some w) :
    attemptLoop cfg parse tr (fuel + 1) a d le =
      (attemptLoop cfg parse tr fuel (a + 1) d le).after [.call, .rateLimit w] := by
  rw [attemptLoop_succ]
  simp [ha, hta, hw]

theorem rateLimitWait_of_header (parse : String → Option Int) (ra : String) (w : Int)
    (hra : ra ≠ "") (hp : parse (ra ++ "s") = some w) :
    rateLimitWait parse 429 ra = some w := by
  simp [rateLimitWait, hra, hp]

theorem rateLimitWait_none_of (parse : String → Option Int) (s : Int) (ra : String)
    (h : s ≠ 429 ∨ ra = "" ∨ parse (ra ++ "s") = none) :
    rateLimitWait parse s ra = none := by
  unfold rateLimitWait
  rcases h with h | h | h
  · simp [h]
  · simp [h]
  · by_cases h1 : s = 429 <;> by_cases h2 : ra = "" <;> simp [h1, h2, h]

/-- Beyond the last attempt the loop only runs its epilogue. -/
theorem attemptLoop_past (cfg : RetryConfig) (parse : String → Option Int)
    (tr : Nat → Outcome) (fuel a : Nat) (d : Int) (le : Option String)
    (ha : cfg.MaxRetries < (a : Int)) :
    attemptLoop cfg parse tr fuel a d le = afterLoop cfg le := by
  cases fuel with
  | zero => rfl
  | succ f =>
    rw [attemptLoop_succ]
    simp [not_le.2 ha]

/-- A run of `k` consumed retries. -/
theorem attemptLoop_consume_chain (cfg : RetryConfig) (parse : String → Option Int)
    (tr : Nat → Outcome) :
    ∀ (k fuel a : Nat) (d : Int) (le : Option String),
      ((a + k : Nat) : Int) ≤ cfg.MaxRetries →
      (∀ i, a ≤ i → i < a + k → consumesRetry cfg parse (tr i) = true) →
      ∃ le1, attemptLoop cfg parse tr (fuel + k) a d le =
        (attemptLoop cfg parse tr fuel (a + k) ((nextDelay cfg)^[k] d) le1).after
          (backoffTrace cfg k d) := by
  intro k
  induction k with
  | zero =>
    intro fuel a d le _ _
    exact ⟨le, by simp [backoffTrace, after_nil]⟩
  | succ k ih =>
    intro fuel a d le hak hc
    have ha : (a : Int) < cfg.MaxRetries := by omega
    have h1 : (((a + 1) + k : Nat) : Int) ≤ cfg.MaxRetries := by omega
    obtain ⟨le1, h⟩ := ih fuel (a + 1) (nextDelay cfg d) (lastErrAfter le (tr a)) h1
      (fun i hi1 hi2 => hc i (by omega) (by omega))
    refine ⟨le1, ?_⟩
    have hf : fuel + (k + 1) = (fuel + k) + 1 := by omega
    rw [hf, attemptLoop_consume cfg parse tr (fuel + k) a d le ha
      (hc a (le_refl a) (by omega)), h, after_after]
    have e : a + 1 + k = a + (k + 1) := by omega
    simp [backoffTrace, Function.iterate_succ_apply, e]

/-- A run of `k` rate-limit waits: the attempt counter advances, the delay and
`lastErr` stay. -/
theorem attemptLoop_rateLimit_chain (cfg : RetryConfig) (parse : String → Option Int)
    (tr : Nat → Outcome) (waits : Nat → Int) :
    ∀ (k fuel a : Nat) (d : Int) (le : Option String),
      ((a + k : Nat) : Int) ≤ cfg.MaxRetries + 1 →
      (∀ i, a ≤ i → i < a + k → ∃ s ra body, tr i = .response s ra body ∧
        rateLimitWait parse s ra = some (waits i)) →
      attemptLoop cfg parse tr (fuel + k) a d le =
        (attemptLoop cfg parse tr fuel (a + k) d le).after (rateLimitTrace waits a k) := by
  intro k
  induction k with
  | zero =>
    intro fuel a d le _ _
    simp [rateLimitTrace, after_nil]
  | succ k ih =>
    intro fuel a d le hak hc
    have ha : (a : Int) ≤ cfg.MaxRetries := by omega
    have h1 : (((a + 1) + k : Nat) : Int) ≤ cfg.MaxRetries + 1 := by omega
    obtain ⟨s, ra, body, hta, hw⟩ := hc a (le_refl a) (by omega)
    have hf : fuel + (k + 1) = (fuel + k) + 1 := by omega
    rw [hf, attemptLoop_rateLimit cfg parse tr (fuel + k) a d le ha s ra body _ hta hw,
      ih fuel (a + 1) d le h1 (fun i hi1 hi2 => hc i (by omega) (by omega)), after_after]
    have e : a + 1 + k = a + (k + 1) := by omega
    simp [rateLimitTrace, e]

/-- A run of `k` outcomes that each send the loop to its next attempt. -/
theorem attemptLoop_prefix (cfg : RetryConfig) (parse : String → Option Int)
    (tr : Nat → Outcome) :
    ∀ (k fuel a : Nat) (d : Int) (le : Option String),
      ((a + k : Nat) : Int) ≤ cfg.MaxRetries →
      (∀ i, a ≤ i → i < a + k → keepsGoing cfg parse (tr i) = true) →
      ∃ d1 le1 pre, attemptLoop cfg parse tr (fuel + k) a d le =
        (attemptLoop cfg parse tr fuel (a + k) d1 le1).after pre ∧
        pre.count Step.call = k := by
  intro k
  induction k with
  | zero =>
    intro fuel a d le _ _
    exact ⟨d, le, [], by simp [after_nil], rfl⟩
  | succ k ih =>
    intro fuel a d le hak hc
    have ha : (a : Int) < cfg.MaxRetries := by omega
    have h1 : (((a + 1) + k : Nat) : Int) ≤ cfg.MaxRetries := by omega
    have hf : fuel + (k + 1) = (fuel + k) + 1 := by omega
    have e : a + 1 + k = a + (k + 1) := by omega
    have hrest : ∀ i, a + 1 ≤ i → i < a + 1 + k → keepsGoing cfg parse (tr i) = true :=
      fun i hi1 hi2 => hc i (by omega) (by omega)
    have hka := hc a (le_refl a) (by omega)
    by_cases hcons : consumesRetry cfg parse (tr a) = true
    · obtain ⟨d1, le1, pre, h, hcount⟩ :=
        ih fuel (a + 1) (nextDelay cfg d) (lastErrAfter le (tr a)) h1 hrest
      refine ⟨d1, le1, [.call, .backoff d] ++ pre, ?_, ?_⟩
      · rw [hf, attemptLoop_consume cfg parse tr (fuel + k) a d le ha hcons, h,
          after_after, e]
      · simp [List.count_cons, hcount]
    · cases hta : tr a with
      | netErr err => simp [hta, consumesRetry] at hcons
      | response s ra body =>
        rw [hta] at hka hcons
        have hsome : (rateLimitWait parse s ra).isSome = true := by
          simpa [keepsGoing, hcons] using hka
        obtain ⟨w, hw⟩ := Option.isSome_iff_exists.1 hsome
        obtain ⟨d1, le1, pre, h, hcount⟩ := ih fuel (a + 1) d le h1 hrest
        refine ⟨d1, le1, [.call, .rateLimit w] ++ pre, ?_, ?_⟩
        · rw [hf, attemptLoop_rateLimit cfg parse tr (fuel + k) a d le (le_of_lt ha)
            s ra body w hta hw, h, after_after, e]
        · simp [List.count_cons, hcount]

/-- The last attempt on a network error: fail, wrapping that error. -/
theorem attemptLoop_last_netErr (cfg : RetryConfig) (parse : String → Option Int)
    (tr : Nat → Outcome) (fuel a : Nat) (d : Int) (le : Option String) (err : String)
    (ha : (a : Int) = cfg.MaxRetries) (hta : tr a = .netErr err) :
    attemptLoop cfg parse tr (fuel + 1) a d le =
      { result := .error (.requestFailed err), trace := [.call] } := by
  rw [attemptLoop_succ]
  simp [ha, hta]

/-- An attempt on a status `>= 400` that takes no rate-limit wait and is not
retried: fail with the API error. -/
theorem attemptLoop_apiError (cfg : RetryConfig) (parse : String → Option Int)
    (tr : Nat → Outcome) (fuel a : Nat) (d : Int) (le : Option String)
    (s : Int) (ra body : String)
    (ha : (a : Int) ≤ cfg.MaxRetries) (hta : tr a = .response s ra body)
    (h400 : s ≥ 400) (hrl : rateLimitWait parse s ra = none)
    (hnr : isRetryable cfg s a = false) :
    attemptLoop cfg parse tr (fuel + 1) a d le =
      { result := .error (.apiError s body), trace := [.call] } := by
  rw [attemptLoop_succ]
  simp [ha, hta, hrl, h400, hnr]

theorem isRetryable_false_of_not_mem (cfg : RetryConfig) (s a : Int)
    (h : s ∉ cfg.RetryableStatusCodes) : isRetryable cfg s a = false := by
  cases hr : isRetryable cfg s a with
  | false => rfl
  | true => exact absurd ((isRetryable_iff cfg s a).1 hr).1 h

theorem isRetryable_false_of_last (cfg : RetryConfig) (s a : Int)
    (h : cfg.MaxRetries ≤ a) : isRetryable cfg s a = false := by
  cases hr : isRetryable cfg s a with
  | false => rfl
  | true => exact absurd ((isRetryable_iff cfg s a).1 hr).2 (not_lt.2 h)

/-! ## Lemmas on traces and delays -/

theorem backoffSleeps_append (p q : List Step) :
    backoffSleeps (p ++ q) = backoffSleeps p ++ backoffSleeps q := by
  induction p with
  | nil => rfl
  | cons x t ih => cases x <;> simp [backoffSleeps, ih]

theorem allSleeps_append (p q : List Step) :
    allSleeps (p ++ q) = allSleeps p ++ allSleeps q := by
  induction p with
  | nil => rfl
  | cons x t ih => cases x <;> simp [allSleeps, ih]

theorem count_call_backoffTrace (cfg : RetryConfig) :
    ∀ (k : Nat) (d : Int), (backoffTrace cfg k d).count Step.call = k := by
  intro k
  induction k with
  | zero => intro d; rfl
  | succ k ih => intro d; simp [backoffTrace, List.count_cons, ih]

theorem allSleeps_backoffTrace (cfg : RetryConfig) :
    ∀ (k : Nat) (d : Int), allSleeps (backoffTrace cfg k d) = delaysFrom cfg k d := by
  intro k
  induction k with
  | zero => intro d; rfl
  | succ k ih => intro d; simp [backoffTrace, allSleeps, delaysFrom, ih]

theorem backoffSleeps_backoffTrace (cfg : RetryConfig) :
    ∀ (k : Nat) (d : Int), backoffSleeps (backoffTrace cfg k d) = delaysFrom cfg k d := by
  intro k
  induction k with
  | zero => intro d; rfl
  | succ k ih => intro d; simp [backoffTrace, backoffSleeps, delaysFrom, ih]

theorem count_call_rateLimitTrace (waits : Nat → Int) :
    ∀ (k a : Nat), (rateLimitTrace waits a k).count Step.call = k := by
  intro k
  induction k with
  | zero => intro a; rfl
  | succ k ih => intro a; simp [rateLimitTrace, List.count_cons, ih]

theorem backoffSleeps_rateLimitTrace (waits : Nat → Int) :
    ∀ (k a : Nat), backoffSleeps (rateLimitTrace waits a k) = [] := by
  intro k
  induction k with
  | zero => intro a; rfl
  | succ k ih => intro a; simp [rateLimitTrace, backoffSleeps, ih]

theorem length_delaysFrom (cfg : RetryConfig) :
    ∀ (m : Nat) (d : Int), (delaysFrom cfg m d).length = m := by
  intro m
  induction m with
  | zero => intro d; rfl
  | succ m ih => intro d; simp [delaysFrom, ih]

/-- The source's clamp is the specification's `min`. -/
theorem nextDelay_eq_min (cfg : RetryConfig) (d : Int) :
    nextDelay cfg d = min (scaleDelay d cfg.Multiplier) cfg.MaxDelay := by
  unfold nextDelay
  by_cases h : scaleDelay d cfg.Multiplier > cfg.MaxDelay
  · simp only [h, if_true]
    exact (min_eq_right (le_of_lt h)).symm
  · simp only [h, if_false]
    exact (min_eq_left (not_lt.1 h)).symm

/-! ## Lemmas on the float64 arithmetic -/

theorem log2Fuel_le : ∀ (fuel n : Nat), n ≠ 0 → 2 ^ log2Fuel fuel n ≤ n := by
  intro fuel
  induction fuel with
  | zero => intro n hn; simp only [log2Fuel, pow_zero]; omega
  | succ f ih =>
    intro n hn
    by_cases h2 : n < 2
    · simp only [log2Fuel, h2, if_true, pow_zero]; omega
    · have hhalf : n / 2 ≠ 0 := by omega
      have := ih (n / 2) hhalf
      simp only [log2Fuel, h2, if_false, pow_succ]
      omega

theorem log2Fuel_lt : ∀ (fuel n : Nat), n < 2 ^ fuel → n < 2 ^ (log2Fuel fuel n + 1) := by
  intro fuel
  induction fuel with
  | zero => intro n hn; simp only [log2Fuel, pow_zero, zero_add, pow_one] at hn ⊢; omega
  | succ f ih =>
    intro n hn
    by_cases h2 : n < 2
    · simp only [log2Fuel, h2, if_true, zero_add, pow_one]
    · have hhalf : n / 2 < 2 ^ f := by
        rw [pow_succ] at hn
        omega
      have := ih (n / 2) hhalf
      simp only [log2Fuel, h2, if_false]
      rw [pow_succ]
      omega

theorem floorLog2_le (n : Nat) (hn : n ≠ 0) : 2 ^ floorLog2 n ≤ n :=
  log2Fuel_le n n hn

theorem floorLog2_lt (n : Nat) : n < 2 ^ (floorLog2 n + 1) :=
  log2Fuel_lt n n (Nat.lt_two_pow n)

/-- The exponent found for a positive ratio is not above its binary logarithm. -/
theorem floorLog2Ratio_le (N D : Nat) (hN : 0 < N) (hD : 0 < D) :
    (0 ≤ floorLog2Ratio N D → D * 2 ^ (floorLog2Ratio N D).toNat ≤ N) ∧
    (floorLog2Ratio N D < 0 → D ≤ N * 2 ^ (-floorLog2Ratio N D).toNat) := by
  unfold floorLog2Ratio
  by_cases h : D ≤ N
  · simp only [h, if_true]
    refine ⟨fun _ => ?_, fun hneg => by omega⟩
    have hq : N / D ≠ 0 := by
      have := Nat.div_pos h hD
      omega
    have h1 := floorLog2_le (N / D) hq
    have h2 : D * (N / D) ≤ N := Nat.mul_div_le N D
    simp only [Int.toNat_ofNat]
    calc D * 2 ^ floorLog2 (N / D) ≤ D * (N / D) := Nat.mul_le_mul_left D h1
      _ ≤ N := h2
  · simp only [h, if_false]
    by_cases h2 : D ≤ N * 2 ^ (floorLog2 D - floorLog2 N)
    · simp only [h2, if_true]
      refine ⟨fun h0 => ?_, fun _ => ?_⟩
      · have hz : floorLog2 D - floorLog2 N = 0 := by omega
        rw [hz] at h2
        simp only [pow_zero, mul_one] at h2
        exact absurd h2 h
      · simpa using h2
    · simp only [h2, if_false]
      refine ⟨fun h0 => by omega, fun _ => ?_⟩
      have hD2 := floorLog2_lt D
      have hN2 := floorLog2_le N (by omega)
      have he : (-(-((floorLog2 D - floorLog2 N : Nat) : Int) - 1)).toNat =
          floorLog2 D - floorLog2 N + 1 := by omega
      rw [he]
      have hpow : 2 ^ (floorLog2 D + 1) ≤ 2 ^ (floorLog2 N + (floorLog2 D - floorLog2 N + 1)) :=
        Nat.pow_le_pow_right (by omega) (by omega)
      have hmul : 2 ^ (floorLog2 N + (floorLog2 D - floorLog2 N + 1)) ≤
          N * 2 ^ (floorLog2 D - floorLog2 N + 1) := by
        rw [pow_add]
        exact Nat.mul_le_mul_right _ hN2
      omega

theorem roundHalfEven_exact (num den : Nat) (hden : 0 < den) (hdiv : den ∣ num) :
    roundHalfEven num den = num / den := by
  have hr : num % den = 0 := Nat.mod_eq_zero_of_dvd hdiv
  simp [roundHalfEven, hr, hden]

theorem representable_exponent_nonneg (N D M j k T : Nat) (hD : 0 < D) (hM : M < 2 ^ 53)
    (heq : N * 2 ^ j = D * M * 2 ^ k) (hle : D * 2 ^ T ≤ N) : T + j < 53 + k := by
  have h1 : D * 2 ^ T * 2 ^ j ≤ D * M * 2 ^ k := heq ▸ Nat.mul_le_mul_right _ hle
  have h2 : D * 2 ^ (T + j) ≤ D * (M * 2 ^ k) := by
    rw [pow_add, ← mul_assoc, ← mul_assoc]
    exact h1
  have h3 : 2 ^ (T + j) ≤ M * 2 ^ k := Nat.le_of_mul_le_mul_left h2 hD
  have h4 : M * 2 ^ k < 2 ^ 53 * 2 ^ k := Nat.mul_lt_mul_of_pos_right hM (by positivity)
  have h5 : 2 ^ (T + j) < 2 ^ (53 + k) := by
    rw [pow_add 2 53 k]
    exact lt_of_le_of_lt h3 h4
  exact (Nat.pow_lt_pow_iff_right (by norm_num)).mp h5

theorem representable_exponent_neg (N D M j k B : Nat) (hD : 0 < D) (hM : M < 2 ^ 53)
    (heq : N * 2 ^ j = D * M * 2 ^ k) (hle : D ≤ N * 2 ^ B) : j < 53 + k + B := by
  have h1 : D * 2 ^ j ≤ D * M * 2 ^ k * 2 ^ B := by
    calc D * 2 ^ j ≤ N * 2 ^ B * 2 ^ j := Nat.mul_le_mul_right _ hle
      _ = N * 2 ^ j * 2 ^ B := by ring
      _ = D * M * 2 ^ k * 2 ^ B := by rw [heq]
  have h2 : D * 2 ^ j ≤ D * (M * 2 ^ (k + B)) := by
    rw [pow_add, ← mul_assoc, ← mul_assoc]
    exact h1
  have h3 : 2 ^ j ≤ M * 2 ^ (k + B) := Nat.le_of_mul_le_mul_left h2 hD
  have h4 : M * 2 ^ (k + B) < 2 ^ 53 * 2 ^ (k + B) :=
    Nat.mul_lt_mul_of_pos_right hM (by positivity)
  have h5 : 2 ^ j < 2 ^ (53 + k + B) := by
    rw [add_assoc, pow_add 2 53 (k + B)]
    exact lt_of_le_of_lt h3 h4
  exact (Nat.pow_lt_pow_iff_right (by norm_num)).mp h5

/-- Rounding changes nothing when the ratio is a float64 value: the rounded
float64, truncated, is the integer part of the ratio. -/
theorem truncMag_roundMag_exact (N D : Nat) (hD : 0 < D) (hrep : representable N D) :
    truncMag (roundMag N D) = N / D := by
  by_cases hN : N = 0
  · subst hN
    simp [roundMag, truncMag]
  obtain ⟨M, j, k, hM, heq⟩ := hrep
  have hNpos : 0 < N := Nat.pos_of_ne_zero hN
  obtain ⟨hb1, hb2⟩ := floorLog2Ratio_le N D hNpos hD
  simp only [roundMag, hN, if_false]
  generalize floorLog2Ratio N D = t at hb1 hb2
  by_cases he : t - 52 ≥ 0
  · simp only [he, if_true, truncMag]
    have ht : 0 ≤ t := by omega
    have hle := hb1 ht
    have hexp := representable_exponent_nonneg N D M j k t.toNat hD hM heq hle
    obtain ⟨c, hc⟩ : ∃ c, k = (t - 52).toNat + j + c := ⟨k - ((t - 52).toNat + j), by omega⟩
    generalize (t - 52).toNat = E at hc ⊢
    have hNeq : N = D * 2 ^ E * (M * 2 ^ c) := by
      have : N * 2 ^ j = D * 2 ^ E * (M * 2 ^ c) * 2 ^ j := by
        rw [heq, hc, pow_add, pow_add]
        ring
      exact Nat.eq_of_mul_eq_mul_right (by positivity) this
    have hden : 0 < D * 2 ^ E := by positivity
    rw [roundHalfEven_exact N (D * 2 ^ E) hden ⟨_, hNeq⟩]
    rw [← Nat.div_div_eq_div_mul]
    have hdvd : 2 ^ E ∣ N / D := by
      refine ⟨M * 2 ^ c, ?_⟩
      rw [hNeq, mul_assoc, Nat.mul_div_cancel_left _ hD]
    exact Nat.div_mul_cancel hdvd
  · simp only [he, if_false, truncMag]
    have hexp : j ≤ k + (-(t - 52)).toNat := by
      by_cases ht : 0 ≤ t
      · have := representable_exponent_nonneg N D M j k t.toNat hD hM heq (hb1 ht)
        omega
      · have := representable_exponent_neg N D M j k (-t).toNat hD hM heq (hb2 (by omega))
        omega
    generalize (-(t - 52)).toNat = A at hexp ⊢
    obtain ⟨c, hc⟩ : ∃ c, k + A = j + c := ⟨k + A - j, by omega⟩
    have hNeq : N * 2 ^ A = D * (M * 2 ^ c) := by
      have : N * 2 ^ A * 2 ^ j = D * (M * 2 ^ c) * 2 ^ j := by
        calc N * 2 ^ A * 2 ^ j = N * 2 ^ j * 2 ^ A := by ring
          _ = D * M * 2 ^ k * 2 ^ A := by rw [heq]
          _ = D * M * 2 ^ (k + A) := by rw [pow_add]; ring
          _ = D * (M * 2 ^ c) * 2 ^ j := by rw [hc, pow_add]; ring
      exact Nat.eq_of_mul_eq_mul_right (by positivity) this
    rw [roundHalfEven_exact (N * 2 ^ A) D hD ⟨_, hNeq⟩]
    rw [Nat.div_div_eq_div_mul]
    exact Nat.mul_div_mul_right N D (by positivity)

theorem sign_mul_natAbs_div (n : Int) (D : Nat) :
    Int.sign n * ((n.natAbs / D : Nat) : Int) = Int.tdiv n D := by
  cases n with
  | ofNat m =>
    cases m with
    | zero => simp
    | succ m =>
      simp only [Int.ofNat_eq_coe, Int.natAbs_ofNat]
      rw [Int.sign_eq_one_of_pos (by omega), one_mul]
      rfl
  | negSucc m =>
    simp only [Int.sign_negSucc, Int.natAbs_negSucc]
    rw [Int.negSucc_eq]
    rw [Int.neg_tdiv]
    have : ((m : Int) + 1) = ((m + 1 : Nat) : Int) := by push_cast; rfl
    rw [this]
    simp only [neg_mul, one_mul, neg_inj]
    rfl

/-- The conversion `float64(delay)` is exact on a representable delay. -/
theorem float64OfInt_exact (d : Int) (hd : representable d.natAbs 1) : float64OfInt d = d := by
  unfold float64OfInt
  rw [truncMag_roundMag_exact d.natAbs 1 (by norm_num) hd, Nat.div_one]
  exact Int.sign_mul_natAbs d

/-- When the delay and the exact product are both float64 values and the product
fits a duration, the arithmetic of the source gives the exact product truncated
toward zero. -/
theorem scaleDelay_exact (d : Int) (m : Rat)
    (hd : representable d.natAbs 1)
    (hp : representable (d * m.num).natAbs m.den)
    (hrange : (d * m.num).natAbs / m.den < 2 ^ 63) :
    scaleDelay d m = exactScale d m := by
  unfold scaleDelay exactScale
  rw [float64OfInt_exact d hd, truncMag_roundMag_exact _ _ m.den_pos hp, sign_mul_natAbs_div]
  have hv : Int.tdiv (d * m.num) m.den = Int.sign (d * m.num) * (((d * m.num).natAbs / m.den : Nat) : Int) :=
    (sign_mul_natAbs_div _ _).symm
  unfold int64OfFloat64
  rw [if_pos]
  rw [hv]
  generalize (d * m.num).natAbs / m.den = q at hrange
  have hq : (q : Int) < 9223372036854775808 := by
    have : (2 : Nat) ^ 63 = 9223372036854775808 := by norm_num
    omega
  rcases lt_trichotomy (d * m.num) 0 with h | h | h
  · rw [Int.sign_eq_neg_one_of_neg h]; constructor <;> omega
  · rw [h, Int.sign_zero]; constructor <;> omega
  · rw [Int.sign_eq_one_of_pos h]; constructor <;> omega

/-- The rounded quotient is one of the two integers around the ratio. -/
theorem roundHalfEven_cases (num den : Nat) :
    roundHalfEven num den = num / den ∨ roundHalfEven num den = num / den + 1 := by
  unfold roundHalfEven
  split_ifs <;> simp

/-- The rounded quotient is within one half of the ratio. -/
theorem roundHalfEven_nearest (num den : Nat) (hden : 0 < den) :
    2 * num ≤ 2 * (roundHalfEven num den * den) + den ∧
    2 * (roundHalfEven num den * den) ≤ 2 * num + den := by
  have hdm : den * (num / den) + num % den = num := Nat.div_add_mod num den
  have hr : num % den < den := Nat.mod_lt num hden
  have hq1 : (num / den + 1) * den = den * (num / den) + den := by ring
  have hq0 : num / den * den = den * (num / den) := by ring
  unfold roundHalfEven
  generalize den * (num / den) = P at hdm hq0 hq1
  generalize num % den = r at hdm hr
  split_ifs <;> simp only [hq0, hq1] <;> omega

/-- A ratio half way between two integers is rounded to the even one. -/
theorem roundHalfEven_tie_even (num den : Nat) (htie : 2 * (num % den) = den) :
    roundHalfEven num den % 2 = 0 := by
  unfold roundHalfEven
  have h1 : ¬ 2 * (num % den) < den := by omega
  have h2 : ¬ den < 2 * (num % den) := by omega
  simp only [h1, h2, if_false]
  split_ifs with h
  · exact h
  · omega

/-- The exponent found for a positive ratio is above its binary logarithm less
one. -/
theorem floorLog2Ratio_lt (N D : Nat) (hN : 0 < N) (hD : 0 < D) :
    (0 ≤ floorLog2Ratio N D → N < D * 2 ^ ((floorLog2Ratio N D).toNat + 1)) ∧
    (floorLog2Ratio N D < 0 → N * 2 ^ (-floorLog2Ratio N D).toNat < 2 * D) := by
  unfold floorLog2Ratio
  by_cases h : D ≤ N
  · simp only [h, if_true]
    refine ⟨fun _ => ?_, fun hneg => by omega⟩
    have h1 := floorLog2_lt (N / D)
    simp only [Int.toNat_ofNat]
    rw [mul_comm]
    exact (Nat.div_lt_iff_lt_mul hD).1 h1
  · simp only [h, if_false]
    have hN1 := floorLog2_le N (by omega)
    have hN2 := floorLog2_lt N
    have hD1 := floorLog2_le D (by omega)
    have hD2 := floorLog2_lt D
    have hmono : floorLog2 N ≤ floorLog2 D := by
      have : 2 ^ floorLog2 N < 2 ^ (floorLog2 D + 1) := by omega
      have := (Nat.pow_lt_pow_iff_right (by norm_num : 1 < 2)).mp this
      omega
    by_cases h2 : D ≤ N * 2 ^ (floorLog2 D - floorLog2 N)
    · simp only [h2, if_true]
      have hup : N * 2 ^ (floorLog2 D - floorLog2 N) < 2 * D := by
        have e1 : 2 ^ (floorLog2 N + 1) * 2 ^ (floorLog2 D - floorLog2 N) =
            2 * 2 ^ floorLog2 D := by
          rw [← pow_add, show floorLog2 N + 1 + (floorLog2 D - floorLog2 N) =
            floorLog2 D + 1 by omega, pow_succ]
          ring
        have e2 : N * 2 ^ (floorLog2 D - floorLog2 N) <
            2 ^ (floorLog2 N + 1) * 2 ^ (floorLog2 D - floorLog2 N) :=
          Nat.mul_lt_mul_of_pos_right hN2 (by positivity)
        omega
      refine ⟨fun h0 => ?_, fun _ => ?_⟩
      · have hz : floorLog2 D - floorLog2 N = 0 := by omega
        rw [hz] at h2
        simp only [pow_zero, mul_one] at h2
        exact absurd h2 h
      · simpa using hup
    · simp only [h2, if_false]
      refine ⟨fun h0 => by omega, fun _ => ?_⟩
      have he : (-(-((floorLog2 D - floorLog2 N : Nat) : Int) - 1)).toNat =
          floorLog2 D - floorLog2 N + 1 := by omega
      rw [he, pow_succ, ← mul_assoc]
      omega

/-- The significand of a rounded positive ratio has 53 bits, or is `2^53` when
the rounding carried into the next binade. -/
theorem roundMag_significand (N D : Nat) (hN : 0 < N) (hD : 0 < D) :
    2 ^ 52 ≤ (roundMag N D).1 ∧ (roundMag N D).1 ≤ 2 ^ 53 := by
  obtain ⟨hl1, hl2⟩ := floorLog2Ratio_le N D hN hD
  obtain ⟨hu1, hu2⟩ := floorLog2Ratio_lt N D hN hD
  have hN0 : N ≠ 0 := by omega
  simp only [roundMag, hN0, if_false]
  generalize floorLog2Ratio N D = t at hl1 hl2 hu1 hu2
  have key : ∀ num den : Nat, 0 < den → den * 2 ^ 52 ≤ num → num < den * 2 ^ 53 →
      2 ^ 52 ≤ roundHalfEven num den ∧ roundHalfEven num den ≤ 2 ^ 53 := by
    intro num den hden hlo hhi
    have q1 : 2 ^ 52 ≤ num / den := (Nat.le_div_iff_mul_le hden).2 (by rw [mul_comm]; exact hlo)
    have q2 : num / den < 2 ^ 53 := (Nat.div_lt_iff_lt_mul hden).2 (by rw [mul_comm]; exact hhi)
    rcases roundHalfEven_cases num den with hc | hc <;> rw [hc] <;> omega
  by_cases he : t - 52 ≥ 0
  · simp only [he, if_true]
    have ht : 0 ≤ t := by omega
    have hT : t.toNat = (t - 52).toNat + 52 := by omega
    have h1 := hl1 ht
    have h2 := hu1 ht
    rw [hT] at h1 h2
    generalize (t - 52).toNat = E at h1 h2 ⊢
    apply key _ _ (by positivity)
    · rw [mul_assoc, ← pow_add]; exact h1
    · rw [mul_assoc, ← pow_add]; exact h2
  · simp only [he, if_false]
    by_cases ht : 0 ≤ t
    · have hA : (-(t - 52)).toNat + t.toNat = 52 := by omega
      have h1 := hl1 ht
      have h2 := hu1 ht
      generalize (-(t - 52)).toNat = A at hA ⊢
      generalize t.toNat = T at hA h1 h2
      apply key _ _ hD
      · calc D * 2 ^ 52 = D * 2 ^ T * 2 ^ A := by rw [← hA, pow_add]; ring
          _ ≤ N * 2 ^ A := Nat.mul_le_mul_right _ h1
      · calc N * 2 ^ A < D * 2 ^ (T + 1) * 2 ^ A :=
            Nat.mul_lt_mul_of_pos_right h2 (by positivity)
          _ = D * 2 ^ 53 := by
            rw [show (53 : Nat) = T + 1 + A by omega, pow_add (2 : Nat) (T + 1) A]; ring
    · have hA : (-(t - 52)).toNat = (-t).toNat + 52 := by omega
      have h1 := hl2 (by omega)
      have h2 := hu2 (by omega)
      rw [hA]
      generalize (-t).toNat = B at h1 h2 ⊢
      apply key _ _ hD
      · calc D * 2 ^ 52 ≤ N * 2 ^ B * 2 ^ 52 := Nat.mul_le_mul_right _ h1
          _ = N * 2 ^ (B + 52) := by rw [pow_add]; ring
      · calc N * 2 ^ (B + 52) = N * 2 ^ B * 2 ^ 52 := by rw [pow_add]; ring
          _ < 2 * D * 2 ^ 52 := Nat.mul_lt_mul_of_pos_right h2 (by positivity)
          _ = D * 2 ^ 53 := by ring

/-- The rounded magnitude `m * 2^e` is within half a unit of its last place of
the ratio `N / D`. -/
theorem roundMag_nearest (N D : Nat) (hN : 0 < N) (hD : 0 < D) :
    (0 ≤ (roundMag N D).2 →
      2 * N ≤ 2 * ((roundMag N D).1 * (D * 2 ^ (roundMag N D).2.toNat)) +
          D * 2 ^ (roundMag N D).2.toNat ∧
      2 * ((roundMag N D).1 * (D * 2 ^ (roundMag N D).2.toNat)) ≤
          2 * N + D * 2 ^ (roundMag N D).2.toNat) ∧
    ((roundMag N D).2 < 0 →
      2 * (N * 2 ^ (-(roundMag N D).2).toNat) ≤ 2 * ((roundMag N D).1 * D) + D ∧
      2 * ((roundMag N D).1 * D) ≤ 2 * (N * 2 ^ (-(roundMag N D).2).toNat) + D) := by
  have hN0 : N ≠ 0 := by omega
  simp only [roundMag, hN0, if_false]
  generalize floorLog2Ratio N D - 52 = e
  by_cases he : e ≥ 0
  · simp only [he, if_true]
    exact ⟨fun _ => roundHalfEven_nearest _ _ (by positivity), fun h => by omega⟩
  · simp only [he, if_false]
    exact ⟨fun h => False.elim h, fun _ => roundHalfEven_nearest _ _ hD⟩

/-! ## Lemmas on the delay sequence -/

theorem floatDelay_succ (cfg : RetryConfig) (k : Nat) :
    floatDelay cfg (k + 1) = nextDelay cfg (floatDelay cfg k) := by
  rw [nextDelay_eq_min]
  rfl

theorem delaysFrom_floatDelay (cfg : RetryConfig) :
    ∀ (m j : Nat), delaysFrom cfg m (floatDelay cfg j) =
      (List.range m).map (fun k => floatDelay cfg (j + k)) := by
  intro m
  induction m with
  | zero => intro j; rfl
  | succ m ih =>
    intro j
    rw [delaysFrom, ← floatDelay_succ, ih (j + 1), List.range_succ_eq_map]
    simp only [List.map_cons, List.map_map, Nat.add_zero]
    congr 1
    apply List.map_congr_left
    intro k _
    simp only [Function.comp_apply]
    congr 1
    omega

theorem delaysFrom_initial (cfg : RetryConfig) (m : Nat) :
    delaysFrom cfg m cfg.InitialDelay = (List.range m).map (floatDelay cfg) := by
  have h := delaysFrom_floatDelay cfg m 0
  simpa [floatDelay] using h

/-- While every product is exact, the delays of the source are the delays of
the specification. -/
theorem floatDelay_eq_specDelay (cfg : RetryConfig) (n : Nat)
    (hex : ∀ k, k < n → productIsExact (specDelay cfg k) cfg.Multiplier) :
    ∀ k, k ≤ n → floatDelay cfg k = specDelay cfg k := by
  intro k
  induction k with
  | zero => intro _; rfl
  | succ k ih =>
    intro hk
    obtain ⟨hd, hp, hr⟩ := hex k (by omega)
    show min (scaleDelay (floatDelay cfg k) cfg.Multiplier) cfg.MaxDelay =
      min (exactScale (specDelay cfg k) cfg.Multiplier) cfg.MaxDelay
    rw [ih (by omega), scaleDelay_exact _ _ hd hp hr]

/-- An integer below `2^53` in magnitude is a `float64` value. -/
theorem representable_of_lt (N : Nat) (h : N < 2 ^ 53) : representable N 1 :=
  ⟨N, 0, 0, h, by simp⟩

/-- A whole multiplier and a delay whose product with it stays below `2^53` in
magnitude make the product exact. -/
theorem productIsExact_of_small (d : Int) (m : Rat) (hden : m.den = 1)
    (hd : d.natAbs < 2 ^ 53) (hp : (d * m.num).natAbs < 2 ^ 53) :
    productIsExact d m := by
  refine ⟨representable_of_lt _ hd, ?_, ?_⟩
  · rw [hden]
    exact representable_of_lt _ hp
  · rw [hden, Nat.div_one]
    exact lt_trans hp (by norm_num)

/-- The backoff sleeps of the loop from any state are the loop's delays in
order, however many there are. -/
theorem backoffSleeps_attemptLoop (cfg : RetryConfig) (parse : String → Option Int)
    (tr : Nat → Outcome) :
    ∀ (fuel a : Nat) (d : Int) (le : Option String),
      ∃ m, backoffSleeps (attemptLoop cfg parse tr fuel a d le).trace =
        delaysFrom cfg m d := by
  intro fuel
  induction fuel with
  | zero =>
    intro a d le
    refine ⟨0, ?_⟩
    cases le <;> rfl
  | succ f ih =>
    intro a d le
    rw [attemptLoop_succ]
    by_cases hle : (a : Int) ≤ cfg.MaxRetries
    · simp only [hle, if_true]
      cases hta : tr a with
      | netErr err =>
        by_cases hlt : (a : Int) < cfg.MaxRetries
        · obtain ⟨m, hm⟩ := ih (a + 1) (nextDelay cfg d) (some err)
          exact ⟨m + 1, by simp [hlt, RequestRun.after, backoffSleeps, hm, delaysFrom]⟩
        · exact ⟨0, by simp [hlt, backoffSleeps, delaysFrom]⟩
      | response s ra body =>
        cases hrl : rateLimitWait parse s ra with
        | some w =>
          obtain ⟨m, hm⟩ := ih (a + 1) d le
          exact ⟨m, by simp [hrl, RequestRun.after, backoffSleeps, hm]⟩
        | none =>
          by_cases h400 : s ≥ 400
          · cases hr : isRetryable cfg s a with
            | true =>
              obtain ⟨m, hm⟩ := ih (a + 1) (nextDelay cfg d) le
              exact ⟨m + 1, by simp [hrl, h400, hr, RequestRun.after, backoffSleeps, hm, delaysFrom]⟩
            | false => exact ⟨0, by simp [hrl, h400, hr, backoffSleeps, delaysFrom]⟩
          · exact ⟨0, by simp [hrl, h400, backoffSleeps, delaysFrom]⟩
    · refine ⟨0, ?_⟩
      simp only [hle, if_false]
      cases le <;> rfl

/-- At the last attempt no backoff sleep is left. -/
theorem backoffSleeps_last (cfg : RetryConfig) (parse : String → Option Int)
    (tr : Nat → Outcome) (fuel a : Nat) (d : Int) (le : Option String)
    (ha : cfg.MaxRetries ≤ (a : Int)) :
    backoffSleeps (attemptLoop cfg parse tr fuel a d le).trace = [] := by
  have hpast : ∀ (d1 : Int) (le1 : Option String) (f : Nat),
      (attemptLoop cfg parse tr f (a + 1) d1 le1).trace = [] := by
    intro d1 le1 f
    rw [attemptLoop_past cfg parse tr f (a + 1) d1 le1 (by push_cast; omega)]
    cases le1 <;> rfl
  cases fuel with
  | zero => cases le <;> rfl
  | succ f =>
    rw [attemptLoop_succ]
    by_cases hle : (a : Int) ≤ cfg.MaxRetries
    · have hlt : ¬ ((a : Int) < cfg.MaxRetries) := by omega
      simp only [hle, if_true]
      cases hta : tr a with
      | netErr err => simp [hlt, backoffSleeps]
      | response s ra body =>
        cases hrl : rateLimitWait parse s ra with
        | some w => simp [hrl, RequestRun.after, backoffSleeps, hpast]
        | none =>
          have hr : isRetryable cfg s a = false := isRetryable_false_of_last cfg s a ha
          by_cases h400 : s ≥ 400
          · simp [hrl, h400, hr, backoffSleeps]
          · simp [hrl, h400, backoffSleeps]
    · simp only [hle, if_false]
      cases le <;> rfl

/-- Request on a built request is the attempt loop with `n + 1` units of fuel. -/
theorem Request_ready (cfg : RetryConfig) (parse : String → Option Int)
    (tr : Nat → Outcome) (n : Nat) (hn : cfg.MaxRetries = n) :
    Request cfg parse .ready tr =
      attemptLoop cfg parse tr (n + 1) 0 cfg.InitialDelay none := by
  have h : (cfg.MaxRetries + 1).toNat = n + 1 := by omega
  simp [Request, h]

/-! ## Claims on `BaseClient.Request` -/

/-- C1 (counterexample): with the default policy (`MaxRetries = 3`) a server that
answers 429 with `Retry-After: 2` four times and then 200 does not get its 200
returned: Request stops after four attempts with the error "request failed after
3 retries".  With one retry, a 429 with `Retry-After: 2` followed by a retryable
503 and then 200 fails with the API error for 503: the rate-limit wait used up
the only retry. -/
theorem rate_limit_wait_uncounted_counterexample :
    (∀ i, i < 4 → fourRateLimitsThenOk i = .response 429 "2" "") ∧
    fourRateLimitsThenOk 4 = .response 200 "" "ok" ∧
    parseTwoSeconds ("2" ++ "s") = some 2000000000 ∧
    DefaultRetryConfig.MaxRetries = 3 ∧
    Request DefaultRetryConfig parseTwoSeconds .ready fourRateLimitsThenOk =
      { result := .error (.afterRetries 3),
        trace := [.call, .rateLimit 2000000000, .call, .rateLimit 2000000000,
                  .call, .rateLimit 2000000000, .call, .rateLimit 2000000000] } ∧
    (Request DefaultRetryConfig parseTwoSeconds .ready fourRateLimitsThenOk).result ≠
      .ok 200 "" "ok" ∧
    oneRetryConfig.MaxRetries = 1 ∧ (503 : Int) ∈ oneRetryConfig.RetryableStatusCodes ∧
    Request oneRetryConfig parseTwoSeconds .ready rateLimitThen503ThenOk =
      { result := .error (.apiError 503 "busy"),
        trace := [.call, .rateLimit 2000000000, .call] } := by
  refine ⟨by decide, by decide, by decide, by decide, by decide, by decide, by decide,
    by decide, by decide⟩

/-- C1 (amended): a 429 response whose `Retry-After` header is present and parses
is retried after sleeping exactly that long, with the backoff delay and `lastErr`
unchanged, but it moves the loop to its next attempt like every other retry.  A
server that answers such a 429 `k` times and then a status `< 400` gets that
response returned when `k <= maxRetries`; when `k > maxRetries` Request makes
exactly `maxRetries + 1` attempts and returns an error, not the later response. -/
theorem rate_limit_wait_consumes_attempt (cfg : RetryConfig)
    (parse : String → Option Int) (tr : Nat → Outcome) (n k : Nat) (waits : Nat → Int)
    (hn : cfg.MaxRetries = n)
    (hrl : ∀ i, i < k → ∃ ra body, tr i = .response 429 ra body ∧ ra ≠ "" ∧
      parse (ra ++ "s") = some (waits i)) :
    (∀ (fuel a : Nat) (d : Int) (le : Option String), a < k → a ≤ n →
      attemptLoop cfg parse tr (fuel + 1) a d le =
        (attemptLoop cfg parse tr fuel (a + 1) d le).after [.call, .rateLimit (waits a)]) ∧
    (k ≤ n → ∀ s ra body, tr k = .response s ra body → s < 400 →
      Request cfg parse .ready tr =
        { result := .ok s ra body, trace := rateLimitTrace waits 0 k ++ [.call] }) ∧
    (n < k →
      (∃ e, (Request cfg parse .ready tr).result = .error e) ∧
      (Request cfg parse .ready tr).attempts = n + 1) := by
  have hwait : ∀ i, i < k → ∃ s ra body, tr i = .response s ra body ∧
      rateLimitWait parse s ra = some (waits i) := by
    intro i hi
    obtain ⟨ra, body, hta, hra, hp⟩ := hrl i hi
    exact ⟨429, ra, body, hta, rateLimitWait_of_header parse ra _ hra hp⟩
  refine ⟨?_, ?_, ?_⟩
  · intro fuel a d le hak han
    obtain ⟨s, ra, body, hta, hw⟩ := hwait a hak
    exact attemptLoop_rateLimit cfg parse tr fuel a d le (by omega) s ra body _ hta hw
  · intro hkn s ra body htk hs
    have hf : n + 1 = (n - k + 1) + k := by omega
    rw [Request_ready cfg parse tr n hn, hf,
      attemptLoop_rateLimit_chain cfg parse tr waits k (n - k + 1) 0 cfg.InitialDelay none
        (by omega) (fun i _ hi => hwait i (by omega)),
      attemptLoop_succ]
    have hk : (k : Int) ≤ cfg.MaxRetries := by omega
    have hno : rateLimitWait parse s ra = none :=
      rateLimitWait_none_of parse s ra (Or.inl (by omega))
    have h400 : ¬ (s ≥ 400) := by omega
    simp [hk, htk, hno, h400, RequestRun.after]
  · intro hnk
    have hf : n + 1 = 0 + (n + 1) := by omega
    have hrun : Request cfg parse .ready tr =
        { result := .error (.afterRetries cfg.MaxRetries),
          trace := rateLimitTrace waits 0 (n + 1) } := by
      rw [Request_ready cfg parse tr n hn, hf,
        attemptLoop_rateLimit_chain cfg parse tr waits (n + 1) 0 0 cfg.InitialDelay none
          (by omega) (fun i _ hi => hwait i (by omega))]
      simp [attemptLoop, afterLoop, RequestRun.after]
    rw [hrun]
    exact ⟨⟨_, rfl⟩, count_call_rateLimitTrace waits (n + 1) 0⟩

/-- C1 (amended), at the default policy and four rate-limited answers. -/
theorem rate_limit_wait_consumes_attempt_witness :
    (∃ e, (Request DefaultRetryConfig parseTwoSeconds .ready fourRateLimitsThenOk).result =
      .error e) ∧
    (Request DefaultRetryConfig parseTwoSeconds .ready fourRateLimitsThenOk).attempts = 3 + 1 :=
  (rate_limit_wait_consumes_attempt DefaultRetryConfig parseTwoSeconds
    fourRateLimitsThenOk 3 4 (fun _ => 2000000000) rfl
    (fun i hi => ⟨"2", "", by simp [fourRateLimitsThenOk, hi], by decide, rfl⟩)).2.2
    (by decide)

/-- C2: with `maxRetries = n >= 0` and every attempt failing with a network error,
Request makes exactly `n + 1` attempts, each of the first `n` followed by one
backoff sleep, and returns the error "request failed" wrapping the error of the
last attempt. -/
theorem network_errors_exhaust_retries (cfg : RetryConfig)
    (parse : String → Option Int) (tr : Nat → Outcome) (n : Nat) (errs : Nat → String)
    (hn : cfg.MaxRetries = n) (herr : ∀ i, i ≤ n → tr i = .netErr (errs i)) :
    (Request cfg parse .ready tr).result = .error (.requestFailed (errs n)) ∧
    (Request cfg parse .ready tr).trace = backoffTrace cfg n cfg.InitialDelay ++ [.call] ∧
    (Request cfg parse .ready tr).attempts = n + 1 ∧
    (allSleeps (Request cfg parse .ready tr).trace).length = n := by
  have hf : n + 1 = 1 + n := by omega
  obtain ⟨le1, hchain⟩ := attemptLoop_consume_chain cfg parse tr n 1 0 cfg.InitialDelay none
    (by omega) (fun i _ hi => by rw [herr i (by omega)]; rfl)
  have hrun : Request cfg parse .ready tr =
      { result := .error (.requestFailed (errs n)),
        trace := backoffTrace cfg n cfg.InitialDelay ++ [.call] } := by
    rw [Request_ready cfg parse tr n hn, hf, hchain,
      attemptLoop_last_netErr cfg parse tr 0 (0 + n) _ le1 (errs n) (by omega)
        (by rw [Nat.zero_add]; exact herr n (le_refl n))]
    rfl
  rw [hrun]
  refine ⟨rfl, rfl, ?_, ?_⟩
  · simp [RequestRun.attempts, List.count_append, count_call_backoffTrace]
  · simp [allSleeps_append, allSleeps_backoffTrace, length_delaysFrom, allSleeps]

/-- C2 at the default policy: four attempts, three sleeps. -/
theorem network_errors_exhaust_retries_witness :
    (Request DefaultRetryConfig parseTwoSeconds .ready (fun _ => .netErr "refused")).result =
      .error (.requestFailed "refused") ∧
    (Request DefaultRetryConfig parseTwoSeconds .ready (fun _ => .netErr "refused")).trace =
      backoffTrace DefaultRetryConfig 3 DefaultRetryConfig.InitialDelay ++ [.call] ∧
    (Request DefaultRetryConfig parseTwoSeconds .ready
      (fun _ => .netErr "refused")).attempts = 3 + 1 ∧
    (allSleeps (Request DefaultRetryConfig parseTwoSeconds .ready
      (fun _ => .netErr "refused")).trace).length = 3 :=
  network_errors_exhaust_retries DefaultRetryConfig parseTwoSeconds
    (fun _ => .netErr "refused") 3 (fun _ => "refused") rfl (fun _ _ => rfl)

/-- C3: an attempt that receives a status `>= 400` outside the retryable set (and
takes no rate-limit wait) ends Request there with the API error carrying that
status and body: from any loop state the run is that single call; at the Request
level, after any `a <= maxRetries` attempts that each went on to a next one, the
failing call is attempt `a + 1` and the last effect of the run; a first response
of 404 gives the error for 404 after exactly one attempt. -/
theorem nonretryable_status_fails_at_once (cfg : RetryConfig)
    (parse : String → Option Int) (tr : Nat → Outcome) (s : Int) (ra body : String)
    (h400 : s ≥ 400) (hmem : s ∉ cfg.RetryableStatusCodes)
    (hrl : s ≠ 429 ∨ ra = "" ∨ parse (ra ++ "s") = none) :
    (∀ (fuel a : Nat) (d : Int) (le : Option String),
      (a : Int) ≤ cfg.MaxRetries → tr a = .response s ra body →
      attemptLoop cfg parse tr (fuel + 1) a d le =
        { result := .error (.apiError s body), trace := [.call] }) ∧
    (∀ a : Nat, (a : Int) ≤ cfg.MaxRetries →
      (∀ i, i < a → keepsGoing cfg parse (tr i) = true) → tr a = .response s ra body →
      (Request cfg parse .ready tr).result = .error (.apiError s body) ∧
      (Request cfg parse .ready tr).attempts = a + 1 ∧
      ∃ pre, (Request cfg parse .ready tr).trace = pre ++ [.call] ∧
        pre.count Step.call = a) ∧
    (s = 404 → 0 ≤ cfg.MaxRetries → tr 0 = .response s ra body →
      Request cfg parse .ready tr =
        { result := .error (.apiError 404 body), trace := [.call] }) := by
  have hno : rateLimitWait parse s ra = none := rateLimitWait_none_of parse s ra hrl
  have hstep : ∀ (fuel a : Nat) (d : Int) (le : Option String),
      (a : Int) ≤ cfg.MaxRetries → tr a = .response s ra body →
      attemptLoop cfg parse tr (fuel + 1) a d le =
        { result := .error (.apiError s body), trace := [.call] } :=
    fun fuel a d le ha hta =>
      attemptLoop_apiError cfg parse tr fuel a d le s ra body ha hta h400 hno
        (isRetryable_false_of_not_mem cfg s a hmem)
  refine ⟨hstep, ?_, ?_⟩
  · intro a ha hpre hta
    obtain ⟨n, hn⟩ : ∃ n : Nat, cfg.MaxRetries = n :=
      ⟨cfg.MaxRetries.toNat, by omega⟩
    have hf : n + 1 = (n - a + 1) + a := by omega
    obtain ⟨d1, le1, pre, hchain, hcount⟩ :=
      attemptLoop_prefix cfg parse tr a (n - a + 1) 0 cfg.InitialDelay none (by omega)
        (fun i _ hi => hpre i (by omega))
    have hrun : Request cfg parse .ready tr =
        { result := .error (.apiError s body), trace := pre ++ [.call] } := by
      rw [Request_ready cfg parse tr n hn, hf, hchain,
        hstep (n - a) (0 + a) d1 le1 (by omega) (by rw [Nat.zero_add]; exact hta)]
      rfl
    rw [hrun]
    refine ⟨rfl, ?_, pre, rfl, hcount⟩
    simp [RequestRun.attempts, List.count_append, hcount]
  · intro h404 h0 hta
    obtain ⟨n, hn⟩ : ∃ n : Nat, cfg.MaxRetries = n :=
      ⟨cfg.MaxRetries.toNat, by omega⟩
    rw [Request_ready cfg parse tr n hn,
      hstep n 0 cfg.InitialDelay none (by omega) hta, h404]

/-- C3 at the default policy and a first answer of 404. -/
theorem nonretryable_status_fails_at_once_witness :
    Request DefaultRetryConfig parseTwoSeconds .ready
        (fun _ => .response 404 "" "not found") =
      { result := .error (.apiError 404 "not found"), trace := [.call] } :=
  (nonretryable_status_fails_at_once DefaultRetryConfig parseTwoSeconds
    (fun _ => .response 404 "" "not found") 404 "" "not found"
    (by decide) (by decide) (Or.inl (by decide))).2.2 rfl (by decide) rfl

/-- C4: with `maxRetries = n >= 0` and a server that always answers the
retryable status `s >= 400` without a parsable rate-limit header, Request makes
exactly `n + 1` attempts, each of the first `n` followed by one backoff sleep,
and fails with the API error carrying `s` and the body of the last response. -/
theorem retryable_status_exhausts_retries (cfg : RetryConfig)
    (parse : String → Option Int) (tr : Nat → Outcome) (n : Nat) (s : Int)
    (ras bodies : Nat → String)
    (hn : cfg.MaxRetries = n) (h400 : s ≥ 400) (hmem : s ∈ cfg.RetryableStatusCodes)
    (htr : ∀ i, i ≤ n → tr i = .response s (ras i) (bodies i))
    (hrl : ∀ i, i ≤ n → s ≠ 429 ∨ ras i = "" ∨ parse (ras i ++ "s") = none) :
    (Request cfg parse .ready tr).result = .error (.apiError s (bodies n)) ∧
    (Request cfg parse .ready tr).trace = backoffTrace cfg n cfg.InitialDelay ++ [.call] ∧
    (Request cfg parse .ready tr).attempts = n + 1 ∧
    (allSleeps (Request cfg parse .ready tr).trace).length = n := by
  have hno : ∀ i, i ≤ n → rateLimitWait parse s (ras i) = none :=
    fun i hi => rateLimitWait_none_of parse s (ras i) (hrl i hi)
  have hf : n + 1 = 1 + n := by omega
  obtain ⟨le1, hchain⟩ := attemptLoop_consume_chain cfg parse tr n 1 0 cfg.InitialDelay none
    (by omega) (fun i _ hi => by
      rw [htr i (by omega)]
      simp [consumesRetry, hno i (by omega), h400, hmem])
  have hrun : Request cfg parse .ready tr =
      { result := .error (.apiError s (bodies n)),
        trace := backoffTrace cfg n cfg.InitialDelay ++ [.call] } := by
    rw [Request_ready cfg parse tr n hn, hf, hchain,
      attemptLoop_apiError cfg parse tr 0 (0 + n) _ le1 s (ras n) (bodies n) (by omega)
        (by rw [Nat.zero_add]; exact htr n (le_refl n)) h400 (hno n (le_refl n))
        (isRetryable_false_of_last cfg s _ (by omega))]
    rfl
  rw [hrun]
  refine ⟨rfl, rfl, ?_, ?_⟩
  · simp [RequestRun.attempts, List.count_append, count_call_backoffTrace]
  · simp [allSleeps_append, allSleeps_backoffTrace, length_delaysFrom, allSleeps]

/-- C4 at the default policy and a server that always answers 503. -/
theorem retryable_status_exhausts_retries_witness :
    (Request DefaultRetryConfig parseTwoSeconds .ready
      (fun _ => .response 503 "" "busy")).result = .error (.apiError 503 "busy") ∧
    (Request DefaultRetryConfig parseTwoSeconds .ready
      (fun _ => .response 503 "" "busy")).trace =
      backoffTrace DefaultRetryConfig 3 DefaultRetryConfig.InitialDelay ++ [.call] ∧
    (Request DefaultRetryConfig parseTwoSeconds .ready
      (fun _ => .response 503 "" "busy")).attempts = 3 + 1 ∧
    (allSleeps (Request DefaultRetryConfig parseTwoSeconds .ready
      (fun _ => .response 503 "" "busy")).trace).length = 3 :=
  retryable_status_exhausts_retries DefaultRetryConfig parseTwoSeconds
    (fun _ => .response 503 "" "busy") 3 503 (fun _ => "") (fun _ => "busy")
    rfl (by decide) (by decide) (fun _ _ => rfl) (fun _ _ => Or.inl (by decide))

/-- When the first `maxRetries` outcomes each consume a retry, the backoff sleeps
are the first `maxRetries` delays of the source's sequence. -/
theorem backoffSleeps_consumed (cfg : RetryConfig) (parse : String → Option Int)
    (tr : Nat → Outcome) (n : Nat) (hn : cfg.MaxRetries = n)
    (hc : ∀ i, i < n → consumesRetry cfg parse (tr i) = true) :
    backoffSleeps (Request cfg parse .ready tr).trace =
      (List.range n).map (floatDelay cfg) := by
  have hf : n + 1 = 1 + n := by omega
  obtain ⟨le1, hchain⟩ := attemptLoop_consume_chain cfg parse tr n 1 0 cfg.InitialDelay
    none (by omega) (fun i _ hi => hc i (by omega))
  rw [Request_ready cfg parse tr n hn, hf, hchain]
  simp only [RequestRun.after, backoffSleeps_append, backoffSleeps_backoffTrace]
  rw [backoffSleeps_last cfg parse tr 1 (0 + n) _ le1 (by omega), List.append_nil,
    delaysFrom_initial]

/-- The first six delays of the specification's example policy. -/
theorem specDelay_example (cfg : RetryConfig) (h1 : cfg.InitialDelay = 1)
    (h2 : cfg.Multiplier = 2) (h3 : cfg.MaxDelay = 10) :
    (List.range 6).map (specDelay cfg) = [1, 2, 4, 8, 10, 10] := by
  have s0 : specDelay cfg 0 = 1 := h1
  have step : ∀ k d, specDelay cfg k = d → specDelay cfg (k + 1) = min (d * 2) 10 := by
    intro k d hd
    simp [specDelay, exactScale, hd, h2, h3]
  have s1 := step 0 1 s0
  have s2 := step 1 _ s1
  have s3 := step 2 _ s2
  have s4 := step 3 _ s3
  have s5 := step 4 _ s4
  simp only [List.range_succ, List.range_zero, List.nil_append, List.map_append,
    List.map_cons, List.map_nil, List.cons_append, s0, s1, s2, s3, s4, s5]
  decide

/-- The first six delays of the source under the specification's example
policy. -/
theorem floatDelay_example (cfg : RetryConfig) (h1 : cfg.InitialDelay = 1)
    (h2 : cfg.Multiplier = 2) (h3 : cfg.MaxDelay = 10) :
    (List.range 6).map (floatDelay cfg) = [1, 2, 4, 8, 10, 10] := by
  have hex : ∀ k, productIsExact (specDelay cfg k) cfg.Multiplier := by
    have hb : ∀ k, 0 ≤ specDelay cfg k ∧ specDelay cfg k ≤ 10 := by
      intro k
      induction k with
      | zero => simp [specDelay, h1]
      | succ k ih =>
        have hs : specDelay cfg (k + 1) = min (specDelay cfg k * 2) 10 := by
          simp [specDelay, exactScale, h2, h3]
        rw [hs]
        omega
    intro k
    obtain ⟨h0, h10⟩ := hb k
    have hp : (2 : Nat) ^ 53 = 9007199254740992 := by norm_num
    apply productIsExact_of_small
    · rw [h2]; rfl
    · rw [hp]; omega
    · rw [h2, hp]
      have : (2 : Rat).num = 2 := rfl
      rw [this]
      omega
  have heq : ∀ k, floatDelay cfg k = specDelay cfg k :=
    fun k => floatDelay_eq_specDelay cfg k (fun i _ => hex i) k (le_refl k)
  rw [← specDelay_example cfg h1 h2 h3]
  exact List.map_congr_left (fun k _ => heq k)

/-- C5 fails as stated.  With the initial delay `2^53 + 1` and the multiplier 1
the second backoff sleep is `2^53`, where the specification's sequence stays at
`2^53 + 1`; with the initial delay of one second and the `float64` nearest to
1.7 as multiplier the sleeps are 1000000000, 1700000000, 2890000000, where the
exact product truncated gives 1000000000, 1699999999, 2889999998. -/
theorem backoff_delay_rounding_counterexample :
    backoffSleeps (Request oddDelayConfig parseTwoSeconds .ready
      (fun _ => .response 503 "" "busy")).trace =
      [9007199254740993, 9007199254740992] ∧
    (List.range 2).map (specDelay oddDelayConfig) =
      [9007199254740993, 9007199254740993] ∧
    backoffSleeps (Request decimalMultiplierConfig parseTwoSeconds .ready
      (fun _ => .response 503 "" "busy")).trace =
      [1000000000, 1700000000, 2890000000] ∧
    (List.range 3).map (specDelay decimalMultiplierConfig) =
      [1000000000, 1699999999, 2889999998] := by
  decide

/-- C5 (amended): in every run of Request the backoff sleeps, in order, are
`d 0 = initialDelay`, `d (k+1) = min (F (d k)) maxDelay`, where
`F d = time.Duration(float64(d) * multiplier)` is the product of the source,
rounded in `float64` and converted back to a duration; rate-limit waits in
between leave the sequence untouched; when the first `maxRetries` outcomes
each consume a retry there are exactly `maxRetries` such sleeps; `F d` is the
exact product truncated toward zero whenever `d` and the exact product are
`float64` values and the product fits a duration; while that holds for the
first `n` delays of the specification's sequence
`d (k+1) = min (d k * multiplier) maxDelay`, the first `n + 1` sleeps follow
that sequence; and under a policy with `initialDelay = 1`, `multiplier = 2`,
`maxDelay = 10` and at least six retries, all consumed, the first six sleeps
are 1, 2, 4, 8, 10, 10. -/
theorem backoff_delays_follow_float64_sequence :
    (∀ (cfg : RetryConfig) (parse : String → Option Int) (tr : Nat → Outcome),
      backoffSleeps (Request cfg parse .ready tr).trace =
        (List.range (backoffSleeps (Request cfg parse .ready tr).trace).length).map
          (floatDelay cfg)) ∧
    (∀ (cfg : RetryConfig) (parse : String → Option Int) (tr : Nat → Outcome) (n : Nat),
      cfg.MaxRetries = n → (∀ i, i < n → consumesRetry cfg parse (tr i) = true) →
      backoffSleeps (Request cfg parse .ready tr).trace =
        (List.range n).map (floatDelay cfg)) ∧
    (∀ (d : Int) (m : Rat), productIsExact d m → scaleDelay d m = exactScale d m) ∧
    (∀ (cfg : RetryConfig) (parse : String → Option Int) (tr : Nat → Outcome) (n : Nat),
      (∀ k, k < n → productIsExact (specDelay cfg k) cfg.Multiplier) →
      (backoffSleeps (Request cfg parse .ready tr).trace).take (n + 1) =
        ((List.range (backoffSleeps (Request cfg parse .ready tr).trace).length).map
          (specDelay cfg)).take (n + 1)) ∧
    (∀ (cfg : RetryConfig) (parse : String → Option Int) (tr : Nat → Outcome) (n : Nat),
      cfg.InitialDelay = 1 → cfg.Multiplier = 2 → cfg.MaxDelay = 10 →
      cfg.MaxRetries = n → 6 ≤ n → (∀ i, i < n → consumesRetry cfg parse (tr i) = true) →
      (backoffSleeps (Request cfg parse .ready tr).trace).take 6 =
        [1, 2, 4, 8, 10, 10]) := by
  have all : ∀ (cfg : RetryConfig) (parse : String → Option Int) (tr : Nat → Outcome),
      backoffSleeps (Request cfg parse .ready tr).trace =
        (List.range (backoffSleeps (Request cfg parse .ready tr).trace).length).map
          (floatDelay cfg) := by
    intro cfg parse tr
    have key : ∃ m, backoffSleeps (Request cfg parse .ready tr).trace =
        delaysFrom cfg m cfg.InitialDelay := by
      exact backoffSleeps_attemptLoop cfg parse tr (cfg.MaxRetries + 1).toNat 0
        cfg.InitialDelay none
    obtain ⟨m, hm⟩ := key
    rw [hm, length_delaysFrom, delaysFrom_initial]
  refine ⟨all, ?_, ?_, ?_, ?_⟩
  · exact fun cfg parse tr n hn hc => backoffSleeps_consumed cfg parse tr n hn hc
  · exact fun d m h => scaleDelay_exact d m h.1 h.2.1 h.2.2
  · intro cfg parse tr n hex
    have h := all cfg parse tr
    generalize (backoffSleeps (Request cfg parse .ready tr).trace).length = L at h ⊢
    rw [h, ← List.map_take, ← List.map_take]
    apply List.map_congr_left
    intro k hk
    rw [List.take_range, List.mem_range] at hk
    exact floatDelay_eq_specDelay cfg n hex k (by omega)
  · intro cfg parse tr n h1 h2 h3 hn h6 hc
    rw [backoffSleeps_consumed cfg parse tr n hn hc, ← List.map_take, List.take_range,
      min_eq_left h6]
    exact floatDelay_example cfg h1 h2 h3

/-- C5 (amended) at concrete inputs: the float64 product of one second and the
multiplier 2 is the exact product, and at the example policy with seven retries
and a server that always answers 503 the first six sleeps are
1, 2, 4, 8, 10, 10. -/
theorem backoff_delays_follow_float64_sequence_witness :
    (productIsExact 1000000000 2 ∧ scaleDelay 1000000000 2 = exactScale 1000000000 2) ∧
    (backoffSleeps (Request exampleBackoffConfig parseTwoSeconds .ready
      (fun _ => .response 503 "" "busy")).trace).take 6 = [1, 2, 4, 8, 10, 10] :=
  ⟨⟨⟨⟨1000000000, 0, 0, by decide, by decide⟩, ⟨2000000000, 0, 0, by decide, by decide⟩,
      by decide⟩,
    backoff_delays_follow_float64_sequence.2.2.1 1000000000 2
      ⟨⟨1000000000, 0, 0, by decide, by decide⟩, ⟨2000000000, 0, 0, by decide, by decide⟩,
        by decide⟩⟩,
   backoff_delays_follow_float64_sequence.2.2.2.2 exampleBackoffConfig parseTwoSeconds
    (fun _ => .response 503 "" "busy") 7 rfl rfl rfl rfl (by decide) (fun _ _ => rfl)⟩

/-! ## Lemmas on the chunk loop -/

theorem maxBatchSize_pos (batchConfig : Option BatchConfig) :
    0 < maxBatchSize batchConfig := by
  unfold maxBatchSize
  cases batchConfig with
  | none => decide
  | some cfg =>
    by_cases h : cfg.MaxSize > 0
    · simp [h]
    · simp [h]

theorem maxBatchSize_toNat_pos (batchConfig : Option BatchConfig) :
    1 ≤ (maxBatchSize batchConfig).toNat := by
  have h := maxBatchSize_pos batchConfig
  omega

/-- The slice the loop cuts at index `i` is the next `m` events from `i`. -/
theorem slice_stop (events : List EventInput) (i m : Nat) :
    slice events i (if i + m > events.length then events.length else i + m) =
      (events.drop i).take m := by
  unfold slice
  by_cases h : i + m > events.length
  · simp only [h, if_true]
    rw [List.take_of_length_le (by simp), List.take_of_length_le (by simp; omega)]
  · simp only [h, if_false]
    congr 1
    omega

/-- One unfolding of the chunk loop. -/
theorem chunkLoop_succ (send : Nat → List EventInput → ChunkReply)
    (events : List EventInput) (m fuel i k : Nat) (acc : List Event) :
    chunkLoop send events m (fuel + 1) i k acc =
      if i < events.length then
        match send k ((events.drop i).take m) with
        | .requestError e =>
          { events := [], err := some (.request e), calls := [(events.drop i).take m] }
        | .decodeError cause =>
          { events := [], err := some (.decode cause), calls := [(events.drop i).take m] }
        | .events es =>
          (chunkLoop send events m fuel (i + m) (k + 1) (acc ++ es)).withCall
            ((events.drop i).take m)
      else { events := acc, err := none, calls := [] } := by
  rw [← slice_stop]
  rfl

/-- The loop test fails before the fuel runs out: more fuel changes nothing. -/
theorem chunkLoop_fuel_succ (send : Nat → List EventInput → ChunkReply)
    (events : List EventInput) (m : Nat) (hm : 1 ≤ m) :
    ∀ (fuel i k : Nat) (acc : List Event), events.length ≤ fuel + i →
      chunkLoop send events m (fuel + 1) i k acc = chunkLoop send events m fuel i k acc := by
  intro fuel
  induction fuel with
  | zero =>
    intro i k acc h
    have hi : ¬ i < events.length := by omega
    rw [chunkLoop_succ]
    simp [hi, chunkLoop]
  | succ f ih =>
    intro i k acc h
    rw [chunkLoop_succ send events m (f + 1) i k acc, chunkLoop_succ send events m f i k acc]
    simp only [ih (i + m) _ _ (by omega)]

/-- When every call succeeds the loop posts the specification's chunks of the
remaining events and collects the responses' events in order. -/
theorem chunkLoop_success (send : Nat → List EventInput → ChunkReply)
    (events : List EventInput) (m : Nat)
    (hok : ∀ k chunk, ∃ es, send k chunk = .events es) :
    ∀ (fuel i k : Nat) (acc : List Event),
      chunkLoop send events m fuel i k acc =
        { events := acc ++ repliesFrom send k (chunksOf m fuel (events.drop i)),
          err := none, calls := chunksOf m fuel (events.drop i) } := by
  intro fuel
  induction fuel with
  | zero => intro i k acc; simp [chunkLoop, chunksOf, repliesFrom]
  | succ f ih =>
    intro i k acc
    rw [chunkLoop_succ]
    by_cases hi : i < events.length
    · have hne : events.drop i ≠ [] := by
        intro h
        have := List.drop_eq_nil_iff.1 h
        omega
      obtain ⟨es, hes⟩ := hok k ((events.drop i).take m)
      simp only [hi, if_true, hes, ih, chunksOf, hne, if_false, repliesFrom, replyEvents,
        BatchRun.withCall, List.drop_drop, List.append_assoc]
    · have he : events.drop i = [] := List.drop_eq_nil_iff.2 (by omega)
      simp [hi, he, chunksOf, repliesFrom]

theorem chunksOf_flatten (m : Nat) (hm : 1 ≤ m) :
    ∀ (fuel : Nat) (l : List EventInput), l.length ≤ fuel →
      (chunksOf m fuel l).flatten = l := by
  intro fuel
  induction fuel with
  | zero =>
    intro l hl
    have : l = [] := List.length_eq_zero.1 (by omega)
    simp [chunksOf, this]
  | succ f ih =>
    intro l hl
    by_cases hne : l = []
    · simp [chunksOf, hne]
    · have hpos : 0 < l.length := List.length_pos.2 hne
      have hd : (l.drop m).length ≤ f := by simp; omega
      simp [chunksOf, hne, ih (l.drop m) hd]

theorem chunksOf_length_le (m : Nat) (hm : 1 ≤ m) :
    ∀ (fuel : Nat) (l : List EventInput), ∀ c ∈ chunksOf m fuel l,
      1 ≤ c.length ∧ c.length ≤ m := by
  intro fuel
  induction fuel with
  | zero => intro l c hc; simp [chunksOf] at hc
  | succ f ih =>
    intro l c hc
    by_cases hne : l = []
    · simp [chunksOf, hne] at hc
    · have hpos : 0 < l.length := List.length_pos.2 hne
      simp only [chunksOf, hne, if_false, List.mem_cons] at hc
      rcases hc with hc | hc
      · subst hc
        simp only [List.length_take]
        omega
      · exact ih (l.drop m) c hc

theorem chunksOf_eq_nil (m : Nat) :
    ∀ (fuel : Nat) (l : List EventInput), l.length ≤ fuel →
      (chunksOf m fuel l = [] ↔ l = []) := by
  intro fuel l hl
  cases fuel with
  | zero =>
    have : l = [] := List.length_eq_zero.1 (by omega)
    simp [chunksOf, this]
  | succ f =>
    by_cases hne : l = []
    · simp [chunksOf, hne]
    · simp [chunksOf, hne]

theorem chunksOf_dropLast_length (m : Nat) (hm : 1 ≤ m) :
    ∀ (fuel : Nat) (l : List EventInput), l.length ≤ fuel →
      ∀ c ∈ (chunksOf m fuel l).dropLast, c.length = m := by
  intro fuel
  induction fuel with
  | zero => intro l _ c hc; simp [chunksOf] at hc
  | succ f ih =>
    intro l hl c hc
    by_cases hne : l = []
    · simp [chunksOf, hne] at hc
    · have hpos : 0 < l.length := List.length_pos.2 hne
      have hd : (l.drop m).length ≤ f := by simp; omega
      simp only [chunksOf, hne, if_false] at hc
      by_cases hrest : chunksOf m f (l.drop m) = []
      · simp [hrest] at hc
      · rw [List.dropLast_cons_of_ne_nil hrest, List.mem_cons] at hc
        rcases hc with hc | hc
        · subst hc
          have hdn : l.drop m ≠ [] := fun h => hrest ((chunksOf_eq_nil m f _ hd).2 h)
          have : m < l.length := by
            by_contra hcon
            exact hdn (List.drop_eq_nil_iff.2 (by omega))
          simp only [List.length_take]
          omega
        · exact ih (l.drop m) hd c hc

theorem chunksOf_length (m : Nat) (hm : 1 ≤ m) :
    ∀ (fuel : Nat) (l : List EventInput), l.length ≤ fuel →
      (chunksOf m fuel l).length = (l.length + m - 1) / m := by
  intro fuel
  induction fuel with
  | zero =>
    intro l hl
    have : l = [] := List.length_eq_zero.1 (by omega)
    subst this
    simp only [chunksOf, List.length_nil, Nat.zero_add]
    exact (Nat.div_eq_of_lt (by omega)).symm
  | succ f ih =>
    intro l hl
    by_cases hne : l = []
    · subst hne
      simp only [chunksOf, if_true, List.length_nil, Nat.zero_add]
      exact (Nat.div_eq_of_lt (by omega)).symm
    · have hpos : 0 < l.length := List.length_pos.2 hne
      have hd : (l.drop m).length ≤ f := by simp; omega
      simp only [chunksOf, hne, if_false, List.length_cons, ih (l.drop m) hd,
        List.length_drop]
      by_cases hlt : l.length ≤ m
      · have e1 : l.length - m + m - 1 = m - 1 := by omega
        have e2 : l.length + m - 1 = (l.length - 1) + m := by omega
        rw [e1, e2, Nat.add_div_right _ (by omega), Nat.div_eq_of_lt (by omega),
          Nat.div_eq_of_lt (by omega)]
      · have e1 : l.length + m - 1 = (l.length - m + m - 1) + m := by omega
        rw [e1, Nat.add_div_right _ (by omega)]

theorem chunksOf_map_length (m : Nat) :
    ∀ (fuel : Nat) (l : List EventInput),
      (chunksOf m fuel l).map List.length = chunkSizes m fuel l.length := by
  intro fuel
  induction fuel with
  | zero => intro l; rfl
  | succ f ih =>
    intro l
    by_cases hne : l = []
    · simp [chunksOf, chunkSizes, hne]
    · have hpos : l.length ≠ 0 := fun h => hne (List.length_eq_zero.1 h)
      simp [chunksOf, chunkSizes, hne, hpos, ih]

theorem repliesFrom_map (send : Nat → List EventInput → ChunkReply)
    (confirm : EventInput → Event)
    (hsend : ∀ k chunk, send k chunk = .events (chunk.map confirm)) :
    ∀ (chunks : List (List EventInput)) (k : Nat),
      repliesFrom send k chunks = chunks.flatten.map confirm := by
  intro chunks
  induction chunks with
  | nil => intro k; rfl
  | cons c rest ih =>
    intro k
    simp [repliesFrom, hsend, replyEvents, ih]

/-- LogBatch when every chunk call succeeds. -/
theorem LogBatch_success (batchConfig : Option BatchConfig)
    (send : Nat → List EventInput → ChunkReply) (events : List EventInput)
    (hok : ∀ k chunk, ∃ es, send k chunk = .events es) :
    LogBatch batchConfig send events =
      { events := repliesFrom send 0
          (chunksOf (maxBatchSize batchConfig).toNat events.length events),
        err := none,
        calls := chunksOf (maxBatchSize batchConfig).toNat events.length events } := by
  unfold LogBatch
  by_cases h : events.length = 0
  · have he : events = [] := List.length_eq_zero.1 h
    subst he
    simp [chunksOf, repliesFrom]
  · simp only [h, if_false]
    rw [chunkLoop_success send events _ hok]
    simp

/-- The chunk loop when the call for the chunk `k0` places further on is the
first to fail. -/
theorem chunkLoop_failure (send : Nat → List EventInput → ChunkReply)
    (events : List EventInput) (m : Nat) (e : BatchError) :
    ∀ (k0 fuel i k : Nat) (acc : List Event),
      i + k0 * m < events.length → k0 < fuel →
      (∀ j, j < k0 → ∃ es, send (k + j) ((events.drop (i + j * m)).take m) = .events es) →
      replyError (send (k + k0) ((events.drop (i + k0 * m)).take m)) = some e →
      chunkLoop send events m fuel i k acc =
        { events := [], err := some e,
          calls := (List.range (k0 + 1)).map
            (fun j => (events.drop (i + j * m)).take m) } := by
  intro k0
  induction k0 with
  | zero =>
    intro fuel i k acc hi hfuel _ hfail
    obtain ⟨f, rfl⟩ : ∃ f, fuel = f + 1 := ⟨fuel - 1, by omega⟩
    have hi2 : i < events.length := by omega
    rw [chunkLoop_succ]
    simp only [Nat.zero_mul, Nat.add_zero] at hfail
    cases hs : send k ((events.drop i).take m) with
    | requestError e1 =>
      rw [hs] at hfail
      simp only [replyError, Option.some.injEq] at hfail
      simp [hi2, hfail, List.range_succ]
    | decodeError cause =>
      rw [hs] at hfail
      simp only [replyError, Option.some.injEq] at hfail
      simp [hi2, hfail, List.range_succ]
    | events es =>
      rw [hs] at hfail
      simp [replyError] at hfail
  | succ k0 ih =>
    intro fuel i k acc hi hfuel hok hfail
    obtain ⟨f, rfl⟩ : ∃ f, fuel = f + 1 := ⟨fuel - 1, by omega⟩
    have hmul : (k0 + 1) * m = k0 * m + m := by ring
    have hi2 : i < events.length := by omega
    obtain ⟨es, hes⟩ := hok 0 (by omega)
    simp only [Nat.zero_mul, Nat.add_zero] at hes
    have hshift : ∀ j, i + m + j * m = i + (j + 1) * m := fun j => by ring
    have hrec := ih f (i + m) (k + 1) (acc ++ es) (by omega) (by omega)
      (fun j hj => by
        obtain ⟨es1, h1⟩ := hok (j + 1) (by omega)
        refine ⟨es1, ?_⟩
        rw [hshift j, ← h1]
        congr 1
        omega)
      (by
        rw [hshift k0]
        have hk : k + 1 + k0 = k + (k0 + 1) := by omega
        rw [hk]
        exact hfail)
    rw [chunkLoop_succ]
    simp only [hi2, if_true, hes, hrec, BatchRun.withCall]
    rw [List.range_succ_eq_map (k0 + 1)]
    simp only [List.map_cons, List.map_map, Nat.zero_mul, Nat.add_zero]
    congr 2
    apply List.map_congr_left
    intro j _
    simp only [Function.comp_apply, Nat.succ_eq_add_one]
    rw [hshift j]

/-- Whenever the chunk loop ends with an error it returns no events. -/
theorem chunkLoop_error_no_events (send : Nat → List EventInput → ChunkReply)
    (events : List EventInput) (m : Nat) :
    ∀ (fuel i k : Nat) (acc : List Event) (e : BatchError),
      (chunkLoop send events m fuel i k acc).err = some e →
      (chunkLoop send events m fuel i k acc).events = [] := by
  intro fuel
  induction fuel with
  | zero => intro i k acc e h; simp [chunkLoop] at h
  | succ f ih =>
    intro i k acc e h
    rw [chunkLoop_succ] at h ⊢
    by_cases hi : i < events.length
    · simp only [hi, if_true] at h ⊢
      cases hs : send k ((events.drop i).take m) with
      | requestError e1 => simp
      | decodeError cause => simp
      | events es =>
        rw [hs] at h
        simp only [BatchRun.withCall] at h ⊢
        exact ih _ _ _ e h
    · simp [hi] at h

theorem logBatch_error_no_events (batchConfig : Option BatchConfig)
    (send : Nat → List EventInput → ChunkReply) (events : List EventInput)
    (e : BatchError) (h : (LogBatch batchConfig send events).err = some e) :
    (LogBatch batchConfig send events).events = [] := by
  unfold LogBatch at h ⊢
  by_cases hn : events.length = 0
  · simp [hn]
  · simp only [hn, if_false] at h ⊢
    exact chunkLoop_error_no_events send events _ _ _ _ _ e h

/-! ## Claims on `LogBatch` -/

/-- C6: when every chunk call succeeds, LogBatch on `n` events with chunk size
`m` (MaxSize when positive, else 100) returns no error and posts `ceil(n/m)`
chunks (none when there is no event), each with at least one and at most `m`
events, all but the last with exactly `m`, whose concatenation in call order is
the input; 250 events with `m = 100` are posted as chunks of 100, 100 and 50. -/
theorem logBatch_chunks_cover_input (batchConfig : Option BatchConfig)
    (send : Nat → List EventInput → ChunkReply) (events : List EventInput)
    (hok : ∀ k chunk, ∃ es, send k chunk = .events es) :
    (LogBatch batchConfig send events).err = none ∧
    (LogBatch batchConfig send events).calls.length =
      (events.length + (maxBatchSize batchConfig).toNat - 1) /
        (maxBatchSize batchConfig).toNat ∧
    (events = [] → (LogBatch batchConfig send events).calls = []) ∧
    (∀ c ∈ (LogBatch batchConfig send events).calls,
      1 ≤ c.length ∧ c.length ≤ (maxBatchSize batchConfig).toNat) ∧
    (∀ c ∈ (LogBatch batchConfig send events).calls.dropLast,
      c.length = (maxBatchSize batchConfig).toNat) ∧
    (LogBatch batchConfig send events).calls.flatten = events ∧
    (maxBatchSize batchConfig = 100 → events.length = 250 →
      (LogBatch batchConfig send events).calls.map List.length = [100, 100, 50]) := by
  have hm := maxBatchSize_toNat_pos batchConfig
  rw [LogBatch_success batchConfig send events hok]
  refine ⟨rfl, ?_, ?_, ?_, ?_, ?_, ?_⟩
  · exact chunksOf_length _ hm _ _ (le_refl _)
  · intro he
    subst he
    rfl
  · exact chunksOf_length_le _ hm _ _
  · exact chunksOf_dropLast_length _ hm _ _ (le_refl _)
  · exact chunksOf_flatten _ hm _ _ (le_refl _)
  · intro h100 h250
    simp only [chunksOf_map_length, h100, h250]
    decide

/-- C6 on five events with `MaxSize = 2`: three chunks that concatenate to the
input. -/
theorem logBatch_chunks_cover_input_witness :
    (LogBatch batchOfTwo confirmAll fiveEvents).calls.length = (5 + 2 - 1) / 2 ∧
    (LogBatch batchOfTwo confirmAll fiveEvents).calls.flatten = fiveEvents :=
  ⟨(logBatch_chunks_cover_input batchOfTwo confirmAll fiveEvents
      (fun _ chunk => ⟨chunk.map confirmEvent, rfl⟩)).2.1,
   (logBatch_chunks_cover_input batchOfTwo confirmAll fiveEvents
      (fun _ chunk => ⟨chunk.map confirmEvent, rfl⟩)).2.2.2.2.2.1⟩

/-- C7: when every chunk call succeeds, LogBatch returns no error and the
concatenation, in chunk order, of the event lists of the chunk responses; when
each response lists the confirmation of each submitted event in submission
order, the result is the list of confirmations of the input, in input order and
of the input's length. -/
theorem logBatch_result_is_concatenation (batchConfig : Option BatchConfig)
    (send : Nat → List EventInput → ChunkReply) (events : List EventInput)
    (hok : ∀ k chunk, ∃ es, send k chunk = .events es) :
    (LogBatch batchConfig send events).err = none ∧
    (LogBatch batchConfig send events).events =
      repliesFrom send 0 (LogBatch batchConfig send events).calls ∧
    (∀ confirm : EventInput → Event,
      (∀ k chunk, send k chunk = .events (chunk.map confirm)) →
      (LogBatch batchConfig send events).events = events.map confirm ∧
      (LogBatch batchConfig send events).events.length = events.length) := by
  have hm := maxBatchSize_toNat_pos batchConfig
  rw [LogBatch_success batchConfig send events hok]
  refine ⟨rfl, rfl, ?_⟩
  intro confirm hsend
  have h : repliesFrom send 0
      (chunksOf (maxBatchSize batchConfig).toNat events.length events) =
      events.map confirm := by
    rw [repliesFrom_map send confirm hsend, chunksOf_flatten _ hm _ _ (le_refl _)]
  simp only [h, List.length_map, and_self]

/-- C7 on five events with `MaxSize = 2` and a server that confirms each event. -/
theorem logBatch_result_is_concatenation_witness :
    (LogBatch batchOfTwo confirmAll fiveEvents).events = fiveEvents.map confirmEvent ∧
    (LogBatch batchOfTwo confirmAll fiveEvents).events.length = fiveEvents.length :=
  (logBatch_result_is_concatenation batchOfTwo confirmAll fiveEvents
    (fun _ chunk => ⟨chunk.map confirmEvent, rfl⟩)).2.2 confirmEvent (fun _ _ => rfl)

/-- C8: when the call for chunk `k0 + 1` (chunks cut `m` at a time, `m` the
effective chunk size) is the first chunk call to fail, by a transport error or
an undecodable response, LogBatch posts exactly the first `k0 + 1` chunks and
nothing after them, and returns that call's error with no events. -/
theorem logBatch_stops_at_first_failure (batchConfig : Option BatchConfig)
    (send : Nat → List EventInput → ChunkReply) (events : List EventInput)
    (k0 : Nat) (e : BatchError)
    (hk : k0 * (maxBatchSize batchConfig).toNat < events.length)
    (hok : ∀ j, j < k0 →
      ∃ es, send j (chunkAt events (maxBatchSize batchConfig).toNat j) = .events es)
    (hfail : replyError (send k0 (chunkAt events (maxBatchSize batchConfig).toNat k0)) =
      some e) :
    (LogBatch batchConfig send events).calls =
      (List.range (k0 + 1)).map (chunkAt events (maxBatchSize batchConfig).toNat) ∧
    (LogBatch batchConfig send events).calls.length = k0 + 1 ∧
    (LogBatch batchConfig send events).events = [] ∧
    (LogBatch batchConfig send events).err = some e := by
  have hm := maxBatchSize_toNat_pos batchConfig
  have hn : events.length ≠ 0 := by omega
  have hk0 : k0 < events.length :=
    lt_of_le_of_lt (Nat.le_mul_of_pos_right k0 hm) hk
  have hrun : LogBatch batchConfig send events =
      { events := [], err := some e,
        calls := (List.range (k0 + 1)).map
          (chunkAt events (maxBatchSize batchConfig).toNat) } := by
    unfold LogBatch
    simp only [hn, if_false]
    rw [chunkLoop_failure send events _ e k0 events.length 0 0 [] (by omega) hk0
      (fun j hj => by simpa [chunkAt] using hok j hj)
      (by simpa [chunkAt] using hfail)]
    simp [chunkAt]
  rw [hrun]
  simp

/-- C8 on five events with `MaxSize = 2` and a second call that fails to decode:
two calls, no events, the decode error. -/
theorem logBatch_stops_at_first_failure_witness :
    (LogBatch batchOfTwo failSecond fiveEvents).calls =
      (List.range (1 + 1)).map (chunkAt fiveEvents (maxBatchSize batchOfTwo).toNat) ∧
    (LogBatch batchOfTwo failSecond fiveEvents).calls.length = 1 + 1 ∧
    (LogBatch batchOfTwo failSecond fiveEvents).events = [] ∧
    (LogBatch batchOfTwo failSecond fiveEvents).err = some (.decode "bad json") :=
  logBatch_stops_at_first_failure batchOfTwo failSecond fiveEvents 1 (.decode "bad json")
    (by decide) (fun j hj => ⟨(chunkAt fiveEvents 2 j).map confirmEvent, by
      have h0 : j = 0 := by omega
      subst h0
      rfl⟩) (by decide)

/-! ## Claims on the batching queue -/

theorem runOps_snoc (send : Nat → List EventInput → ChunkReply)
    (batchConfig : Option BatchConfig) (ops : List Op) (op : Op) :
    runOps send batchConfig (ops ++ [op]) =
      stepOp send (runOps send batchConfig ops) op := by
  simp [runOps, List.foldl_append]

/-- Below the threshold, enqueueing only appends. -/
theorem runOps_queue_below (send : Nat → List EventInput → ChunkReply)
    (batchConfig : Option BatchConfig) :
    ∀ evs : List EventInput, (evs.length : Int) < maxBatchSize batchConfig →
      runOps send batchConfig (evs.map Op.queue) =
        { client := { batchQueue := evs, batchConfig := batchConfig },
          submitted := [], calls := [] } := by
  intro evs
  induction evs using List.reverseRecOn with
  | nil => intro _; rfl
  | append_singleton l e ih =>
    intro h
    have hlen : ((l ++ [e]).length : Int) = (l.length : Int) + 1 := by simp
    have hl : (l.length : Int) < maxBatchSize batchConfig := by omega
    have hnot : ¬ ((l.length : Int) + 1 ≥ maxBatchSize batchConfig) := by omega
    rw [List.map_append, List.map_singleton, runOps_snoc, ih hl]
    simp [stepOp, QueueEvent, hnot]

/-- C9: from a new client with threshold `m` (MaxSize when positive, else 100),
enqueueing fewer than `m` events posts nothing, hands nothing to batch
submission and leaves the queue holding the events in enqueue order; the `m`-th
enqueue hands exactly those `m` events, in enqueue order, to one batch
submission and leaves the queue empty. -/
theorem queue_flushes_at_max_size (batchConfig : Option BatchConfig)
    (send : Nat → List EventInput → ChunkReply) (evs : List EventInput) :
    ((evs.length : Int) < maxBatchSize batchConfig →
      runOps send batchConfig (evs.map Op.queue) =
        { client := { batchQueue := evs, batchConfig := batchConfig },
          submitted := [], calls := [] }) ∧
    ((evs.length : Int) = maxBatchSize batchConfig →
      (runOps send batchConfig (evs.dropLast.map Op.queue)).submitted = [] ∧
      (runOps send batchConfig (evs.dropLast.map Op.queue)).calls = [] ∧
      (runOps send batchConfig (evs.dropLast.map Op.queue)).client.batchQueue =
        evs.dropLast ∧
      (runOps send batchConfig (evs.map Op.queue)).submitted = [evs] ∧
      (runOps send batchConfig (evs.map Op.queue)).client.batchQueue = [] ∧
      (runOps send batchConfig (evs.map Op.queue)).calls =
        (LogBatch batchConfig send evs).calls) := by
  refine ⟨runOps_queue_below send batchConfig evs, ?_⟩
  intro h
  have hpos := maxBatchSize_pos batchConfig
  have hne : evs ≠ [] := by
    intro he
    rw [he] at h
    simp at h
    omega
  obtain ⟨l, e, rfl⟩ : ∃ l e, evs = l ++ [e] :=
    ⟨evs.dropLast, evs.getLast hne, (List.dropLast_append_getLast hne).symm⟩
  have hlen : ((l ++ [e]).length : Int) = (l.length : Int) + 1 := by simp
  have hl : (l.length : Int) < maxBatchSize batchConfig := by omega
  have hge : (l.length : Int) + 1 ≥ maxBatchSize batchConfig := by omega
  have hbelow := runOps_queue_below send batchConfig l hl
  rw [List.dropLast_concat, List.map_append, List.map_singleton, runOps_snoc, hbelow]
  simp [stepOp, QueueEvent, hge, flushBatchLocked]

/-- C9 with `MaxSize = 2`: one enqueue only queues, the second flushes both. -/
theorem queue_flushes_at_max_size_witness :
    runOps confirmAll batchOfTwo ([actionEvent "a"].map Op.queue) =
      { client := { batchQueue := [actionEvent "a"], batchConfig := batchOfTwo },
        submitted := [], calls := [] } ∧
    (runOps confirmAll batchOfTwo
      ([actionEvent "a", actionEvent "b"].map Op.queue)).submitted =
      [[actionEvent "a", actionEvent "b"]] ∧
    (runOps confirmAll batchOfTwo
      ([actionEvent "a", actionEvent "b"].map Op.queue)).client.batchQueue = [] :=
  ⟨(queue_flushes_at_max_size batchOfTwo confirmAll [actionEvent "a"]).1 (by decide),
   ((queue_flushes_at_max_size batchOfTwo confirmAll
      [actionEvent "a", actionEvent "b"]).2 (by decide)).2.2.2.1,
   ((queue_flushes_at_max_size batchOfTwo confirmAll
      [actionEvent "a", actionEvent "b"]).2 (by decide)).2.2.2.2.1⟩

/-- C10: after FlushBatch the queue is empty whatever the transport does; a
non-empty queue is handed whole to one batch submission whose events and error
FlushBatch returns, so on a failed submission the error is returned and the
removed events are not in the queue any more; on an empty queue FlushBatch posts
nothing and returns no events and no error. -/
theorem flushBatch_empties_queue (send : Nat → List EventInput → ChunkReply)
    (c : WorkspaceClient) :
    (FlushBatch send c).client.batchQueue = [] ∧
    (FlushBatch send c).client.batchConfig = c.batchConfig ∧
    (c.batchQueue ≠ [] →
      (FlushBatch send c).submitted = [c.batchQueue] ∧
      (FlushBatch send c).calls = (LogBatch c.batchConfig send c.batchQueue).calls ∧
      (FlushBatch send c).events = (LogBatch c.batchConfig send c.batchQueue).events ∧
      (FlushBatch send c).err = (LogBatch c.batchConfig send c.batchQueue).err) ∧
    (∀ e, (LogBatch c.batchConfig send c.batchQueue).err = some e →
      (FlushBatch send c).err = some e ∧ (FlushBatch send c).events = [] ∧
      (FlushBatch send c).client.batchQueue = []) ∧
    (c.batchQueue = [] →
      FlushBatch send c =
        { client := c, events := [], err := none, submitted := [], calls := [] }) := by
  by_cases hq : c.batchQueue = []
  · have hlen : c.batchQueue.length = 0 := by simp [hq]
    have hrun : FlushBatch send c =
        { client := c, events := [], err := none, submitted := [], calls := [] } := by
      simp [FlushBatch, flushBatchLocked, hlen]
    refine ⟨by rw [hrun]; exact hq, by rw [hrun], fun h => absurd hq h, ?_, fun _ => hrun⟩
    intro e he
    rw [hq] at he
    simp [LogBatch] at he
  · have hlen : ¬ c.batchQueue.length = 0 := fun h => hq (List.length_eq_zero.1 h)
    have hrun : FlushBatch send c =
        { client := { c with batchQueue := [] },
          events := (LogBatch c.batchConfig send c.batchQueue).events,
          err := (LogBatch c.batchConfig send c.batchQueue).err,
          submitted := [c.batchQueue],
          calls := (LogBatch c.batchConfig send c.batchQueue).calls } := by
      simp [FlushBatch, flushBatchLocked, hlen]
    refine ⟨by rw [hrun], by rw [hrun], fun _ => by rw [hrun]; exact ⟨rfl, rfl, rfl, rfl⟩,
      ?_, fun h => absurd h hq⟩
    intro e he
    rw [hrun]
    refine ⟨he, ?_, rfl⟩
    exact logBatch_error_no_events c.batchConfig send c.batchQueue e he

/-- C10 on a queue of five events with `MaxSize = 2` and a second chunk call
that fails: the error comes back and the queue is empty. -/
theorem flushBatch_empties_queue_witness :
    (FlushBatch failSecond { batchQueue := fiveEvents, batchConfig := batchOfTwo }).err =
      some (.decode "bad json") ∧
    (FlushBatch failSecond { batchQueue := fiveEvents, batchConfig := batchOfTwo }).events =
      [] ∧
    (FlushBatch failSecond
      { batchQueue := fiveEvents, batchConfig := batchOfTwo }).client.batchQueue = [] :=
  (flushBatch_empties_queue failSecond
    { batchQueue := fiveEvents, batchConfig := batchOfTwo }).2.2.2.1
    (.decode "bad json") (by decide)

/-! ## Further lemmas on the attempt loop -/

theorem rateLimitWait_some_status (parse : String → Option Int) (s : Int) (ra : String)
    (w : Int) (h : rateLimitWait parse s ra = some w) : s = 429 := by
  unfold rateLimitWait at h
  by_cases hs : s = 429
  · exact hs
  · simp [hs] at h

theorem afterLoop_trace (cfg : RetryConfig) (le : Option String) :
    (afterLoop cfg le).trace = [] := by
  cases le <;> rfl

theorem afterLoop_not_ok (cfg : RetryConfig) (le : Option String) (s : Int)
    (ra body : String) : (afterLoop cfg le).result ≠ .ok s ra body := by
  cases le <;> simp [afterLoop]

/-- The loop makes at most as many calls as attempts are left. -/
theorem count_call_attemptLoop_le (cfg : RetryConfig) (parse : String → Option Int)
    (tr : Nat → Outcome) :
    ∀ (fuel a : Nat) (d : Int) (le : Option String),
      (attemptLoop cfg parse tr fuel a d le).trace.count Step.call ≤
        (cfg.MaxRetries + 1 - a).toNat := by
  intro fuel
  induction fuel with
  | zero =>
    intro a d le
    simp [attemptLoop, afterLoop_trace]
  | succ f ih =>
    intro a d le
    rw [attemptLoop_succ]
    by_cases hle : (a : Int) ≤ cfg.MaxRetries
    · simp only [hle, if_true]
      have hone : 1 ≤ (cfg.MaxRetries + 1 - a).toNat := by omega
      have hrec : ∀ (d1 : Int) (le1 : Option String),
          (attemptLoop cfg parse tr f (a + 1) d1 le1).trace.count Step.call + 1 ≤
            (cfg.MaxRetries + 1 - a).toNat := by
        intro d1 le1
        have := ih (a + 1) d1 le1
        push_cast at this
        omega
      cases hta : tr a with
      | netErr err =>
        by_cases hlt : (a : Int) < cfg.MaxRetries
        · simpa [hlt, RequestRun.after, List.count_cons] using hrec _ _
        · simpa [hlt, List.count_cons] using hone
      | response s ra body =>
        cases hrl : rateLimitWait parse s ra with
        | some w => simpa [hrl, RequestRun.after, List.count_cons] using hrec _ _
        | none =>
          by_cases h400 : s ≥ 400
          · cases hr : isRetryable cfg s a with
            | true => simpa [hrl, h400, hr, RequestRun.after, List.count_cons] using hrec _ _
            | false => simpa [hrl, h400, hr, List.count_cons] using hone
          · simpa [hrl, h400, List.count_cons] using hone
    · simp [hle, afterLoop_trace]

/-- An iteration that passes the loop test makes a call. -/
theorem count_call_attemptLoop_pos (cfg : RetryConfig) (parse : String → Option Int)
    (tr : Nat → Outcome) (fuel a : Nat) (d : Int) (le : Option String)
    (hle : (a : Int) ≤ cfg.MaxRetries) :
    1 ≤ (attemptLoop cfg parse tr (fuel + 1) a d le).trace.count Step.call := by
  rw [attemptLoop_succ]
  simp only [hle, if_true]
  cases hta : tr a with
  | netErr err =>
    by_cases hlt : (a : Int) < cfg.MaxRetries
    · simp [hlt, RequestRun.after, List.count_cons]
    · simp [hlt, List.count_cons]
  | response s ra body =>
    cases hrl : rateLimitWait parse s ra with
    | some w => simp [hrl, RequestRun.after, List.count_cons]
    | none =>
      by_cases h400 : s ≥ 400
      · cases hr : isRetryable cfg s a with
        | true => simp [hrl, h400, hr, RequestRun.after, List.count_cons]
        | false => simp [hrl, h400, hr, List.count_cons]
      · simp [hrl, h400, List.count_cons]

/-- Fuel beyond the attempts that are left changes nothing. -/
theorem attemptLoop_fuel_add (cfg : RetryConfig) (parse : String → Option Int)
    (tr : Nat → Outcome) (fuel a : Nat) (d : Int) (le : Option String)
    (h : (cfg.MaxRetries + 1 - a).toNat ≤ fuel) :
    ∀ extra : Nat, attemptLoop cfg parse tr (fuel + extra) a d le =
      attemptLoop cfg parse tr fuel a d le := by
  intro extra
  induction extra with
  | zero => rfl
  | succ e ih =>
    rw [← Nat.add_assoc, attemptLoop_fuel_succ cfg parse tr (fuel + e) a d le (by omega), ih]

/-- C12: for every policy with `maxRetries >= 0` and every sequence of attempt
outcomes, Request makes at least one and at most `maxRetries + 1` HTTP attempts
and returns; the attempt loop ends by its own test, so that more fuel than
`maxRetries + 1` iterations gives the same run. -/
theorem request_attempts_bounded (cfg : RetryConfig) (parse : String → Option Int)
    (tr : Nat → Outcome) (h0 : 0 ≤ cfg.MaxRetries) :
    1 ≤ (Request cfg parse .ready tr).attempts ∧
    ((Request cfg parse .ready tr).attempts : Int) ≤ cfg.MaxRetries + 1 ∧
    (∀ extra : Nat,
      attemptLoop cfg parse tr ((cfg.MaxRetries + 1).toNat + extra) 0 cfg.InitialDelay none =
        Request cfg parse .ready tr) := by
  obtain ⟨n, hn⟩ : ∃ n : Nat, cfg.MaxRetries = n := ⟨cfg.MaxRetries.toNat, by omega⟩
  refine ⟨?_, ?_, ?_⟩
  · rw [Request_ready cfg parse tr n hn]
    exact count_call_attemptLoop_pos cfg parse tr n 0 _ _ (by omega)
  · have h := count_call_attemptLoop_le cfg parse tr (n + 1) 0 cfg.InitialDelay none
    rw [Request_ready cfg parse tr n hn]
    unfold RequestRun.attempts
    omega
  · intro extra
    exact attemptLoop_fuel_add cfg parse tr _ 0 _ _ (by omega) extra

/-- C12 at the default policy and a server that is rate-limited for ever: between
one and four attempts. -/
theorem request_attempts_bounded_witness :
    1 ≤ (Request DefaultRetryConfig parseTwoSeconds .ready alwaysRateLimited).attempts ∧
    ((Request DefaultRetryConfig parseTwoSeconds .ready alwaysRateLimited).attempts : Int) ≤
      DefaultRetryConfig.MaxRetries + 1 :=
  ⟨(request_attempts_bounded DefaultRetryConfig parseTwoSeconds alwaysRateLimited
      (by decide)).1,
   (request_attempts_bounded DefaultRetryConfig parseTwoSeconds alwaysRateLimited
      (by decide)).2.1⟩

/-- C13 (the code at the failing inputs): without retries, a single answer of 429
with `Retry-After: 2` and body "slow down" makes Request sleep two seconds and
return "request failed after 0 retries", which carries neither the status 429
nor the body; with one retry, a connection reset followed by that 429 makes
Request return the bare error of the first attempt, not the outcome of the final
attempt. -/
theorem rate_limited_final_attempt_loses_outcome :
    alwaysRateLimited 0 = .response 429 "2" "slow down" ∧
    Request noRetryConfig parseTwoSeconds .ready alwaysRateLimited =
      { result := .error (.afterRetries 0),
        trace := [.call, .rateLimit 2000000000] } ∧
    resetThenRateLimited 0 = .netErr "connection reset" ∧
    resetThenRateLimited 1 = .response 429 "2" "slow down" ∧
    Request oneRetryConfig parseTwoSeconds .ready resetThenRateLimited =
      { result := .error (.lastErr "connection reset"),
        trace := [.call, .backoff 1000000000, .call, .rateLimit 2000000000] } := by
  refine ⟨by decide, by decide, by decide, by decide, by decide⟩

/-- C14: an attempt that receives a 429 whose `Retry-After` parses to `r` is
followed by a sleep of exactly `r`, not of the backoff delay, and the loop goes
on from the next attempt with the same delay and `lastErr`: the backoff sleeps
of the run are those of the continuation, and they are the delays from the
unchanged current delay on. -/
theorem rate_limit_wait_keeps_backoff_delay (cfg : RetryConfig)
    (parse : String → Option Int) (tr : Nat → Outcome) (fuel a : Nat) (d : Int)
    (le : Option String) (ra body : String) (r : Int)
    (ha : (a : Int) ≤ cfg.MaxRetries) (hta : tr a = .response 429 ra body)
    (hra : ra ≠ "") (hp : parse (ra ++ "s") = some r) :
    attemptLoop cfg parse tr (fuel + 1) a d le =
      (attemptLoop cfg parse tr fuel (a + 1) d le).after [.call, .rateLimit r] ∧
    (allSleeps (attemptLoop cfg parse tr (fuel + 1) a d le).trace).head? = some r ∧
    backoffSleeps (attemptLoop cfg parse tr (fuel + 1) a d le).trace =
      backoffSleeps (attemptLoop cfg parse tr fuel (a + 1) d le).trace ∧
    (∃ m, backoffSleeps (attemptLoop cfg parse tr (fuel + 1) a d le).trace =
      delaysFrom cfg m d) := by
  have hstep := attemptLoop_rateLimit cfg parse tr fuel a d le ha 429 ra body r hta
    (rateLimitWait_of_header parse ra r hra hp)
  obtain ⟨m, hm⟩ := backoffSleeps_attemptLoop cfg parse tr fuel (a + 1) d le
  rw [hstep]
  refine ⟨rfl, ?_, ?_, m, ?_⟩
  · simp [RequestRun.after, allSleeps]
  · simp [RequestRun.after, backoffSleeps]
  · simpa [RequestRun.after, backoffSleeps] using hm

/-- C14 on a 429 with `Retry-After: 2` followed by 503 under a one-retry policy:
the sleep is two seconds and no backoff sleep follows. -/
theorem rate_limit_wait_keeps_backoff_delay_witness :
    attemptLoop oneRetryConfig parseTwoSeconds rateLimitThen503ThenOk (1 + 1) 0
        oneRetryConfig.InitialDelay none =
      (attemptLoop oneRetryConfig parseTwoSeconds rateLimitThen503ThenOk 1 (0 + 1)
        oneRetryConfig.InitialDelay none).after [.call, .rateLimit 2000000000] :=
  (rate_limit_wait_keeps_backoff_delay oneRetryConfig parseTwoSeconds
    rateLimitThen503ThenOk 1 0 oneRetryConfig.InitialDelay none "2" "" 2000000000
    (by decide) (by decide) (by decide) (by decide)).1

theorem nextDelay_le_max (cfg : RetryConfig) (d : Int) :
    nextDelay cfg d ≤ cfg.MaxDelay := by
  rw [nextDelay_eq_min]
  exact min_le_right _ _

theorem delaysFrom_le_max (cfg : RetryConfig) :
    ∀ (m : Nat) (d : Int), d ≤ cfg.MaxDelay →
      ∀ x ∈ delaysFrom cfg m d, x ≤ cfg.MaxDelay := by
  intro m
  induction m with
  | zero => intro d _ x hx; simp [delaysFrom] at hx
  | succ m ih =>
    intro d hd x hx
    simp only [delaysFrom, List.mem_cons] at hx
    rcases hx with hx | hx
    · rw [hx]; exact hd
    · exact ih _ (nextDelay_le_max cfg d) x hx

theorem delaysFrom_tail_le_max (cfg : RetryConfig) (m : Nat) (d : Int) :
    ∀ x ∈ (delaysFrom cfg m d).tail, x ≤ cfg.MaxDelay := by
  cases m with
  | zero => intro x hx; simp [delaysFrom] at hx
  | succ m =>
    intro x hx
    simp only [delaysFrom, List.tail_cons] at hx
    exact delaysFrom_le_max cfg m _ (nextDelay_le_max cfg d) x hx

theorem delaysFrom_head (cfg : RetryConfig) (m : Nat) (d d0 : Int)
    (h : (delaysFrom cfg m d).head? = some d0) : d0 = d := by
  cases m with
  | zero => simp [delaysFrom] at h
  | succ m => simpa [delaysFrom] using h.symm

/-- C15 (counterexample): under the default policy with `InitialDelay` raised to
20 s (`MaxDelay` is 10 s) and a server that always answers 503, the first backoff
sleep lasts 20 s, more than `MaxDelay`. -/
theorem backoff_sleep_above_max_counterexample :
    longInitialDelayConfig.MaxDelay = 10000000000 ∧
    backoffSleeps (Request longInitialDelayConfig parseTwoSeconds .ready
      (fun _ => .response 503 "" "busy")).trace =
      [20000000000, 10000000000, 10000000000] ∧
    ¬ (∀ x ∈ backoffSleeps (Request longInitialDelayConfig parseTwoSeconds .ready
      (fun _ => .response 503 "" "busy")).trace, x ≤ longInitialDelayConfig.MaxDelay) := by
  refine ⟨by decide, by decide, by decide⟩

/-- C15 (amended): in every run of Request the first backoff sleep is
`initialDelay` and every later backoff sleep is at most `maxDelay`; so when
`initialDelay <= maxDelay` every backoff sleep is at most `maxDelay`. -/
theorem backoff_sleeps_capped_after_first (cfg : RetryConfig)
    (parse : String → Option Int) (tr : Nat → Outcome) :
    (∀ d0, (backoffSleeps (Request cfg parse .ready tr).trace).head? = some d0 →
      d0 = cfg.InitialDelay) ∧
    (∀ x ∈ (backoffSleeps (Request cfg parse .ready tr).trace).tail, x ≤ cfg.MaxDelay) ∧
    (cfg.InitialDelay ≤ cfg.MaxDelay →
      ∀ x ∈ backoffSleeps (Request cfg parse .ready tr).trace, x ≤ cfg.MaxDelay) := by
  obtain ⟨m, hm⟩ : ∃ m, backoffSleeps (Request cfg parse .ready tr).trace =
      delaysFrom cfg m cfg.InitialDelay :=
    backoffSleeps_attemptLoop cfg parse tr (cfg.MaxRetries + 1).toNat 0 cfg.InitialDelay none
  rw [hm]
  exact ⟨fun d0 h => delaysFrom_head cfg m _ d0 h, delaysFrom_tail_le_max cfg m _,
    fun h => delaysFrom_le_max cfg m _ h⟩

/-- C15 (amended) at the default policy and a server that always answers 503. -/
theorem backoff_sleeps_capped_after_first_witness :
    ∀ x ∈ backoffSleeps (Request DefaultRetryConfig parseTwoSeconds .ready
      (fun _ => .response 503 "" "busy")).trace, x ≤ DefaultRetryConfig.MaxDelay :=
  (backoff_sleeps_capped_after_first DefaultRetryConfig parseTwoSeconds
    (fun _ => .response 503 "" "busy")).2.2 (by decide)

/-- The loop returns a response exactly when the last call it made was answered
with a status below 400, and that response is what it returns. -/
theorem attemptLoop_ok_iff (cfg : RetryConfig) (parse : String → Option Int)
    (tr : Nat → Outcome) (s : Int) (ra body : String) :
    ∀ (fuel a : Nat) (d : Int) (le : Option String),
      (attemptLoop cfg parse tr fuel a d le).result = .ok s ra body ↔
        (1 ≤ (attemptLoop cfg parse tr fuel a d le).trace.count Step.call ∧
          tr (a + (attemptLoop cfg parse tr fuel a d le).trace.count Step.call - 1) =
            .response s ra body ∧ s < 400) := by
  intro fuel
  induction fuel with
  | zero =>
    intro a d le
    simp [attemptLoop, afterLoop_trace, afterLoop_not_ok]
  | succ f ih =>
    intro a d le
    have key : ∀ (d1 : Int) (le1 : Option String) (x : Step), x ≠ Step.call →
        (∀ s1 ra1 body1, tr a = .response s1 ra1 body1 → ¬ s1 < 400) →
        (((attemptLoop cfg parse tr f (a + 1) d1 le1).after [.call, x]).result =
            .ok s ra body ↔
          (1 ≤ ((attemptLoop cfg parse tr f (a + 1) d1 le1).after [.call, x]).trace.count
              Step.call ∧
            tr (a + ((attemptLoop cfg parse tr f (a + 1) d1 le1).after
              [.call, x]).trace.count Step.call - 1) = .response s ra body ∧ s < 400)) := by
      intro d1 le1 x hx hnot
      have hcount : ((attemptLoop cfg parse tr f (a + 1) d1 le1).after
          [.call, x]).trace.count Step.call =
          (attemptLoop cfg parse tr f (a + 1) d1 le1).trace.count Step.call + 1 := by
        have hx2 : (x == Step.call) = false := by
          simpa using hx
        simp [RequestRun.after, List.count_cons, hx2]
      have hres : ((attemptLoop cfg parse tr f (a + 1) d1 le1).after [.call, x]).result =
          (attemptLoop cfg parse tr f (a + 1) d1 le1).result := rfl
      rw [hcount, hres, ih (a + 1) d1 le1]
      by_cases hc : 1 ≤ (attemptLoop cfg parse tr f (a + 1) d1 le1).trace.count Step.call
      · have e : a + 1 + (attemptLoop cfg parse tr f (a + 1) d1 le1).trace.count Step.call
            - 1 = a + ((attemptLoop cfg parse tr f (a + 1) d1 le1).trace.count Step.call + 1)
            - 1 := by omega
        rw [e]
        constructor
        · rintro ⟨_, h2, h3⟩
          exact ⟨by omega, h2, h3⟩
        · rintro ⟨_, h2, h3⟩
          exact ⟨hc, h2, h3⟩
      · have hz : (attemptLoop cfg parse tr f (a + 1) d1 le1).trace.count Step.call = 0 := by
          omega
        rw [hz]
        constructor
        · rintro ⟨h1, _, _⟩
          omega
        · rintro ⟨_, h2, h3⟩
          have h2a : tr a = .response s ra body := by simpa using h2
          exact absurd h3 (hnot s ra body h2a)
    rw [attemptLoop_succ]
    by_cases hle : (a : Int) ≤ cfg.MaxRetries
    · simp only [hle, if_true]
      cases hta : tr a with
      | netErr err =>
        have hnot : ∀ s1 ra1 body1, tr a = .response s1 ra1 body1 → ¬ s1 < 400 := by
          intro s1 ra1 body1 h
          rw [hta] at h
          cases h
        by_cases hlt : (a : Int) < cfg.MaxRetries
        · simp only [hlt, if_true]
          exact key (nextDelay cfg d) (some err) (.backoff d) (by simp) hnot
        · simp [hlt, List.count_cons, hta]
      | response s1 ra1 body1 =>
        dsimp only
        cases hrl : rateLimitWait parse s1 ra1 with
        | some w =>
          have h429 := rateLimitWait_some_status parse s1 ra1 w hrl
          have hnot : ∀ s2 ra2 body2, tr a = .response s2 ra2 body2 → ¬ s2 < 400 := by
            intro s2 ra2 body2 h
            rw [hta] at h
            cases h
            omega
          dsimp only
          exact key d le (.rateLimit w) (by simp) hnot
        | none =>
          dsimp only
          by_cases h400 : s1 ≥ 400
          · have hnot : ∀ s2 ra2 body2, tr a = .response s2 ra2 body2 → ¬ s2 < 400 := by
              intro s2 ra2 body2 h
              rw [hta] at h
              cases h
              omega
            cases hr : isRetryable cfg s1 a with
            | true =>
              simp only [h400, if_true]
              exact key (nextDelay cfg d) le (.backoff d) (by simp) hnot
            | false =>
              simp [h400, List.count_cons, hta]
              intro h1 _ _
              omega
          · simp [h400, List.count_cons, hta]
            intro h1 _ _
            omega
    · simp [hle, afterLoop_trace, afterLoop_not_ok]

/-- When the loop returns a response, the call that received it is the last
effect of the run. -/
theorem attemptLoop_ok_last_call (cfg : RetryConfig) (parse : String → Option Int)
    (tr : Nat → Outcome) (s : Int) (ra body : String) :
    ∀ (fuel a : Nat) (d : Int) (le : Option String),
      (attemptLoop cfg parse tr fuel a d le).result = .ok s ra body →
      ∃ pre, (attemptLoop cfg parse tr fuel a d le).trace = pre ++ [.call] := by
  intro fuel
  induction fuel with
  | zero =>
    intro a d le h
    exact absurd h (afterLoop_not_ok cfg le s ra body)
  | succ f ih =>
    intro a d le
    have key : ∀ (d1 : Int) (le1 : Option String) (x : Step),
        ((attemptLoop cfg parse tr f (a + 1) d1 le1).after [.call, x]).result =
          .ok s ra body →
        ∃ pre, ((attemptLoop cfg parse tr f (a + 1) d1 le1).after [.call, x]).trace =
          pre ++ [.call] := by
      intro d1 le1 x h
      obtain ⟨pre, hpre⟩ := ih (a + 1) d1 le1 h
      exact ⟨[.call, x] ++ pre, by simp [RequestRun.after, hpre]⟩
    rw [attemptLoop_succ]
    by_cases hle : (a : Int) ≤ cfg.MaxRetries
    · simp only [hle, if_true]
      cases hta : tr a with
      | netErr err =>
        by_cases hlt : (a : Int) < cfg.MaxRetries
        · simp only [hlt, if_true]
          exact key _ _ _
        · simp [hlt]
      | response s1 ra1 body1 =>
        dsimp only
        cases hrl : rateLimitWait parse s1 ra1 with
        | some w =>
          dsimp only
          exact key _ _ _
        | none =>
          dsimp only
          by_cases h400 : s1 ≥ 400
          · cases hr : isRetryable cfg s1 a with
            | true =>
              simp only [h400, if_true]
              exact key _ _ _
            | false => simp [h400]
          · simp only [h400, if_false]
            intro _
            exact ⟨[], rfl⟩
    · simp only [hle, if_false]
      intro h
      exact absurd h (afterLoop_not_ok cfg le s ra body)

/-- C16: for every policy, preparation and sequence of attempt outcomes, Request
returns a response exactly when the last attempt it made received a status below
400; the response returned is that attempt's, and the call that received it is
the last effect of the run, so no sleep and no further attempt follows it. -/
theorem request_succeeds_iff_last_attempt_ok (cfg : RetryConfig)
    (parse : String → Option Int) (prepared : Prepared) (tr : Nat → Outcome)
    (s : Int) (ra body : String) :
    ((Request cfg parse prepared tr).result = .ok s ra body ↔
      (1 ≤ (Request cfg parse prepared tr).attempts ∧
        tr ((Request cfg parse prepared tr).attempts - 1) = .response s ra body ∧
        s < 400)) ∧
    ((Request cfg parse prepared tr).result = .ok s ra body →
      ∃ pre, (Request cfg parse prepared tr).trace = pre ++ [.call]) := by
  cases prepared with
  | marshalError e => simp [Request, RequestRun.attempts]
  | createError e => simp [Request, RequestRun.attempts]
  | ready =>
    refine ⟨?_, ?_⟩
    · have h := attemptLoop_ok_iff cfg parse tr s ra body (cfg.MaxRetries + 1).toNat 0
        cfg.InitialDelay none
      simpa [Request, RequestRun.attempts] using h
    · exact attemptLoop_ok_last_call cfg parse tr s ra body (cfg.MaxRetries + 1).toNat 0
        cfg.InitialDelay none

/-- C16 on a 503 followed by a 200 under the default policy: the 200 is returned
and its call ends the run. -/
theorem request_succeeds_iff_last_attempt_ok_witness :
    (Request DefaultRetryConfig parseTwoSeconds .ready
      (fun i => if i = 0 then .response 503 "" "busy" else .response 200 "" "ok")).result =
      .ok 200 "" "ok" ∧
    ∃ pre, (Request DefaultRetryConfig parseTwoSeconds .ready
      (fun i => if i = 0 then .response 503 "" "busy" else .response 200 "" "ok")).trace =
      pre ++ [.call] :=
  ⟨(request_succeeds_iff_last_attempt_ok DefaultRetryConfig parseTwoSeconds .ready
      (fun i => if i = 0 then .response 503 "" "busy" else .response 200 "" "ok")
      200 "" "ok").1.2 (by decide),
   (request_succeeds_iff_last_attempt_ok DefaultRetryConfig parseTwoSeconds .ready
      (fun i => if i = 0 then .response 503 "" "busy" else .response 200 "" "ok")
      200 "" "ok").2 (by decide)⟩

/-! ## Further lemmas on the chunk loop and the queue -/

/-- Whatever the transport answers, the call number `j` of the loop posted the
`m` events from index `i + j * m` on, and that index is within the input. -/
theorem chunkLoop_calls_get (send : Nat → List EventInput → ChunkReply)
    (events : List EventInput) (m : Nat) :
    ∀ (fuel i k : Nat) (acc : List Event) (j : Nat) (c : List EventInput),
      (chunkLoop send events m fuel i k acc).calls[j]? = some c →
      i + j * m < events.length ∧ c = (events.drop (i + j * m)).take m := by
  intro fuel
  induction fuel with
  | zero => intro i k acc j c h; simp [chunkLoop] at h
  | succ f ih =>
    intro i k acc j c h
    rw [chunkLoop_succ] at h
    by_cases hi : i < events.length
    · simp only [hi, if_true] at h
      cases hs : send k ((events.drop i).take m) with
      | requestError e =>
        rw [hs] at h
        cases j with
        | zero =>
          simp only [List.getElem?_cons_zero, Option.some.injEq] at h
          simp [hi, ← h]
        | succ j => simp at h
      | decodeError cause =>
        rw [hs] at h
        cases j with
        | zero =>
          simp only [List.getElem?_cons_zero, Option.some.injEq] at h
          simp [hi, ← h]
        | succ j => simp at h
      | events es =>
        rw [hs] at h
        simp only [BatchRun.withCall] at h
        cases j with
        | zero =>
          simp only [List.getElem?_cons_zero, Option.some.injEq] at h
          simp [hi, ← h]
        | succ j =>
          simp only [List.getElem?_cons_succ] at h
          have hrec := ih (i + m) (k + 1) (acc ++ es) j c h
          have e : i + m + j * m = i + (j + 1) * m := by ring
          rw [e] at hrec
          exact hrec
    · simp [hi] at h

/-- The loop posts at most as many chunks as there are events. -/
theorem chunkLoop_calls_length_le (send : Nat → List EventInput → ChunkReply)
    (events : List EventInput) (m : Nat) (hm : 1 ≤ m) (fuel k : Nat) (acc : List Event) :
    (chunkLoop send events m fuel 0 k acc).calls.length ≤ events.length := by
  by_contra hcon
  have hlen : events.length < (chunkLoop send events m fuel 0 k acc).calls.length := by
    omega
  have hget : (chunkLoop send events m fuel 0 k acc).calls[events.length]? =
      some ((chunkLoop send events m fuel 0 k acc).calls[events.length]) :=
    List.getElem?_eq_getElem hlen
  have h := (chunkLoop_calls_get send events m fuel 0 k acc _ _ hget).1
  have : events.length ≤ events.length * m := Nat.le_mul_of_pos_right _ hm
  omega

/-- Past the end of the input the loop posts nothing. -/
theorem chunkLoop_calls_past (send : Nat → List EventInput → ChunkReply)
    (events : List EventInput) (m fuel i k : Nat) (acc : List Event)
    (hi : events.length ≤ i) :
    (chunkLoop send events m fuel i k acc).calls = [] := by
  cases fuel with
  | zero => rfl
  | succ f =>
    rw [chunkLoop_succ]
    simp [not_lt.2 hi]

/-- Fuel beyond the length of the input changes nothing. -/
theorem chunkLoop_fuel_add (send : Nat → List EventInput → ChunkReply)
    (events : List EventInput) (m : Nat) (hm : 1 ≤ m) (k : Nat) (acc : List Event) :
    ∀ extra : Nat, chunkLoop send events m (events.length + extra) 0 k acc =
      chunkLoop send events m events.length 0 k acc := by
  intro extra
  induction extra with
  | zero => rfl
  | succ e ih =>
    rw [← Nat.add_assoc, chunkLoop_fuel_succ send events m hm _ 0 k acc (by omega), ih]

/-- LogBatch on exactly one chunk's worth of events posts them as one chunk,
whatever the transport answers. -/
theorem LogBatch_single_chunk (batchConfig : Option BatchConfig)
    (send : Nat → List EventInput → ChunkReply) (events : List EventInput)
    (hlen : (events.length : Int) = maxBatchSize batchConfig) :
    (LogBatch batchConfig send events).calls = [events] := by
  have hpos := maxBatchSize_pos batchConfig
  have hm : (maxBatchSize batchConfig).toNat = events.length := by omega
  have hn : events.length ≠ 0 := by omega
  obtain ⟨f, hf⟩ : ∃ f, events.length = f + 1 := ⟨events.length - 1, by omega⟩
  unfold LogBatch
  simp only [hn, if_false, hm]
  have htake : (events.drop 0).take events.length = events := by simp
  conv_lhs => rw [hf, chunkLoop_succ]
  rw [← hf]
  simp only [Nat.pos_of_ne_zero hn, if_true, htake]
  cases hs : send 0 events with
  | requestError e => rfl
  | decodeError cause => rfl
  | events es =>
    simp only [BatchRun.withCall]
    rw [chunkLoop_calls_past send events _ f _ _ _ (by omega)]

/-- The queue of a client stays below the flush threshold, and its configuration
stays what it was created with. -/
theorem runOps_queue_lt (send : Nat → List EventInput → ChunkReply)
    (batchConfig : Option BatchConfig) :
    ∀ ops : List Op,
      ((runOps send batchConfig ops).client.batchQueue.length : Int) <
          maxBatchSize batchConfig ∧
        (runOps send batchConfig ops).client.batchConfig = batchConfig := by
  intro ops
  have hpos := maxBatchSize_pos batchConfig
  induction ops using List.reverseRecOn with
  | nil => exact ⟨by simpa [runOps, NewWorkspaceClient] using hpos, rfl⟩
  | append_singleton l op ih =>
    obtain ⟨hlt, hcfg⟩ := ih
    rw [runOps_snoc]
    cases op with
    | queue e =>
      by_cases hge : ((runOps send batchConfig l).client.batchQueue.length : Int) + 1 ≥
          maxBatchSize batchConfig
      · simp [stepOp, QueueEvent, hcfg, hge, flushBatchLocked, hpos]
      · simp only [stepOp, QueueEvent, hcfg, List.length_append, List.length_singleton,
          Nat.cast_add, Nat.cast_one, hge, if_false]
        exact ⟨by omega, trivial⟩
    | flush =>
      by_cases hq : (runOps send batchConfig l).client.batchQueue.length = 0
      · simp only [stepOp, FlushBatch, flushBatchLocked, hq, if_true]
        exact ⟨by omega, hcfg⟩
      · simp [stepOp, FlushBatch, flushBatchLocked, hq, hpos, hcfg]

theorem enqueuedEvents_append (ops1 ops2 : List Op) :
    enqueuedEvents (ops1 ++ ops2) = enqueuedEvents ops1 ++ enqueuedEvents ops2 := by
  induction ops1 with
  | nil => rfl
  | cons op rest ih => cases op <;> simp [enqueuedEvents, ih]

/-! ## Further claims on the batching queue and the chunk loop -/

/-- C17: after every sequence of QueueEvent and FlushBatch calls on a new client,
whatever the transport answered, the queue is shorter than the threshold (MaxSize
when positive, else 100); so a QueueEvent that follows either hands nothing to
batch submission or hands exactly threshold-many events, the queue and the new
event, which LogBatch posts as a single chunk. -/
theorem queue_stays_below_max_size (batchConfig : Option BatchConfig)
    (send : Nat → List EventInput → ChunkReply) (ops : List Op) :
    ((runOps send batchConfig ops).client.batchQueue.length : Int) <
      maxBatchSize batchConfig ∧
    (∀ (send2 : Nat → List EventInput → ChunkReply) (e : EventInput),
      ((QueueEvent send2 (runOps send batchConfig ops).client e).submitted = [] ∧
        (QueueEvent send2 (runOps send batchConfig ops).client e).calls = []) ∨
      ((QueueEvent send2 (runOps send batchConfig ops).client e).submitted =
          [(runOps send batchConfig ops).client.batchQueue ++ [e]] ∧
        ((((runOps send batchConfig ops).client.batchQueue ++ [e]).length : Int) =
          maxBatchSize batchConfig) ∧
        (QueueEvent send2 (runOps send batchConfig ops).client e).calls =
          [(runOps send batchConfig ops).client.batchQueue ++ [e]])) := by
  obtain ⟨hlt, hcfg⟩ := runOps_queue_lt send batchConfig ops
  refine ⟨hlt, ?_⟩
  intro send2 e
  by_cases hge : ((runOps send batchConfig ops).client.batchQueue.length : Int) + 1 ≥
      maxBatchSize batchConfig
  · right
    have hlen : ((((runOps send batchConfig ops).client.batchQueue ++ [e]).length : Int) =
        maxBatchSize batchConfig) := by
      simp only [List.length_append, List.length_singleton, Nat.cast_add, Nat.cast_one]
      omega
    have hone := LogBatch_single_chunk batchConfig send2
      ((runOps send batchConfig ops).client.batchQueue ++ [e]) hlen
    simp [QueueEvent, hcfg, hge, flushBatchLocked, hone]
    omega
  · left
    simp [QueueEvent, hcfg, hge]

/-- C18: after every sequence of QueueEvent and FlushBatch calls on a new client,
whatever the transport answered, the event lists handed to batch submission, in
call order and concatenated, followed by the events still queued, are exactly
the events enqueued, in enqueue order. -/
theorem queue_preserves_enqueue_order (batchConfig : Option BatchConfig)
    (send : Nat → List EventInput → ChunkReply) (ops : List Op) :
    (runOps send batchConfig ops).submitted.flatten ++
        (runOps send batchConfig ops).client.batchQueue =
      enqueuedEvents ops := by
  induction ops using List.reverseRecOn with
  | nil => rfl
  | append_singleton l op ih =>
    rw [runOps_snoc, enqueuedEvents_append, ← ih]
    cases op with
    | queue e =>
      by_cases hge : ((runOps send batchConfig l).client.batchQueue.length : Int) + 1 ≥
          maxBatchSize (runOps send batchConfig l).client.batchConfig
      · simp [stepOp, QueueEvent, hge, flushBatchLocked, enqueuedEvents]
      · simp [stepOp, QueueEvent, hge, enqueuedEvents]
    | flush =>
      by_cases hq : (runOps send batchConfig l).client.batchQueue.length = 0
      · simp [stepOp, FlushBatch, flushBatchLocked, hq, enqueuedEvents]
      · simp [stepOp, FlushBatch, flushBatchLocked, hq, enqueuedEvents]

/-- C19: for every batch configuration and event list the chunk size of LogBatch
is at least 1, is 100 when no configuration is present or MaxSize is not
positive, and is MaxSize otherwise; so the loop index strictly increases, every
chunk posted is a slice `events[i:stop]` with `i < stop <= len(events)`, the
loop posts at most `len(events)` chunks whatever the transport answers, and
iterations beyond `len(events)` would change nothing. -/
theorem chunk_loop_stays_in_bounds (batchConfig : Option BatchConfig)
    (send : Nat → List EventInput → ChunkReply) (events : List EventInput) :
    1 ≤ maxBatchSize batchConfig ∧
    ((∀ cfg, batchConfig = some cfg → cfg.MaxSize ≤ 0) → maxBatchSize batchConfig = 100) ∧
    (∀ cfg, batchConfig = some cfg → 0 < cfg.MaxSize →
      maxBatchSize batchConfig = cfg.MaxSize) ∧
    (∀ i : Nat, i < i + (maxBatchSize batchConfig).toNat) ∧
    (∀ (j : Nat) (c : List EventInput),
      (LogBatch batchConfig send events).calls[j]? = some c →
      j * (maxBatchSize batchConfig).toNat <
        (if j * (maxBatchSize batchConfig).toNat + (maxBatchSize batchConfig).toNat >
            events.length then events.length
          else j * (maxBatchSize batchConfig).toNat + (maxBatchSize batchConfig).toNat) ∧
      (if j * (maxBatchSize batchConfig).toNat + (maxBatchSize batchConfig).toNat >
            events.length then events.length
          else j * (maxBatchSize batchConfig).toNat + (maxBatchSize batchConfig).toNat) ≤
        events.length ∧
      c = slice events (j * (maxBatchSize batchConfig).toNat)
        (if j * (maxBatchSize batchConfig).toNat + (maxBatchSize batchConfig).toNat >
            events.length then events.length
          else j * (maxBatchSize batchConfig).toNat + (maxBatchSize batchConfig).toNat)) ∧
    (LogBatch batchConfig send events).calls.length ≤ events.length ∧
    (∀ extra : Nat,
      chunkLoop send events (maxBatchSize batchConfig).toNat (events.length + extra) 0 0 [] =
        chunkLoop send events (maxBatchSize batchConfig).toNat events.length 0 0 []) := by
  have hpos := maxBatchSize_pos batchConfig
  have hm := maxBatchSize_toNat_pos batchConfig
  refine ⟨by omega, ?_, ?_, fun i => by omega, ?_, ?_, ?_⟩
  · intro h
    cases batchConfig with
    | none => rfl
    | some cfg =>
      have := h cfg rfl
      simp [maxBatchSize, not_lt.2 this]
  · intro cfg hcfg h
    subst hcfg
    simp [maxBatchSize, h]
  · intro j c hget
    have hrun : (LogBatch batchConfig send events).calls[j]? = some c → 
        0 + j * (maxBatchSize batchConfig).toNat < events.length ∧
        c = (events.drop (0 + j * (maxBatchSize batchConfig).toNat)).take
          (maxBatchSize batchConfig).toNat := by
      unfold LogBatch
      by_cases hn : events.length = 0
      · simp [hn]
      · simp only [hn, if_false]
        exact chunkLoop_calls_get send events _ _ 0 0 [] j c
    obtain ⟨hlt, hc⟩ := hrun hget
    rw [Nat.zero_add] at hlt hc
    rw [slice_stop, ← hc]
    refine ⟨?_, ?_, rfl⟩
    · by_cases h : j * (maxBatchSize batchConfig).toNat + (maxBatchSize batchConfig).toNat >
          events.length
      · simp only [h, if_true]; exact hlt
      · simp only [h, if_false]; omega
    · by_cases h : j * (maxBatchSize batchConfig).toNat + (maxBatchSize batchConfig).toNat >
          events.length
      · simp only [h, if_true]; exact le_refl _
      · simp only [h, if_false]; omega
  · unfold LogBatch
    by_cases hn : events.length = 0
    · simp [hn]
    · simp only [hn, if_false]
      exact chunkLoop_calls_length_le send events _ hm _ 0 []
  · exact chunkLoop_fuel_add send events _ hm 0 []

/-- C19 with `MaxSize = 2` on five events: the first chunk posted is
`events[0:2]`. -/
theorem chunk_loop_stays_in_bounds_witness :
    fiveEvents.take 2 = slice fiveEvents (0 * (maxBatchSize batchOfTwo).toNat)
      (if 0 * (maxBatchSize batchOfTwo).toNat + (maxBatchSize batchOfTwo).toNat >
          fiveEvents.length then fiveEvents.length
        else 0 * (maxBatchSize batchOfTwo).toNat + (maxBatchSize batchOfTwo).toNat) :=
  ((chunk_loop_stays_in_bounds batchOfTwo confirmAll fiveEvents).2.2.2.2.1 0
    (fiveEvents.take 2) (by decide)).2.2

/-! ## Lemmas on `buildQueryString` -/

theorem condSet_decide (c : Prop) [Decidable c] (values : Values) (key value : String) :
    (if c then Values.Set values key value else values) =
      condSet (decide c) values key value := by
  by_cases h : c <;> simp [condSet, h]

/-- The nine conditional sets of `buildQueryString`, in source order, leave the
kept entries in ascending order of their keys. -/
theorem condSet_chain (b1 b2 b3 b4 b5 b6 b7 b8 b9 : Bool)
    (v1 v2 v3 v4 v5 v6 v7 v8 v9 : String) :
    condSet b9 (condSet b8 (condSet b7 (condSet b6 (condSet b5 (condSet b4 (condSet b3
      (condSet b2 (condSet b1 [] "page" v1) "limit" v2) "from" v3) "to" v4) "action" v5)
      "category" v6) "actorId" v7) "actorEmail" v8) "projectId" v9 =
    keptEntry b5 "action" v5 ++ (keptEntry b8 "actorEmail" v8 ++ (keptEntry b7 "actorId" v7 ++
      (keptEntry b6 "category" v6 ++ (keptEntry b3 "from" v3 ++ (keptEntry b2 "limit" v2 ++
      (keptEntry b1 "page" v1 ++ (keptEntry b9 "projectId" v9 ++
      keptEntry b4 "to" v4))))))) := by
  cases b1 <;> cases b2 <;> cases b3 <;> cases b4 <;> cases b5 <;> cases b6 <;>
    cases b7 <;> cases b8 <;> cases b9 <;> rfl

theorem writePair_length_pos (buf pair : String) (h : 0 < pair.length) :
    0 < (writePair buf pair).length := by
  unfold writePair
  rw [String.length_append]
  omega

theorem pair_length_pos (a b : String) : 0 < (a ++ "=" ++ b).length := by
  rw [String.length_append, String.length_append]
  have : "=".length = 1 := rfl
  omega

theorem ne_empty_of_length_pos (a : String) (h : 0 < a.length) : a ≠ "" := by
  intro h2
  rw [h2] at h
  simp at h

/-- The buffer writes of `Encode` are the writes of its pairs, in order. -/
theorem encode_foldl (escape : String → String) :
    ∀ (v : Values) (buf : String),
      v.foldl (fun buf kv =>
        kv.2.foldl (fun buf value =>
          (if buf.length > 0 then buf ++ "&" else buf) ++ escape kv.1 ++ "=" ++ escape value)
          buf) buf =
      (encodedPairs escape v).foldl writePair buf := by
  intro v
  induction v with
  | nil => intro buf; rfl
  | cons kv rest ih =>
    intro buf
    have hinner : ∀ (vs : List String) (b : String),
        vs.foldl (fun buf value =>
          (if buf.length > 0 then buf ++ "&" else buf) ++ escape kv.1 ++ "=" ++ escape value)
          b =
        (vs.map (fun value => escape kv.1 ++ "=" ++ escape value)).foldl writePair b := by
      intro vs
      induction vs with
      | nil => intro b; rfl
      | cons x xs ihx =>
        intro b
        simp only [List.foldl_cons, List.map_cons]
        rw [ihx]
        congr 1
        simp only [writePair, String.append_assoc]
    simp only [List.foldl_cons, encodedPairs, List.flatMap_cons, List.foldl_append]
    rw [hinner, ih]
    rfl

theorem Encode_eq_foldl (escape : String → String) (v : Values) :
    Values.Encode escape v = (encodedPairs escape v).foldl writePair "" := by
  unfold Values.Encode
  by_cases h : v.length = 0
  · have hv : v = [] := List.length_eq_zero.1 h
    subst hv
    rfl
  · simp only [h, if_false]
    exact encode_foldl escape v ""

/-- Writing non-empty pairs into a non-empty buffer joins them with ampersands. -/
theorem foldl_writePair_go :
    ∀ (ps : List String) (acc : String), 0 < acc.length →
      ps.foldl writePair acc = String.intercalate.go acc "&" ps := by
  intro ps
  induction ps with
  | nil => intro acc _; rfl
  | cons p rest ih =>
    intro acc hacc
    have hstep : writePair acc p = acc ++ "&" ++ p := by
      simp [writePair, hacc]
    have hpos : 0 < (acc ++ "&" ++ p).length := by
      rw [String.length_append, String.length_append]
      omega
    simp only [List.foldl_cons, hstep]
    rw [ih _ hpos]
    rfl

theorem foldl_writePair_intercalate (ps : List String)
    (hps : ∀ p ∈ ps, 0 < p.length) :
    ps.foldl writePair "" = String.intercalate "&" ps := by
  cases ps with
  | nil => rfl
  | cons p rest =>
    have hp : 0 < p.length := hps p (List.mem_cons_self _ _)
    have hfirst : writePair "" p = p := by
      simp [writePair]
    simp only [List.foldl_cons, hfirst]
    rw [foldl_writePair_go rest p hp]
    rfl

theorem go_length_pos :
    ∀ (ps : List String) (acc : String), 0 < acc.length →
      0 < (String.intercalate.go acc "&" ps).length := by
  intro ps
  induction ps with
  | nil => intro acc h; exact h
  | cons p rest ih =>
    intro acc h
    have hpos : 0 < (acc ++ "&" ++ p).length := by
      rw [String.length_append, String.length_append]
      omega
    exact ih _ hpos

theorem intercalate_ne_empty (ps : List String) (hne : ps ≠ [])
    (hps : ∀ p ∈ ps, 0 < p.length) : String.intercalate "&" ps ≠ "" := by
  cases ps with
  | nil => exact absurd rfl hne
  | cons p rest =>
    exact ne_empty_of_length_pos _
      (go_length_pos rest p (hps p (List.mem_cons_self _ _)))

theorem encodedPairs_append (escape : String → String) (v w : Values) :
    encodedPairs escape (v ++ w) = encodedPairs escape v ++ encodedPairs escape w := by
  simp [encodedPairs, List.flatMap_append]

theorem encodedPairs_keptEntry (escape : String → String) (keep : Bool)
    (key value : String) (hkey : escape key = key) :
    encodedPairs escape (keptEntry keep key value) =
      if keep then [key ++ "=" ++ escape value] else [] := by
  cases keep <;> simp [encodedPairs, keptEntry, hkey]

theorem filter_cons_bool (f : String × Bool × String) (rest : List (String × Bool × String)) :
    (f :: rest).filter (fun f => f.2.1) =
      (if f.2.1 then [f] else []) ++ rest.filter (fun f => f.2.1) := by
  cases h : f.2.1 <;> simp [List.filter_cons, h]

theorem map_kept (g : String × Bool × String → String) (b : Bool)
    (f : String × Bool × String) :
    (if b then [f] else []).map g = if b then [g f] else [] := by
  cases b <;> rfl

/-- The end of `buildQueryString` on a map whose pairs are those of a list of
kept fields. -/
theorem finish_eq (escape : String → String) (v : Values)
    (kept : List (String × Bool × String))
    (hpairs : encodedPairs escape v = kept.map (fun f => f.1 ++ "=" ++ escape f.2.2)) :
    (if Values.Encode escape v ≠ "" then "?" ++ Values.Encode escape v else "") =
      (if kept = [] then ""
        else "?" ++ String.intercalate "&"
          (kept.map (fun f => f.1 ++ "=" ++ escape f.2.2))) := by
  have hall : ∀ p ∈ kept.map (fun f => f.1 ++ "=" ++ escape f.2.2), 0 < p.length := by
    intro p hp
    obtain ⟨f, _, rfl⟩ := List.mem_map.1 hp
    exact pair_length_pos _ _
  rw [Encode_eq_foldl, hpairs, foldl_writePair_intercalate _ hall]
  by_cases hk : kept = []
  · subst hk
    simp [String.intercalate]
  · have hne : kept.map (fun f => f.1 ++ "=" ++ escape f.2.2) ≠ [] := by
      intro h
      exact hk (List.map_eq_nil_iff.1 h)
    simp only [hk, if_false, intercalate_ne_empty _ hne hall, ne_eq, not_false_eq_true,
      if_true]

/-- For every escaping function that leaves the nine keys alone,
`buildQueryString` is the reference. -/
theorem buildQueryString_eq_reference (escape : String → String)
    (hkeys : ∀ k ∈ queryKeys, escape k = k) (o : QueryOptions) :
    buildQueryString escape o = referenceQueryString escape o := by
  have hchain := condSet_chain (decide (o.Page > 0)) (decide (o.Limit > 0))
    (decide (o.From ≠ "")) (decide (o.To ≠ "")) (decide (o.Action ≠ ""))
    (decide (o.Category ≠ "")) (decide (o.ActorID ≠ "")) (decide (o.ActorEmail ≠ ""))
    (decide (o.ProjectID ≠ "")) (Itoa o.Page) (Itoa o.Limit) o.From o.To o.Action
    o.Category o.ActorID o.ActorEmail o.ProjectID
  have hbuild : buildQueryString escape o =
      (if Values.Encode escape
          (condSet (decide (o.ProjectID ≠ "")) (condSet (decide (o.ActorEmail ≠ ""))
            (condSet (decide (o.ActorID ≠ "")) (condSet (decide (o.Category ≠ ""))
            (condSet (decide (o.Action ≠ "")) (condSet (decide (o.To ≠ ""))
            (condSet (decide (o.From ≠ "")) (condSet (decide (o.Limit > 0))
            (condSet (decide (o.Page > 0)) [] "page" (Itoa o.Page)) "limit" (Itoa o.Limit))
            "from" o.From) "to" o.To) "action" o.Action) "category" o.Category)
            "actorId" o.ActorID) "actorEmail" o.ActorEmail) "projectId" o.ProjectID) ≠ ""
        then "?" ++ Values.Encode escape
          (condSet (decide (o.ProjectID ≠ "")) (condSet (decide (o.ActorEmail ≠ ""))
            (condSet (decide (o.ActorID ≠ "")) (condSet (decide (o.Category ≠ ""))
            (condSet (decide (o.Action ≠ "")) (condSet (decide (o.To ≠ ""))
            (condSet (decide (o.From ≠ "")) (condSet (decide (o.Limit > 0))
            (condSet (decide (o.Page > 0)) [] "page" (Itoa o.Page)) "limit" (Itoa o.Limit))
            "from" o.From) "to" o.To) "action" o.Action) "category" o.Category)
            "actorId" o.ActorID) "actorEmail" o.ActorEmail) "projectId" o.ProjectID)
        else "") := by
    simp only [← condSet_decide]
    rfl
  rw [hbuild, hchain]
  unfold referenceQueryString
  apply finish_eq
  have ha := hkeys "action" (by simp [queryKeys])
  have hae := hkeys "actorEmail" (by simp [queryKeys])
  have hai := hkeys "actorId" (by simp [queryKeys])
  have hc := hkeys "category" (by simp [queryKeys])
  have hf := hkeys "from" (by simp [queryKeys])
  have hl := hkeys "limit" (by simp [queryKeys])
  have hp := hkeys "page" (by simp [queryKeys])
  have hpr := hkeys "projectId" (by simp [queryKeys])
  have ht := hkeys "to" (by simp [queryKeys])
  simp only [encodedPairs_append, encodedPairs_keptEntry escape _ _ _ ha,
    encodedPairs_keptEntry escape _ _ _ hae, encodedPairs_keptEntry escape _ _ _ hai,
    encodedPairs_keptEntry escape _ _ _ hc, encodedPairs_keptEntry escape _ _ _ hf,
    encodedPairs_keptEntry escape _ _ _ hl, encodedPairs_keptEntry escape _ _ _ hp,
    encodedPairs_keptEntry escape _ _ _ hpr, encodedPairs_keptEntry escape _ _ _ ht,
    referenceFields, filter_cons_bool, List.filter_nil, List.append_nil, List.map_append,
    map_kept]

/-! ## Claim on `buildQueryString` -/

/-- C11: for every QueryOptions value `buildQueryString` equals the reference:
the keys action, actorEmail, actorId, category, from, limit, page, projectId, to
in that ascending order, a key kept exactly when its field is a non-empty string
or an integer above 0, the empty string when no key is kept and otherwise `?`
followed by the kept `key=escaped value` pairs joined by `&`.  This holds for
every escaping function that leaves the nine keys alone, as `url.QueryEscape`
does; page 2, limit 50, action "login" gives `?action=login&limit=50&page=2` and
the zero value gives the empty string. -/
theorem build_query_string_matches_reference :
    (∀ (escape : String → String), (∀ k ∈ queryKeys, escape k = k) →
      ∀ o : QueryOptions, buildQueryString escape o = referenceQueryString escape o) ∧
    (∀ k ∈ queryKeys, QueryEscape k = k) ∧
    (∀ o : QueryOptions,
      buildQueryString QueryEscape o = referenceQueryString QueryEscape o) ∧
    (∀ o : QueryOptions, (referenceFields o).map (fun f => f.1) = queryKeys) ∧
    List.Pairwise (fun a b => stringLess a b = true) queryKeys ∧
    buildQueryString QueryEscape loginQuery = "?action=login&limit=50&page=2" ∧
    buildQueryString QueryEscape emptyQuery = "" := by
  have hq : ∀ k ∈ queryKeys, QueryEscape k = k := by decide
  exact ⟨fun escape hkeys o => buildQueryString_eq_reference escape hkeys o, hq,
    fun o => buildQueryString_eq_reference QueryEscape hq o, fun _ => rfl, by decide,
    by decide, by decide⟩

/-- C11 at `url.QueryEscape` and the query page 2, limit 50, action "login". -/
theorem build_query_string_matches_reference_witness :
    buildQueryString QueryEscape loginQuery = referenceQueryString QueryEscape loginQuery :=
  build_query_string_matches_reference.1 QueryEscape (by decide) loginQuery

/-! ## Lemmas on `MockEventStore.Query` -/

theorem wrapInt_id (x : Int) (h1 : -9223372036854775808 ≤ x)
    (h2 : x ≤ 9223372036854775807) : wrapInt x = x := by
  unfold wrapInt
  omega

theorem Query_eq_core (s : MockEventStore) (options : QueryOptions) :
    MockEventStore.Query s options =
      queryCore (s.events.filter (queryKeeps options)) (queryPage options)
        (queryLimit options) := rfl

/-- The filter loop keeps the events the specification calls matching. -/
theorem filter_queryKeeps (s : MockEventStore) (options : QueryOptions) :
    s.events.filter (queryKeeps options) = matchingEvents s options := by
  unfold matchingEvents
  apply List.filter_congr
  intro e _
  unfold queryKeeps actorDiffers
  by_cases h1 : options.Action = "" <;> by_cases h2 : e.Action = options.Action <;>
    by_cases h3 : options.Category = "" <;> by_cases h4 : e.Category = options.Category <;>
    by_cases h5 : options.ActorID = "" <;> cases h6 : e.Actor <;>
    simp [h1, h2, h3, h4, h5]

/-- The offset `(page - 1) * limit` when the product `page * limit` fits a Go
`int`. -/
theorem offset_eq (P L : Nat) (hP : 1 ≤ P) (hL : 1 ≤ L)
    (h1 : ((P * L : Nat) : Int) ≤ maxInt) :
    wrapInt (wrapInt ((P : Int) - 1) * (L : Int)) = (((P - 1) * L : Nat) : Int) := by
  unfold maxInt at h1
  obtain ⟨k, rfl⟩ : ∃ k, P = k + 1 := ⟨P - 1, by omega⟩
  have hk : k ≤ k * L := Nat.le_mul_of_pos_right k hL
  have hkl : k * L ≤ (k + 1) * L := Nat.mul_le_mul_right L (Nat.le_succ k)
  have e1 : ((k + 1 : Nat) : Int) - 1 = (k : Int) := by push_cast; ring
  have e2 : (k : Int) * (L : Int) = ((k * L : Nat) : Int) := by push_cast; rfl
  simp only [Nat.add_sub_cancel]
  rw [e1]
  generalize (k + 1) * L = A at h1 hkl
  generalize k * L = Y at hk hkl e2
  have hkb : (k : Int) ≤ 9223372036854775807 := by omega
  have hyb : (Y : Int) ≤ 9223372036854775807 := by omega
  rw [wrapInt_id _ (by omega) hkb, e2, wrapInt_id _ (by omega) hyb]

/-- The body of `Query` on an offset `X` and a limit `L >= 1` when `X + L` and
the sum of the number of events and the limit fit a Go `int`. -/
theorem queryCore_of_offset (filtered : List Event) (page : Int) (L X : Nat) (hL : 1 ≤ L)
    (hoffset : wrapInt (wrapInt (page - 1) * (L : Int)) = (X : Int))
    (h1 : ((X + L : Nat) : Int) ≤ maxInt)
    (h2 : ((filtered.length + L : Nat) : Int) ≤ maxInt) :
    queryCore filtered page L =
      some { Data := (filtered.drop X).take (min (X + L) filtered.length - X),
             Pagination := { Page := page, Limit := L, Total := filtered.length,
                             TotalPages := ((filtered.length + L - 1) / L : Nat) },
             RetentionApplied := false, RetentionWindowStart := "" } := by
  unfold maxInt at h1 h2
  have hq : (filtered.length + L - 1) / L ≤ filtered.length + L - 1 := Nat.div_le_self _ _
  generalize hQ : (filtered.length + L - 1) / L = Q at hq
  have w3 : wrapInt ((X : Int) + (L : Int)) = ((X + L : Nat) : Int) := by
    rw [wrapInt_id _ (by omega) (by omega)]
    omega
  have w4 : wrapInt ((filtered.length : Int) + (L : Int)) =
      ((filtered.length + L : Nat) : Int) := by
    rw [wrapInt_id _ (by omega) (by omega)]
    omega
  have w5 : wrapInt (((filtered.length + L : Nat) : Int) - 1) =
      ((filtered.length + L - 1 : Nat) : Int) := by
    rw [wrapInt_id _ (by omega) (by omega)]
    omega
  have w6 : Int.tdiv ((filtered.length + L - 1 : Nat) : Int) (L : Int) = (Q : Int) := by
    rw [Int.tdiv_eq_ediv (by omega) (by omega), ← Int.natCast_div, hQ]
  have w7 : wrapInt (Q : Int) = (Q : Int) := wrapInt_id _ (by omega) (by omega)
  unfold queryCore
  simp only [hoffset, w3, w4, w5, w6, w7]
  by_cases hoff : (X : Int) ≥ (filtered.length : Int)
  · have hdrop : filtered.drop X = [] := List.drop_eq_nil_iff.2 (by omega)
    simp [hoff, hdrop]
  · have hrange : (0 : Int) ≤ (X : Int) ∧
        (X : Int) ≤
          (if ((X + L : Nat) : Int) > (filtered.length : Int) then (filtered.length : Int)
            else ((X + L : Nat) : Int)) := by
      refine ⟨by omega, ?_⟩
      by_cases hc : ((X + L : Nat) : Int) > (filtered.length : Int)
      · simp only [hc, if_true]; omega
      · simp only [hc, if_false]; omega
    have hlen : ((if ((X + L : Nat) : Int) > (filtered.length : Int)
          then (filtered.length : Int) else ((X + L : Nat) : Int)) - (X : Int)).toNat =
        min (X + L) filtered.length - X := by
      by_cases hc : ((X + L : Nat) : Int) > (filtered.length : Int)
      · simp only [hc, if_true]; omega
      · simp only [hc, if_false]; omega
    simp only [hoff, if_false, hrange, and_self, if_true, hlen, Int.toNat_ofNat]
theorem ceil_div_bounds (n L : Nat) (hL : 1 ≤ L) :
    n ≤ (n + L - 1) / L * L ∧ (n + L - 1) / L * L < n + L := by
  have h1 := Nat.div_mul_le_self (n + L - 1) L
  have h2 := Nat.lt_div_mul_add (a := n + L - 1) (b := L) (by omega)
  generalize (n + L - 1) / L * L = T at h1 h2
  omega

/-- Query, for a non-negative page and limit whose product, like the sum of the
number of matching events and the limit, fits a Go `int`. -/
theorem Query_in_range (s : MockEventStore) (options : QueryOptions)
    (hp : 0 ≤ options.Page) (hl : 0 ≤ options.Limit)
    (h1 : queryPage options * queryLimit options ≤ maxInt)
    (h2 : ((matchingEvents s options).length : Int) + queryLimit options ≤ maxInt) :
    MockEventStore.Query s options =
      some { Data := referencePage s options,
             Pagination :=
               { Page := queryPage options, Limit := queryLimit options,
                 Total := (matchingEvents s options).length,
                 TotalPages := (((matchingEvents s options).length +
                   (queryLimit options).toNat - 1) / (queryLimit options).toNat : Nat) },
             RetentionApplied := false, RetentionWindowStart := "" } := by
  obtain ⟨P, hP, hP1⟩ : ∃ P : Nat, queryPage options = P ∧ 1 ≤ P := by
    refine ⟨(queryPage options).toNat, ?_, ?_⟩ <;> unfold queryPage <;> split_ifs <;> omega
  obtain ⟨L, hL, hL1⟩ : ∃ L : Nat, queryLimit options = L ∧ 1 ≤ L := by
    refine ⟨(queryLimit options).toNat, ?_, ?_⟩ <;> unfold queryLimit <;> split_ifs <;> omega
  have hPL : (P - 1) * L + L = P * L := by
    obtain ⟨k, rfl⟩ : ∃ k, P = k + 1 := ⟨P - 1, by omega⟩
    simp only [Nat.add_sub_cancel]
    ring
  have e1 : ((P : Int) - 1) * (L : Int) = (((P - 1) * L : Nat) : Int) := by
    obtain ⟨k, rfl⟩ : ∃ k, P = k + 1 := ⟨P - 1, by omega⟩
    push_cast
    simp
  have e2 : (P : Int) * (L : Int) = ((P * L : Nat) : Int) := by push_cast; rfl
  rw [hP, hL] at h1
  rw [hL] at h2
  rw [e2] at h1
  have h1b : (((P - 1) * L + L : Nat) : Int) ≤ maxInt := by rw [hPL]; exact h1
  have h2b : (((matchingEvents s options).length + L : Nat) : Int) ≤ maxInt := by
    push_cast
    exact h2
  have hcore := queryCore_of_offset (matchingEvents s options) (P : Int) L ((P - 1) * L)
    hL1 (offset_eq P L hP1 hL1 h1) h1b h2b
  rw [Query_eq_core, filter_queryKeeps, hP, hL, hcore]
  unfold referencePage
  rw [hP, hL, e1, e2, hPL]
  simp only [Int.toNat_ofNat]

/-! ## Claim on `MockEventStore.Query` -/

/-- C20 (counterexample): on the empty store, the query with `Page = 2^62` and
`Limit = 4` (both non-negative) makes `(page - 1) * limit` wrap around to `-4`, so
that `filtered[offset:end]` is `filtered[-4:0]` and Query panics. -/
theorem query_page_overflow_counterexample :
    0 ≤ overflowQuery.Page ∧ 0 ≤ overflowQuery.Limit ∧
    wrapInt (wrapInt (overflowQuery.Page - 1) * overflowQuery.Limit) = -4 ∧
    MockEventStore.Query { events := [], nextID := 1 } overflowQuery = none := by
  refine ⟨by decide, by decide, by decide, by decide⟩

/-- C20 (amended): for every store and every QueryOptions with `Page >= 0` and
`Limit >= 0` such that `p * l` and `|F| + l` do not exceed the largest Go `int`
(`p` is Page, or 1 when Page is 0; `l` is Limit, or 20 when Limit is 0; `F` the
stored events matching the Action, Category and ActorID filters in insertion
order), Query slices within range and returns the events of `F` from position
`(p - 1) * l` up to `min (p * l) |F|`, none when `(p - 1) * l >= |F|` and at most
`l` of them, with Pagination `{p, l, |F|, ceil(|F| / l)}`. -/
theorem query_returns_requested_page (s : MockEventStore) (options : QueryOptions)
    (hp : 0 ≤ options.Page) (hl : 0 ≤ options.Limit)
    (h1 : queryPage options * queryLimit options ≤ maxInt)
    (h2 : ((matchingEvents s options).length : Int) + queryLimit options ≤ maxInt) :
    MockEventStore.Query s options =
      some { Data := referencePage s options,
             Pagination :=
               { Page := queryPage options, Limit := queryLimit options,
                 Total := (matchingEvents s options).length,
                 TotalPages := (((matchingEvents s options).length +
                   (queryLimit options).toNat - 1) / (queryLimit options).toNat : Nat) },
             RetentionApplied := false, RetentionWindowStart := "" } ∧
    ((referencePage s options).length : Int) ≤ queryLimit options ∧
    (((matchingEvents s options).length : Int) ≤
        (queryPage options - 1) * queryLimit options → referencePage s options = []) ∧
    (matchingEvents s options).length ≤
      ((matchingEvents s options).length + (queryLimit options).toNat - 1) /
        (queryLimit options).toNat * (queryLimit options).toNat ∧
    ((matchingEvents s options).length + (queryLimit options).toNat - 1) /
        (queryLimit options).toNat * (queryLimit options).toNat <
      (matchingEvents s options).length + (queryLimit options).toNat := by
  obtain ⟨P, hP, hP1⟩ : ∃ P : Nat, queryPage options = P ∧ 1 ≤ P := by
    refine ⟨(queryPage options).toNat, ?_, ?_⟩ <;> unfold queryPage <;> split_ifs <;> omega
  obtain ⟨L, hL, hL1⟩ : ∃ L : Nat, queryLimit options = L ∧ 1 ≤ L := by
    refine ⟨(queryLimit options).toNat, ?_, ?_⟩ <;> unfold queryLimit <;> split_ifs <;> omega
  have hPL : (P - 1) * L + L = P * L := by
    obtain ⟨k, rfl⟩ : ∃ k, P = k + 1 := ⟨P - 1, by omega⟩
    simp only [Nat.add_sub_cancel]
    ring
  have e1 : ((P : Int) - 1) * (L : Int) = (((P - 1) * L : Nat) : Int) := by
    obtain ⟨k, rfl⟩ : ∃ k, P = k + 1 := ⟨P - 1, by omega⟩
    push_cast
    simp
  have e2 : (P : Int) * (L : Int) = ((P * L : Nat) : Int) := by push_cast; rfl
  have hceil := ceil_div_bounds (matchingEvents s options).length L hL1
  refine ⟨Query_in_range s options hp hl h1 h2, ?_, ?_, ?_, ?_⟩
  · unfold referencePage
    rw [hP, hL, e1, e2, ← hPL]
    simp only [Int.toNat_ofNat, List.length_take, List.length_drop]
    generalize (P - 1) * L = X
    omega
  · intro hge
    unfold referencePage
    rw [hP, hL, e1] at hge ⊢
    simp only [Int.toNat_ofNat]
    rw [List.drop_eq_nil_iff.2 (by omega)]
    exact List.take_nil
  · rw [hL]
    exact hceil.1
  · rw [hL]
    exact hceil.2

/-- C20 (amended) on a store of three events, two of them logins: page 2 with
limit 1 of the logins is the second login. -/
theorem query_returns_requested_page_witness :
    MockEventStore.Query threeEventStore
        { emptyQuery with Action := "login", Page := 2, Limit := 1 } =
      some { Data := referencePage threeEventStore
               { emptyQuery with Action := "login", Page := 2, Limit := 1 },
             Pagination :=
               { Page := 2, Limit := 1, Total := 2, TotalPages := 2 },
             RetentionApplied := false, RetentionWindowStart := "" } ∧
    referencePage threeEventStore
        { emptyQuery with Action := "login", Page := 2, Limit := 1 } =
      [mockEvent "mock-3" "login" "u2"] :=
  ⟨(query_returns_requested_page threeEventStore
      { emptyQuery with Action := "login", Page := 2, Limit := 1 }
      (by decide) (by decide) (by decide) (by decide)).1, by decide⟩

/-! ## Lemmas on `MockEventStore.Add` and `Clear` -/

theorem getElem?_snoc (events : List Event) (x : Event) (i : Nat) (e : Event)
    (h : (events ++ [x])[i]? = some e) :
    events[i]? = some e ∨ (i = events.length ∧ e = x) := by
  by_cases hi : i < events.length
  · left
    rw [List.getElem?_append_left hi] at h
    exact h
  · right
    rw [List.getElem?_append_right (by omega)] at h
    by_cases h0 : i - events.length = 0
    · rw [h0] at h
      simp only [List.getElem?_cons_zero, Option.some.injEq] at h
      exact ⟨by omega, h.symm⟩
    · obtain ⟨j, hj⟩ : ∃ j, i - events.length = j + 1 := ⟨i - events.length - 1, by omega⟩
      rw [hj] at h
      simp at h

theorem getElem?_lt (events : List Event) (i : Nat) (e : Event)
    (h : events[i]? = some e) : i < events.length := by
  by_contra hcon
  rw [List.getElem?_eq_none (by omega)] at h
  cases h

/-- Appending an event with the next identity, whose PrevHash is the Hash of the
last event (or empty on an empty list), keeps the hash chain. -/
theorem hashChain_snoc (events : List Event) (x : Event) (hc : hashChain events)
    (hid : x.ID = "mock-" ++ Itoa ((events.length : Int) + 1))
    (hhash : x.Hash = "hash-" ++ Itoa ((events.length : Int) + 1))
    (hprev : x.PrevHash = match events.getLast? with
      | some last => last.Hash
      | none => "") :
    hashChain (events ++ [x]) := by
  obtain ⟨h1, h2, h3⟩ := hc
  refine ⟨?_, ?_, ?_⟩
  · intro i e he
    rcases getElem?_snoc events x i e he with h | ⟨hi, hx⟩
    · exact h1 i e h
    · subst hi
      subst hx
      exact ⟨hid, hhash⟩
  · intro e he
    rcases getElem?_snoc events x 0 e he with h | ⟨hi, hx⟩
    · exact h2 e h
    · have hnil : events = [] := List.length_eq_zero.1 hi.symm
      subst hx
      rw [hprev, hnil]
      rfl
  · intro i e next he hnext
    rcases getElem?_snoc events x (i + 1) next hnext with h | ⟨hi, hx⟩
    · have hlt := getElem?_lt events (i + 1) next h
      rw [List.getElem?_append_left (by omega)] at he
      exact h3 i e next he h
    · have hlt : i < events.length := by omega
      rw [List.getElem?_append_left hlt] at he
      have hlast : events.getLast? = some e := by
        rw [List.getLast?_eq_getElem?, ← hi, Nat.add_sub_cancel]
        exact he
      subst hx
      rw [hprev, hlast]

theorem hashChain_nil : hashChain [] := by
  refine ⟨?_, ?_, ?_⟩
  · intro i e h; simp at h
  · intro e h; simp at h
  · intro i e next h; simp at h

/-- The invariant of the store: a hash chain, with `nextID` one more than the
number of events. -/
theorem runStore_invariant :
    ∀ ops : List StoreOp,
      hashChain (runStore ops).events ∧
        (runStore ops).nextID = ((runStore ops).events.length : Int) + 1 ∧
        (runStore ops).events.length = addsSinceClear ops := by
  intro ops
  induction ops using List.reverseRecOn with
  | nil => exact ⟨hashChain_nil, rfl, rfl⟩
  | append_singleton l op ih =>
    obtain ⟨hc, hnext, hcount⟩ := ih
    have hrun : runStore (l ++ [op]) = stepStore (runStore l) op := by
      simp [runStore, List.foldl_append]
    rw [hrun]
    cases op with
    | add event now =>
      have hadds : addsSinceClear (l ++ [.add event now]) = addsSinceClear l + 1 := by
        simp [addsSinceClear, List.foldl_append]
      rw [hadds]
      refine ⟨?_, ?_, ?_⟩
      · apply hashChain_snoc _ _ hc
        · simp only [stepStore, MockEventStore.Add, hnext]
          cases (runStore l).events.getLast? <;> rfl
        · simp only [stepStore, MockEventStore.Add, hnext]
          cases (runStore l).events.getLast? <;> rfl
        · simp only [stepStore, MockEventStore.Add]
          cases (runStore l).events.getLast? <;> rfl
      · simp only [stepStore, MockEventStore.Add, hnext, List.length_append,
          List.length_singleton, Nat.cast_add, Nat.cast_one]
      · simp only [stepStore, MockEventStore.Add, List.length_append,
          List.length_singleton, hcount]
    | clear =>
      have hadds : addsSinceClear (l ++ [.clear]) = 0 := by
        simp [addsSinceClear, List.foldl_append]
      rw [hadds]
      exact ⟨hashChain_nil, rfl, rfl⟩

/-! ## Claim on `MockEventStore.Add` and `Clear` -/

/-- C21: after any sequence of Add and Clear calls on a store created by
NewMockEventStore, the event at position `i` has ID `mock-<i+1>` and Hash
`hash-<i+1>`, the first event has an empty PrevHash, every later event's
PrevHash is the Hash of the event just before it, and Count is the number of Add
calls since the last Clear. -/
theorem store_is_hash_chain (ops : List StoreOp) :
    (∀ (i : Nat) (e : Event), (runStore ops).events[i]? = some e →
      e.ID = "mock-" ++ Itoa ((i : Int) + 1) ∧ e.Hash = "hash-" ++ Itoa ((i : Int) + 1)) ∧
    (∀ e : Event, (runStore ops).events[0]? = some e → e.PrevHash = "") ∧
    (∀ (i : Nat) (e next : Event), (runStore ops).events[i]? = some e →
      (runStore ops).events[i + 1]? = some next → next.PrevHash = e.Hash) ∧
    (runStore ops).Count = (addsSinceClear ops : Int) := by
  obtain ⟨⟨h1, h2, h3⟩, _, hcount⟩ := runStore_invariant ops
  refine ⟨h1, h2, h3, ?_⟩
  simp only [MockEventStore.Count, hcount]

/-- C21 on two Adds, a Clear and two more Adds: the second stored event is
`mock-2` with Hash `hash-2` and PrevHash `hash-1`, and Count is 2. -/
theorem store_is_hash_chain_witness :
    (∀ e : Event, (runStore addAddClearAdd).events[1]? = some e →
      e.ID = "mock-" ++ Itoa ((1 : Nat) + 1) ∧ e.Hash = "hash-" ++ Itoa ((1 : Nat) + 1)) ∧
    ((runStore addAddClearAdd).events.map (fun e => (e.ID, e.Hash, e.PrevHash)) =
      [("mock-1", "hash-1", ""), ("mock-2", "hash-2", "hash-1")]) ∧
    (runStore addAddClearAdd).Count = 2 :=
  ⟨fun e => (store_is_hash_chain addAddClearAdd).1 1 e, by decide,
    (store_is_hash_chain addAddClearAdd).2.2.2⟩

end Hyrelog
